import Mathlib

/-!
# go-mosaic: a shallow embedding of `mosaic.go`

The Go file builds a photomosaic.  This development embeds its functions
(`Mosaic`, `resizeimages`, `colorProfile`, `colorDistance`,
`closestTileByColor`, `avgColor`) together with the parts of the Go standard
library they call (`image.Rect`, `image.NewRGBA`, `draw.Draw` with `draw.Src`).

Conventions.

* Go `int` is `Int` (no claim depends on wrap-around); `/` on `int` truncates
  towards zero, which is `Int.tdiv`.
* A `float64` holding a channel value is `F64`: an exact rational or `nan`.
  Every finite `float64` is a rational number, so quantifying over `F64.fin q`
  covers every finite channel value.  The sums of the averaging loops and
  their quotient by the count are taken exact.
* The `float64` operations of `colorDistance` (`-`, `*`, `+`, `math.Sqrt`, `<`)
  are those of IEEE 754 binary64 on `Float64`: the exact result rounded to the
  nearest float64, ties to even, with subnormal numbers, overflow to the
  infinities, and NaN.  Each operation is rounded on its own (no fused
  multiply-add, as on amd64); the sign of zero is not kept.
* A run-time panic is `none` / `Result.panic`.
-/

namespace GoMosaic

/-! ## Floating point values -/

/-- A `float64` channel value: a finite value (an exact rational) or a
non-finite one.  The only division by zero the program performs is `0 / 0`
(an empty sum over an empty count), whose IEEE result is NaN. -/
inductive F64 where
  | fin (q : ℚ)
  | nan
  deriving DecidableEq

namespace F64

/-- The `float64` quotient `a / b`; a zero divisor gives a non-finite value. -/
def div : F64 → F64 → F64
  | fin a, fin b => if b = 0 then nan else fin (a / b)
  | _, _ => nan

end F64

/-- An IEEE 754 binary64 value: a finite number (given by its exact rational
value), `+Inf`, `-Inf` or NaN. -/
inductive Float64 where
  | fin (q : ℚ)
  | pinf
  | ninf
  | nan
  deriving DecidableEq

/-- The integer nearest to `y`, the even one of the two when `y` lies half-way. -/
def rne (y : ℚ) : ℤ :=
  if y - ⌊y⌋ < 1 / 2 then ⌊y⌋
  else if 1 / 2 < y - ⌊y⌋ then ⌊y⌋ + 1
  else if ⌊y⌋ % 2 = 0 then ⌊y⌋ else ⌊y⌋ + 1

/-- The binary exponent of the binade of `x`: the greatest `e` with
`2^e ≤ |x|`, and `-1022` for the subnormal numbers. -/
def expo (x : ℚ) : ℤ := max (Int.log 2 |x|) (-1022)

/-- The unit in the last place of the binade of `x`: the spacing of the
float64 values there (53 bits of significand). -/
def ulp (x : ℚ) : ℚ := 2 ^ (expo x - 52)

/-- The float64 nearest to the exact value `x` (round to nearest, ties to
even): `x` is rounded to a multiple of the unit in the last place of its
binade; a result of magnitude `2^1024` or more is an infinity. -/
def round64 (x : ℚ) : Float64 :=
  let r : ℚ := (rne (x / ulp x) : ℚ) * ulp x
  if 2 ^ 1024 ≤ r then Float64.pinf
  else if r ≤ -2 ^ 1024 then Float64.ninf
  else Float64.fin r

/-- The float64 nearest to the square root of `s ≥ 0` (correctly rounded, as
`math.Sqrt` is): with `q` the unit in the last place of the binade of the
root and `t = s / q²`, the integer part `n` of `√t` is rounded up when `t`
lies above `(n + 1/2)²`, ties to even. -/
def sqrt64 (s : ℚ) : Float64 :=
  if s = 0 then Float64.fin 0
  else
    let q : ℚ := 2 ^ (Int.log 4 s - 52)
    let t : ℚ := s / (q * q)
    let n : ℕ := Nat.sqrt ⌊t⌋₊
    let h : ℚ := ((n : ℚ) + 1 / 2) * ((n : ℚ) + 1 / 2)
    let N : ℕ := if t < h then n else if h < t then n + 1 else if n % 2 = 0 then n else n + 1
    let r : ℚ := (N : ℚ) * q
    if 2 ^ 1024 ≤ r then Float64.pinf else Float64.fin r

namespace Float64

/-- The `float64` negation. -/
def neg : Float64 → Float64
  | fin q => fin (-q)
  | pinf => ninf
  | ninf => pinf
  | nan => nan

/-- The `float64` subtraction `a - b`. -/
def sub : Float64 → Float64 → Float64
  | fin a, fin b => round64 (a - b)
  | fin _, pinf => ninf
  | fin _, ninf => pinf
  | pinf, fin _ => pinf
  | pinf, ninf => pinf
  | ninf, fin _ => ninf
  | ninf, pinf => ninf
  | _, _ => nan

/-- The `float64` sum `a + b`. -/
def add : Float64 → Float64 → Float64
  | fin a, fin b => round64 (a + b)
  | fin _, pinf => pinf
  | fin _, ninf => ninf
  | pinf, fin _ => pinf
  | pinf, pinf => pinf
  | ninf, fin _ => ninf
  | ninf, ninf => ninf
  | _, _ => nan

/-- The product of an infinity of the given sign (`true` for `+Inf`) and a
finite number: NaN for zero, an infinity otherwise. -/
def infMul (positive : Bool) (a : ℚ) : Float64 :=
  if a = 0 then nan
  else if (decide (0 < a)) = positive then pinf else ninf

/-- The `float64` product `a * b`. -/
def mul : Float64 → Float64 → Float64
  | fin a, fin b => round64 (a * b)
  | fin a, pinf => infMul true a
  | fin a, ninf => infMul false a
  | pinf, fin b => infMul true b
  | ninf, fin b => infMul false b
  | pinf, pinf => pinf
  | ninf, ninf => pinf
  | pinf, ninf => ninf
  | ninf, pinf => ninf
  | _, _ => nan

/-- The `float64` comparison `a < b`: false as soon as one side is NaN. -/
def lt : Float64 → Float64 → Bool
  | fin p, fin q => decide (p < q)
  | fin _, pinf => true
  | ninf, fin _ => true
  | ninf, pinf => true
  | _, _ => false

/-- The `float64` comparison `a <= b`: false as soon as one side is NaN. -/
def le : Float64 → Float64 → Bool
  | fin p, fin q => decide (p ≤ q)
  | fin _, pinf => true
  | ninf, fin _ => true
  | ninf, pinf => true
  | pinf, pinf => true
  | ninf, ninf => true
  | _, _ => false

end Float64

/-- A channel value as an operand of a `float64` operation. -/
def F64.toFloat64 : F64 → Float64
  | F64.fin q => Float64.fin q
  | F64.nan => Float64.nan

/-- Go `math.Sqrt`: NaN for NaN and for negative arguments, `+Inf` for `+Inf`. -/
def Sqrt : Float64 → Float64
  | Float64.fin q => if q < 0 then Float64.nan else sqrt64 q
  | Float64.pinf => Float64.pinf
  | Float64.ninf => Float64.nan
  | Float64.nan => Float64.nan

/-- The largest finite `float64`, `(2^53 - 1) * 2^971`. -/
def MaxFloat64Val : ℚ := (2 ^ 53 - 1) * 2 ^ 971

/-- Go `math.MaxFloat64`. -/
def MaxFloat64 : Float64 := Float64.fin MaxFloat64Val

/-! ## Images -/

/-- Go `image.Point`. -/
structure Point where
  X : Int
  Y : Int
  deriving DecidableEq, Repr

/-- Go `image.Rectangle`: contains the points with `Min.X ≤ x < Max.X` and
`Min.Y ≤ y < Max.Y`. -/
structure Rectangle where
  Min : Point
  Max : Point
  deriving DecidableEq, Repr

/-- Go `image.Rect`: the rectangle with the given corners, the coordinates
swapped where needed so that it is well formed. -/
def Rect (x0 y0 x1 y1 : Int) : Rectangle :=
  let (x0, x1) := if x0 > x1 then (x1, x0) else (x0, x1)
  let (y0, y1) := if y0 > y1 then (y1, y0) else (y0, y1)
  ⟨⟨x0, y0⟩, ⟨x1, y1⟩⟩

namespace Rectangle

/-- Go `Rectangle.Empty`. -/
def Empty (r : Rectangle) : Bool :=
  decide (r.Min.X ≥ r.Max.X) || decide (r.Min.Y ≥ r.Max.Y)

/-- Go `Rectangle.Add`: translation by `p`. -/
def Add (r : Rectangle) (p : Point) : Rectangle :=
  ⟨⟨r.Min.X + p.X, r.Min.Y + p.Y⟩, ⟨r.Max.X + p.X, r.Max.Y + p.Y⟩⟩

/-- Go `Rectangle.Intersect`: the largest rectangle contained in both, the
zero rectangle when that is empty. -/
def Intersect (r s : Rectangle) : Rectangle :=
  let t : Rectangle :=
    ⟨⟨if r.Min.X < s.Min.X then s.Min.X else r.Min.X,
      if r.Min.Y < s.Min.Y then s.Min.Y else r.Min.Y⟩,
     ⟨if r.Max.X > s.Max.X then s.Max.X else r.Max.X,
      if r.Max.Y > s.Max.Y then s.Max.Y else r.Max.Y⟩⟩
  if t.Empty then ⟨⟨0, 0⟩, ⟨0, 0⟩⟩ else t

/-- Go `Point.In`: membership of the point `(x, y)`. -/
def Contains (r : Rectangle) (x y : Int) : Bool :=
  decide (r.Min.X ≤ x) && decide (x < r.Max.X) && decide (r.Min.Y ≤ y) && decide (y < r.Max.Y)

end Rectangle

/-- The four samples returned by Go `color.Color.RGBA()` (alpha-premultiplied,
`uint32`, at most `0xffff` for the standard colour types). -/
structure Pixel where
  r : Nat
  g : Nat
  b : Nat
  a : Nat
  deriving DecidableEq, Repr

/-- Go `image.Image`: `Bounds()` and `At(x, y).RGBA()`.  The bounds of an image
are well formed. -/
structure Image where
  bounds : Rectangle
  At : Int → Int → Pixel
  wf : bounds.Min.X ≤ bounds.Max.X ∧ bounds.Min.Y ≤ bounds.Max.Y

/-- The source's `Color`: RGB values in floating point. -/
structure Color where
  r : F64
  g : F64
  b : F64
  deriving DecidableEq

/-- The source's `TileImage`: a tile with its average colour attached. -/
structure TileImage where
  img : Image
  avgColor : Color

/-- The source's `ImageSq`: an image square and its average colour. -/
structure ImageSq where
  bounds : Rectangle
  avgColor : Color
  deriving DecidableEq

/-- A channel value that is finite and lies in the sample range `[0, 65535]`. -/
def F64.inRange : F64 → Bool
  | F64.fin q => decide (0 ≤ q) && decide (q ≤ 65535)
  | F64.nan => false

/-- A colour all of whose channels are finite and in `[0, 65535]`. -/
def Color.inRange (c : Color) : Bool :=
  c.r.inRange && c.g.inRange && c.b.inRange

/-- The colour with the given finite channels. -/
def Color.ofRat (r g b : ℚ) : Color := ⟨F64.fin r, F64.fin g, F64.fin b⟩

/-! ## Colour arithmetic -/

/-- The source's `colorDistance`:
`math.Sqrt((c1.r-c2.r)*(c1.r-c2.r) + (c1.g-c2.g)*(c1.g-c2.g) + (c1.b-c2.b)*(c1.b-c2.b))`,
every operation rounded to `float64`, the sum taken from left to right. -/
def colorDistance (c1 c2 : Color) : Float64 :=
  Sqrt (Float64.add
    (Float64.add
      (Float64.mul (Float64.sub c1.r.toFloat64 c2.r.toFloat64)
        (Float64.sub c1.r.toFloat64 c2.r.toFloat64))
      (Float64.mul (Float64.sub c1.g.toFloat64 c2.g.toFloat64)
        (Float64.sub c1.g.toFloat64 c2.g.toFloat64)))
    (Float64.mul (Float64.sub c1.b.toFloat64 c2.b.toFloat64)
      (Float64.sub c1.b.toFloat64 c2.b.toFloat64)))

/-- The exact squared Euclidean distance of two rational triples. -/
def sqDist (ar ag ab br bg bb : ℚ) : ℚ :=
  (ar - br) * (ar - br) + (ag - bg) * (ag - bg) + (ab - bb) * (ab - bb)

/-- The value of the distance from `c` to a colour when it is finite, `0`
otherwise. -/
def distValue (c : Color) (t : Color) : ℚ :=
  match colorDistance c t with
  | Float64.fin q => q
  | _ => 0

/-- The loop of `closestTileByColor` from index `i` on, with the current
`closest` (the index the pointer refers to, `none` for the nil pointer) and
`min`. -/
def closestLoop (c : Color) : List TileImage → Nat → Option Nat → Float64 → Option Nat
  | [], _, closest, _ => closest
  | t :: rest, i, closest, min =>
    let dist := colorDistance c t.avgColor
    if Float64.lt dist min then closestLoop c rest (i + 1) (some i) dist
    else closestLoop c rest (i + 1) closest min

/-- The source's `closestTileByColor`: the pointer `&tileImgs[i]` is the index
`i`, the nil pointer is `none`. -/
def closestTileByColor (c : Color) (tileImgs : List TileImage) : Option Nat :=
  closestLoop c tileImgs 0 none MaxFloat64

/-! ## Averages -/

/-- The integers `lo, lo+1, ..., hi-1` in increasing order: the values taken by
`v` in `for v := lo; v < hi; v++`. -/
def intRange (lo hi : Int) : List Int :=
  (List.range (hi - lo).toNat).map (fun (k : Nat) => lo + (k : Int))

/-- The accumulators `sumR, sumG, sumB, count` of the averaging loops.  They
only ever hold sums of `uint32` samples, which are finite. -/
structure Sums where
  sumR : ℚ
  sumG : ℚ
  sumB : ℚ
  count : ℚ
  deriving DecidableEq

/-- One iteration of the loop body: `r, g, b, _ := At(x, y).RGBA()`, then
`sumR += float64(r)`, `sumG += float64(g)`, `sumB += float64(b)`, `count += 1`. -/
def Sums.addPixel (s : Sums) (p : Pixel) : Sums :=
  ⟨s.sumR + (p.r : ℚ), s.sumG + (p.g : ℚ), s.sumB + (p.b : ℚ), s.count + 1⟩

/-- The nested loops `for y := y0; y < y1; y++ { for x := x0; x < x1; x++ { ... } }`
started from zeroed accumulators. -/
def sumRegion (m : Image) (x0 x1 y0 y1 : Int) : Sums :=
  (intRange y0 y1).foldl
    (fun s y => (intRange x0 x1).foldl (fun s x => s.addPixel (m.At x y)) s)
    ⟨0, 0, 0, 0⟩

/-- The final division: `Color{sumR / count, sumG / count, sumB / count}`. -/
def Sums.toColor (s : Sums) : Color :=
  ⟨F64.div (F64.fin s.sumR) (F64.fin s.count),
   F64.div (F64.fin s.sumG) (F64.fin s.count),
   F64.div (F64.fin s.sumB) (F64.fin s.count)⟩

/-- The source's `avgColor`: the average RGB colour over the image's bounds. -/
def avgColor (m : Image) : Color :=
  (sumRegion m m.bounds.Min.X m.bounds.Max.X m.bounds.Min.Y m.bounds.Max.Y).toColor

/-! ## Colour profile -/

/-- The body of the `j`/`i` loops of `colorProfile`: the square of row `j` and
column `i`.  The inner loops run `y1` from `y` while `y1 < y+sqSize` and
`y1 < bounds.Max.Y`, and `x1` likewise. -/
def profileSq (img : Image) (sqSize : Int) (j i : Nat) : ImageSq :=
  let y : Int := (j : Int) * sqSize
  let x : Int := (i : Int) * sqSize
  let s := sumRegion img x (min (x + sqSize) img.bounds.Max.X) y (min (y + sqSize) img.bounds.Max.Y)
  ⟨Rect x y (x + sqSize) (y + sqSize), s.toColor⟩

/-- The source's `colorProfile`.  It panics (`none`) on the integer division by
a zero `sqSize` and on `make` with a negative length. -/
def colorProfile (img : Image) (sqSize : Int) : Option (List (List ImageSq)) :=
  if sqSize = 0 then none
  else
    let numSq : Int := Int.tdiv (img.bounds.Max.X - img.bounds.Min.X) sqSize + 1
    if numSq < 0 then none
    else some ((List.range numSq.toNat).map fun j =>
      (List.range numSq.toNat).map fun i => profileSq img sqSize j i)

/-! ## Canvas and drawing -/

/-- The zero colour `color.RGBA{}`. -/
def Pixel.zero : Pixel := ⟨0, 0, 0, 0⟩

/-- A sample after a round trip through an 8-bit channel of `*image.RGBA`:
stored as `uint8(s >> 8)`, read back by `color.RGBA.RGBA()` as `v | v << 8`. -/
def quant (s : Nat) : Nat := (s / 256 % 256) * 257

/-- A pixel as stored in, and read back from, an `*image.RGBA`. -/
def Pixel.toRGBA (p : Pixel) : Pixel := ⟨quant p.r, quant p.g, quant p.b, quant p.a⟩

/-- Go `image.NewRGBA`: a canvas with the given bounds, every pixel zero.  It
panics (`none`) on a rectangle of negative width or height. -/
def NewRGBA (r : Rectangle) : Option Image :=
  if h : r.Min.X ≤ r.Max.X ∧ r.Min.Y ≤ r.Max.Y then
    some { bounds := r, At := fun _ _ => Pixel.zero, wf := h }
  else none

/-- Go `draw.Draw(dst, r, src, sp, draw.Src)` on an `*image.RGBA` destination:
`r` is clipped to the bounds of `dst` and to those of `src` translated by
`r.Min - sp`; every pixel of the clipped rectangle is replaced by the source
pixel at the same offset from `sp`, converted to 8 bits per channel. -/
def Draw (dst : Image) (r : Rectangle) (src : Image) (sp : Point) : Image :=
  let clipped := (r.Intersect dst.bounds).Intersect
    (src.bounds.Add ⟨r.Min.X - sp.X, r.Min.Y - sp.Y⟩)
  { bounds := dst.bounds
    At := fun x y =>
      if clipped.Contains x y then
        (src.At (sp.X + (x - r.Min.X)) (sp.Y + (y - r.Min.Y))).toRGBA
      else dst.At x y
    wf := dst.wf }

/-! ## The mosaic -/

/-- What a call of a Go function returning `(T, error)` does: return a value
with a nil error, return a non-nil error, or panic. -/
inductive Result (α : Type) where
  | ok (v : α)
  | error
  | panic

/-- Go conversion `uint(size)` of an `int` on a 64-bit platform. -/
def toUint (size : Int) : Nat := (size % 2 ^ 64).toNat

/-- The source's `resizeimages`; `resize w h img` stands for the external
`resize.Resize(w, h, img, resize.NearestNeighbor)`. -/
def resizeimages (resize : Nat → Nat → Image → Image) (imgs : List Image) (size : Int) :
    List Image :=
  imgs.map (fun img => resize (toUint size) (toUint size) img)

/-- The element `squares[y][x]`, `none` when an index is out of range (a
panic). -/
def gridAt (squares : List (List ImageSq)) (y x : Nat) : Option ImageSq :=
  match squares[y]? with
  | none => none
  | some row => row[x]?

/-- The destination rectangle of the cell of column `x` and row `y`:
`image.Rect(x*sqSize, y*sqSize, (x+1)*sqSize, (y+1)*sqSize)`. -/
def cellRect (sqSize : Int) (x y : Nat) : Rectangle :=
  Rect ((x : Int) * sqSize) ((y : Int) * sqSize)
    (((x : Int) + 1) * sqSize) (((y : Int) + 1) * sqSize)

/-- The inner loop `for x := ...` of `Mosaic` on row `y`, over the remaining
columns.  `none` is a panic: an index out of range, or the dereference
`closest.img` of a nil `closest`. -/
def drawRow (squares : List (List ImageSq)) (tileImgs : List TileImage) (sqSize : Int)
    (y : Nat) : List Nat → Image → Option Image
  | [], dest => some dest
  | x :: xs, dest =>
    match gridAt squares y x with
    | none => none
    | some sq =>
      match closestTileByColor sq.avgColor tileImgs with
      | none => none
      | some k =>
        match tileImgs[k]? with
        | none => none
        | some closest =>
          let bounds := cellRect sqSize x y
          drawRow squares tileImgs sqSize y xs (Draw dest bounds closest.img ⟨0, 0⟩)

/-- The outer loop `for y := ...` of `Mosaic` over the remaining rows; every
row runs over the columns `0 .. cols-1`. -/
def drawRows (squares : List (List ImageSq)) (tileImgs : List TileImage) (sqSize : Int)
    (cols : Nat) : List Nat → Image → Option Image
  | [], dest => some dest
  | y :: ys, dest =>
    match drawRow squares tileImgs sqSize y (List.range cols) dest with
    | none => none
    | some dest1 => drawRows squares tileImgs sqSize cols ys dest1

/-- The first loop of `Mosaic`: every resized tile with its average colour,
`tileImgs = append(tileImgs, TileImage{tile, avgColor(tile)})`. -/
def tileImages (resize : Nat → Nat → Image → Image) (tiles : List Image) (sqSize : Int) :
    List TileImage :=
  (resizeimages resize tiles sqSize).map (fun tile => ⟨tile, avgColor tile⟩)

/-- The source's `Mosaic`.  It has no `return` with a non-nil error. -/
def Mosaic (resize : Nat → Nat → Image → Image) (target : Image) (tiles : List Image)
    (sqSize : Int) : Result Image :=
  let tileImgs := tileImages resize tiles sqSize
  match colorProfile target sqSize with
  | none => Result.panic
  | some squares =>
    let x1 := sqSize * (squares.length : Int)
    let y1 := sqSize * (squares.length : Int)
    match NewRGBA (Rect 0 0 x1 y1) with
    | none => Result.panic
    | some dest =>
      match drawRows squares tileImgs sqSize (squares.length - 1)
          (List.range (squares.length - 1)) dest with
      | none => Result.panic
      | some out => Result.ok out

/-! ## Test data -/

/-- An image with origin `(0, 0)`, the given width and height and pixels. -/
def mkImage (w h : Nat) (f : Int → Int → Pixel) : Image :=
  { bounds := ⟨⟨0, 0⟩, ⟨(w : Int), (h : Int)⟩⟩
    At := f
    wf := ⟨Int.ofNat_nonneg w, Int.ofNat_nonneg h⟩ }

/-- Opaque red, `(65535, 0, 0)`. -/
def red : Pixel := ⟨65535, 0, 0, 65535⟩

/-- Opaque blue, `(0, 0, 65535)`. -/
def blue : Pixel := ⟨0, 0, 65535, 65535⟩

/-- A 2x2 solid red tile image. -/
def redTile : Image := mkImage 2 2 (fun _ _ => red)

/-- A 2x2 solid blue tile image. -/
def blueTile : Image := mkImage 2 2 (fun _ _ => blue)

/-- The colour every channel of which is NaN: what the averaging loops return
on an empty region (`0 / 0`). -/
def nanColor : Color := ⟨F64.nan, F64.nan, F64.nan⟩

/-- The 4x4 target of the end-to-end scenario: red in the top-left 2x2
quadrant, blue elsewhere. -/
def target4 : Image := mkImage 4 4 (fun x y => if x < 2 ∧ y < 2 then red else blue)

/-- A 2x2 target all of whose samples are `300`, a value that is not a multiple
of `257`. -/
def grey300 : Image := mkImage 2 2 (fun _ _ => ⟨300, 300, 300, 65535⟩)

/-- A 1x1 tile all of whose samples are `300`. -/
def greyTile : Image := mkImage 1 1 (fun _ _ => ⟨300, 300, 300, 65535⟩)

/-- A resize that returns its input: what `resize.Resize` does when the image
already has the requested size. -/
def resizeId : Nat → Nat → Image → Image := fun _ _ img => img

/-! ## Regions -/

/-- The accumulators `sumR, sumG, sumB, count` with which `colorProfile` leaves
the inner loops of the square of row `j` and column `i`. -/
def squareSums (img : Image) (sqSize : Int) (j i : Nat) : Sums :=
  sumRegion img ((i : Int) * sqSize) (min ((i : Int) * sqSize + sqSize) img.bounds.Max.X)
    ((j : Int) * sqSize) (min ((j : Int) * sqSize + sqSize) img.bounds.Max.Y)

/-- The image restricted to a rectangle: the same pixels, with the bounds
`image.Rect(x0, y0, x1, y1)`. -/
def restrict (img : Image) (x0 y0 x1 y1 : Int) : Image :=
  { bounds := Rect x0 y0 x1 y1
    At := img.At
    wf := by unfold Rect; split_ifs <;> simp only [] <;> omega }

/-- A 3x3 solid red target. -/
def target3 : Image := mkImage 3 3 (fun _ _ => red)

/-- A channel value that is finite and lies in `[lo, hi]`. -/
def F64.between (lo hi : ℚ) : F64 → Bool
  | F64.fin q => decide (lo ≤ q) && decide (q ≤ hi)
  | F64.nan => false

/-- Accumulators whose sums lie between `lo * count` and `hi * count`, channel
by channel. -/
def Sums.Within (s : Sums) (loR hiR loG hiG loB hiB : ℚ) : Prop :=
  (loR * s.count ≤ s.sumR ∧ s.sumR ≤ hiR * s.count) ∧
  (loG * s.count ≤ s.sumG ∧ s.sumG ≤ hiG * s.count) ∧
  (loB * s.count ≤ s.sumB ∧ s.sumB ≤ hiB * s.count)

/-- A 2x2 target whose red samples are 100 in the left and 300 in the right
column. -/
def twoTone : Image := mkImage 2 2 (fun x _ => if x < 1 then ⟨100, 0, 0, 65535⟩
  else ⟨300, 0, 0, 65535⟩)

/-! # Theorems -/

/-! ## Rounding -/

theorem rne_spec (y : ℚ) : |(rne y : ℚ) - y| ≤ 1 / 2 := by
  have h1 := Int.floor_le y
  have h2 := Int.lt_floor_add_one y
  unfold rne
  rw [abs_le]
  split_ifs with a b c
  · constructor <;> linarith
  · push_cast
    constructor <;> linarith
  · constructor <;> linarith
  · push_cast
    constructor <;> linarith

theorem rne_eq_of_near (y : ℚ) (N : ℤ) (h : |y - (N : ℚ)| < 1 / 2) : rne y = N := by
  have h1 := rne_spec y
  rw [abs_le] at h1
  rw [abs_lt] at h
  have h3 : ((rne y - N : ℤ) : ℚ) < 1 := by push_cast; linarith [h1.2, h.1]
  have h4 : (-1 : ℚ) < ((rne y - N : ℤ) : ℚ) := by push_cast; linarith [h1.1, h.2]
  have h5 : rne y - N < 1 := by exact_mod_cast h3
  have h6 : -1 < rne y - N := by exact_mod_cast h4
  omega

theorem rne_intCast (n : ℤ) : rne (n : ℚ) = n :=
  rne_eq_of_near _ n (by simp)

theorem rne_le_int (y : ℚ) (I : ℤ) (h : y ≤ (I : ℚ)) : rne y ≤ I := by
  have h1 := rne_spec y
  rw [abs_le] at h1
  have h3 : ((rne y : ℤ) : ℚ) < ((I + 1 : ℤ) : ℚ) := by push_cast; linarith [h1.2]
  have h4 : rne y < I + 1 := by exact_mod_cast h3
  omega

theorem rne_ge_int (y : ℚ) (I : ℤ) (h : (I : ℚ) ≤ y) : I ≤ rne y := by
  have h1 := rne_spec y
  rw [abs_le] at h1
  have h3 : ((I - 1 : ℤ) : ℚ) < ((rne y : ℤ) : ℚ) := by push_cast; linarith [h1.1]
  have h4 : I - 1 < rne y := by exact_mod_cast h3
  omega

theorem rne_neg (y : ℚ) : rne (-y) = -rne y := by
  by_cases ht : y - ⌊y⌋ = 1 / 2
  · -- a tie: y = n + 1/2
    have hy : y = (⌊y⌋ : ℚ) + 1 / 2 := by linarith
    have hf : ⌊-y⌋ = -⌊y⌋ - 1 := by
      rw [Int.floor_eq_iff]
      push_cast
      constructor <;> linarith
    have hfrac : -y - ((-⌊y⌋ - 1 : ℤ) : ℚ) = 1 / 2 := by push_cast; linarith
    unfold rne
    rw [hf, hfrac, ht]
    simp only [lt_self_iff_false, if_false]
    split_ifs <;> omega
  · have h1 := rne_spec y
    have hlt : |y - (rne y : ℚ)| < 1 / 2 := by
      have hfl := Int.floor_le y
      have hfl2 := Int.lt_floor_add_one y
      unfold rne
      rw [abs_lt]
      split_ifs with a b c
      · constructor <;> linarith
      · push_cast
        constructor <;> linarith
      · exfalso
        exact ht (le_antisymm (not_lt.mp b) (not_lt.mp a))
      · exfalso
        exact ht (le_antisymm (not_lt.mp b) (not_lt.mp a))
    apply rne_eq_of_near
    push_cast
    have e : -y - -(rne y : ℚ) = -(y - rne y) := by ring
    rw [e, abs_neg]
    exact hlt

theorem ulp_pos (x : ℚ) : 0 < ulp x := zpow_pos (by norm_num) _

theorem expo_ge (x : ℚ) : -1022 ≤ expo x := le_max_right _ _

theorem expo_neg (x : ℚ) : expo (-x) = expo x := by simp [expo]

theorem ulp_neg (x : ℚ) : ulp (-x) = ulp x := by simp [ulp, expo_neg]

theorem expo_le_of_lt {x : ℚ} {k : ℤ} (hx : x ≠ 0) (hk : -1022 ≤ k)
    (h : |x| < 2 ^ (k + 1)) : expo x ≤ k := by
  unfold expo
  apply max_le _ hk
  have h2 : |x| < ((2 : ℕ) : ℚ) ^ (k + 1) := by simpa using h
  have := (Int.lt_zpow_iff_log_lt (b := 2) (by norm_num) (abs_pos.mpr hx)).mp h2
  omega

theorem le_expo_of_le {x : ℚ} {k : ℤ} (hx : x ≠ 0) (h : 2 ^ k ≤ |x|) : k ≤ expo x := by
  unfold expo
  apply le_max_of_le_left
  have h2 : ((2 : ℕ) : ℚ) ^ k ≤ |x| := by simpa using h
  exact (Int.zpow_le_iff_le_log (b := 2) (by norm_num) (abs_pos.mpr hx)).mp h2

theorem round64_fin (x : ℚ) (h : |(rne (x / ulp x) : ℚ) * ulp x| < 2 ^ 1024) :
    round64 x = Float64.fin ((rne (x / ulp x) : ℚ) * ulp x) := by
  rw [abs_lt] at h
  unfold round64
  simp only []
  rw [if_neg (not_le.mpr h.2), if_neg (not_le.mpr h.1)]

theorem round64_zero : round64 0 = Float64.fin 0 := by
  have h := round64_fin 0 (by simp [rne])
  rw [h]
  simp [rne]

theorem round64_neg (x : ℚ) : round64 (-x) = (round64 x).neg := by
  have e : (rne (-x / ulp (-x)) : ℚ) * ulp (-x) = -((rne (x / ulp x) : ℚ) * ulp x) := by
    rw [ulp_neg, neg_div, rne_neg]
    push_cast
    ring
  unfold round64
  simp only [e]
  have hp : (0 : ℚ) < 2 ^ 1024 := by positivity
  by_cases h1 : (2 : ℚ) ^ 1024 ≤ (rne (x / ulp x) : ℚ) * ulp x
  · rw [if_pos h1, if_neg (by linarith), if_pos (by linarith)]
    rfl
  · rw [if_neg h1]
    by_cases h2 : (rne (x / ulp x) : ℚ) * ulp x ≤ -2 ^ 1024
    · rw [if_pos h2, if_pos (by linarith)]
      rfl
    · rw [if_neg h2, if_neg (by linarith), if_neg (by linarith)]
      rfl

/-- A value of magnitude at most `2^k` is rounded to a finite value of magnitude
at most `2^k`, of the same sign, at most half a unit in the last place away. -/
theorem round64_bound (x : ℚ) (k : ℤ) (hk : -1022 ≤ k) (hk2 : k ≤ 1023) (h : |x| ≤ 2 ^ k) :
    ∃ r : ℚ, round64 x = Float64.fin r ∧ |r| ≤ 2 ^ k ∧ (0 ≤ x → 0 ≤ r) ∧
      |r - x| ≤ ulp x / 2 := by
  have hu := ulp_pos x
  have hmax : (2 : ℚ) ^ k < 2 ^ 1024 := by
    have : (2 : ℚ) ^ k ≤ 2 ^ (1023 : ℤ) := zpow_le_zpow_right₀ (by norm_num) hk2
    have h2 : (2 : ℚ) ^ (1023 : ℤ) < 2 ^ 1024 := by norm_num
    linarith
  have hspec := rne_spec (x / ulp x)
  have herr : |(rne (x / ulp x) : ℚ) * ulp x - x| ≤ ulp x / 2 := by
    have e : (rne (x / ulp x) : ℚ) * ulp x - x = ((rne (x / ulp x) : ℚ) - x / ulp x) * ulp x := by
      field_simp
    rw [e, abs_mul, abs_of_pos hu]
    calc |(rne (x / ulp x) : ℚ) - x / ulp x| * ulp x ≤ 1 / 2 * ulp x :=
          mul_le_mul_of_nonneg_right hspec (le_of_lt hu)
      _ = ulp x / 2 := by ring
  have hnn : 0 ≤ x → 0 ≤ (rne (x / ulp x) : ℚ) * ulp x := by
    intro hx
    have : (0 : ℤ) ≤ rne (x / ulp x) := rne_ge_int _ 0 (by simpa using div_nonneg hx (le_of_lt hu))
    exact mul_nonneg (by exact_mod_cast this) (le_of_lt hu)
  have hbound : |(rne (x / ulp x) : ℚ) * ulp x| ≤ 2 ^ k := by
    by_cases hx : x = 0
    · subst hx
      simp [rne_intCast 0, rne]
      positivity
    · have hlt : |x| < 2 ^ (k + 1) := by
        have : (2 : ℚ) ^ k < 2 ^ (k + 1) := zpow_lt_zpow_right₀ (by norm_num) (by omega)
        linarith
      have he := expo_le_of_lt hx hk hlt
      have hj : 0 ≤ k - (expo x - 52) := by omega
      obtain ⟨j, hj⟩ := Int.eq_ofNat_of_zero_le hj
      have hI : ((2 ^ j : ℤ) : ℚ) * ulp x = 2 ^ k := by
        unfold ulp
        push_cast
        rw [← zpow_natCast, ← hj, ← zpow_add₀ (by norm_num)]
        congr 1
        ring
      have hdiv : |x / ulp x| ≤ ((2 ^ j : ℤ) : ℚ) := by
        rw [abs_div, abs_of_pos hu, div_le_iff₀ hu, hI]
        exact h
      rw [abs_le] at hdiv
      have h1 := rne_le_int _ _ hdiv.2
      have h2 := rne_ge_int (x / ulp x) (-(2 ^ j)) (by push_cast; push_cast at hdiv; exact hdiv.1)
      have h1q : (rne (x / ulp x) : ℚ) ≤ ((2 ^ j : ℤ) : ℚ) := by exact_mod_cast h1
      have h2q : -((2 ^ j : ℤ) : ℚ) ≤ (rne (x / ulp x) : ℚ) := by exact_mod_cast h2
      rw [abs_le, ← hI]
      constructor
      · have := mul_le_mul_of_nonneg_right h2q (le_of_lt hu)
        linarith
      · exact mul_le_mul_of_nonneg_right h1q (le_of_lt hu)
  exact ⟨_, round64_fin x (lt_of_le_of_lt hbound hmax), hbound, hnn, herr⟩

/-- The unit in the last place is at most `2^-52` times the magnitude, except
in the subnormal range, where it is `2^-1074`. -/
theorem ulp_le (x : ℚ) (hx : x ≠ 0) : ulp x ≤ |x| / 2 ^ 52 + 1 / 2 ^ 1074 := by
  unfold ulp expo
  have hpos := abs_pos.mpr hx
  have hlog : ((2 : ℕ) : ℚ) ^ Int.log 2 |x| ≤ |x| := Int.zpow_log_le_self (by norm_num) hpos
  have hlog2 : (2 : ℚ) ^ Int.log 2 |x| ≤ |x| := by simpa using hlog
  rcases le_total (Int.log 2 |x|) (-1022) with hc | hc
  · rw [max_eq_right hc]
    have e : (2 : ℚ) ^ ((-1022 : ℤ) - 52) = 1 / 2 ^ 1074 := by
      rw [show ((-1022 : ℤ) - 52) = -(1074 : ℤ) by norm_num, zpow_neg]
      norm_num
    rw [e]
    have : 0 ≤ |x| / 2 ^ 52 := by positivity
    linarith
  · rw [max_eq_left hc, zpow_sub₀ (by norm_num)]
    have e : (2 : ℚ) ^ (52 : ℤ) = 2 ^ 52 := by norm_num
    rw [e]
    have h1 : (2 : ℚ) ^ Int.log 2 |x| / 2 ^ 52 ≤ |x| / 2 ^ 52 :=
      div_le_div_of_nonneg_right hlog2 (by positivity)
    have : (0 : ℚ) ≤ 1 / 2 ^ 1074 := by positivity
    linarith

/-- A value `M * 2^j` with `|M| < 2^53` in the exponent range is a float64, and
is rounded to itself. -/
theorem round64_dyadic (M j : ℤ) (hM : |M| < 2 ^ 53) (hj : -1074 ≤ j) (hj2 : j ≤ 970) :
    round64 ((M : ℚ) * 2 ^ j) = Float64.fin ((M : ℚ) * 2 ^ j) := by
  by_cases h0 : M = 0
  · subst h0
    simpa using round64_zero
  · have hx : (M : ℚ) * 2 ^ j ≠ 0 :=
      mul_ne_zero (by exact_mod_cast h0) (zpow_ne_zero _ (by norm_num))
    have hMq : |(M : ℚ)| < 2 ^ 53 := by exact_mod_cast hM
    have h2j : (0 : ℚ) < 2 ^ j := zpow_pos (by norm_num) _
    have habs : |(M : ℚ) * 2 ^ j| < 2 ^ (j + 52 + 1) := by
      rw [abs_mul, abs_of_pos h2j, show j + 52 + 1 = 53 + j by ring, zpow_add₀ (by norm_num)]
      have e : (2 : ℚ) ^ (53 : ℤ) = 2 ^ 53 := by norm_num
      rw [e]
      exact mul_lt_mul_of_pos_right hMq h2j
    have he := expo_le_of_lt hx (by omega) habs
    obtain ⟨d, hd⟩ := Int.eq_ofNat_of_zero_le (by omega : 0 ≤ j - (expo ((M : ℚ) * 2 ^ j) - 52))
    have hdiv : (M : ℚ) * 2 ^ j / ulp ((M : ℚ) * 2 ^ j) = ((M * 2 ^ d : ℤ) : ℚ) := by
      unfold ulp
      push_cast
      rw [mul_div_assoc, ← zpow_sub₀ (by norm_num), hd, zpow_natCast]
    have hr : (rne ((M : ℚ) * 2 ^ j / ulp ((M : ℚ) * 2 ^ j)) : ℚ) * ulp ((M : ℚ) * 2 ^ j)
        = (M : ℚ) * 2 ^ j := by
      rw [hdiv, rne_intCast, ← hdiv]
      field_simp [ne_of_gt (ulp_pos _)]
    have hfin := round64_fin ((M : ℚ) * 2 ^ j) (by
      rw [hr]
      have : (2 : ℚ) ^ (j + 52 + 1) ≤ 2 ^ (1023 : ℤ) := zpow_le_zpow_right₀ (by norm_num) (by omega)
      have h2 : (2 : ℚ) ^ (1023 : ℤ) < 2 ^ 1024 := by norm_num
      linarith)
    rw [hfin, hr]

/-- Integers of magnitude below `2^53` are float64 values. -/
theorem round64_int (z : ℤ) (hz : |z| < 2 ^ 53) : round64 (z : ℚ) = Float64.fin (z : ℚ) := by
  have h := round64_dyadic z 0 hz (by norm_num) (by norm_num)
  simpa using h

/-- In the binade `[2^(k+52), 2^(k+53))` the floats are the multiples of `2^k`;
a value strictly within half of `2^k` of `M * 2^k` is rounded to it. -/
theorem round64_of_near (x : ℚ) (k M : ℤ) (hk : -1074 ≤ k) (hk2 : k ≤ 970)
    (hx1 : 2 ^ (k + 52) ≤ |x|) (hx2 : |x| < 2 ^ (k + 53))
    (hM : |x / 2 ^ k - (M : ℚ)| < 1 / 2) :
    round64 x = Float64.fin ((M : ℚ) * 2 ^ k) := by
  have h2k : (0 : ℚ) < 2 ^ k := zpow_pos (by norm_num) _
  have hx : x ≠ 0 := by
    intro h
    rw [h, abs_zero] at hx1
    have : (0 : ℚ) < 2 ^ (k + 52) := zpow_pos (by norm_num) _
    linarith
  have he1 : k + 52 ≤ expo x := le_expo_of_le hx hx1
  have he2 : expo x ≤ k + 52 := expo_le_of_lt hx (by omega) (by
    rw [show k + 52 + 1 = k + 53 by ring]; exact hx2)
  have hu : ulp x = 2 ^ k := by
    unfold ulp
    rw [show expo x = k + 52 by omega]
    congr 1
    ring
  have hr : rne (x / ulp x) = M := by
    rw [hu]
    exact rne_eq_of_near _ _ hM
  have hfin := round64_fin x (by
    rw [hr, hu, abs_mul, abs_of_pos h2k]
    have h1 : |(M : ℚ)| ≤ |x / 2 ^ k| + 1 / 2 := by
      have := abs_sub_abs_le_abs_sub (M : ℚ) (x / 2 ^ k)
      rw [abs_sub_comm] at this
      linarith
    have h2 : |x / 2 ^ k| * 2 ^ k = |x| := by
      rw [abs_div, abs_of_pos h2k]
      field_simp
    have h3 : |(M : ℚ)| * 2 ^ k ≤ |x| + 1 / 2 * 2 ^ k := by
      have := mul_le_mul_of_nonneg_right h1 (le_of_lt h2k)
      linarith
    have h4 : (2 : ℚ) ^ k ≤ 2 ^ (k + 53) := zpow_le_zpow_right₀ (by norm_num) (by omega)
    have h5 : (2 : ℚ) ^ (k + 53) ≤ 2 ^ (1023 : ℤ) := zpow_le_zpow_right₀ (by norm_num) (by omega)
    have h6 : (2 : ℚ) ^ (1023 : ℤ) * 2 = 2 ^ 1024 := by norm_num
    linarith)
  rw [hfin, hr, hu]

/-- Values below half of the least subnormal number are rounded to zero. -/
theorem round64_tiny (x : ℚ) (h : |x| < 1 / 2 ^ 1075) : round64 x = Float64.fin 0 := by
  by_cases hx : x = 0
  · rw [hx]
    exact round64_zero
  · have h1 : |x| < 2 ^ ((-1022 : ℤ) + 1) := by
      have : (1 : ℚ) / 2 ^ 1075 < 2 ^ ((-1022 : ℤ) + 1) := by
        rw [show ((-1022 : ℤ) + 1) = -(1021 : ℤ) by norm_num, zpow_neg]
        norm_num
      exact lt_trans h this
    have he : expo x = -1022 := le_antisymm (expo_le_of_lt hx (le_refl _) h1) (expo_ge x)
    have hu : ulp x = 1 / 2 ^ 1074 := by
      unfold ulp
      rw [he, show ((-1022 : ℤ) - 52) = -(1074 : ℤ) by norm_num, zpow_neg]
      norm_num
    have hr : rne (x / ulp x) = 0 := by
      apply rne_eq_of_near
      rw [hu]
      have e : x / (1 / 2 ^ 1074) - ((0 : ℤ) : ℚ) = x * 2 ^ 1074 := by
        rw [Int.cast_zero, sub_zero]
        field_simp
      rw [e, abs_mul, abs_of_pos (by positivity : (0 : ℚ) < 2 ^ 1074)]
      have h3 := mul_lt_mul_of_pos_right h (by positivity : (0 : ℚ) < 2 ^ 1074)
      have e2 : (1 : ℚ) / 2 ^ 1075 * 2 ^ 1074 = 1 / 2 := by norm_num
      rw [e2] at h3
      exact h3
    have hfin := round64_fin x (by rw [hr]; simp)
    rw [hfin, hr]
    simp

theorem four_zpow (z : ℤ) : (4 : ℚ) ^ z = 2 ^ z * 2 ^ z := by
  rw [← mul_zpow]
  norm_num

/-- The square root of a positive value is rounded to `N * q`, where `q` is the
unit in the last place of the binade of the root and `N` an integer of 53 bits
nearest to the root divided by `q`. -/
theorem sqrt64_spec (s : ℚ) (hs : 0 < s) :
    ∃ N : ℕ, 2 ^ 52 ≤ N ∧ N ≤ 2 ^ 53 ∧
      ((N : ℚ) - 1 / 2) * ((N : ℚ) - 1 / 2) * (2 ^ (Int.log 4 s - 52) * 2 ^ (Int.log 4 s - 52))
        ≤ s ∧
      s ≤ ((N : ℚ) + 1 / 2) * ((N : ℚ) + 1 / 2)
        * (2 ^ (Int.log 4 s - 52) * 2 ^ (Int.log 4 s - 52)) ∧
      sqrt64 s = if (2 : ℚ) ^ 1024 ≤ (N : ℚ) * 2 ^ (Int.log 4 s - 52) then Float64.pinf
        else Float64.fin ((N : ℚ) * 2 ^ (Int.log 4 s - 52)) := by
  have hq : (0 : ℚ) < 2 ^ (Int.log 4 s - 52) := zpow_pos (by norm_num) _
  have hqq : (0 : ℚ) < 2 ^ (Int.log 4 s - 52) * 2 ^ (Int.log 4 s - 52) := mul_pos hq hq
  have hlo : ((4 : ℕ) : ℚ) ^ Int.log 4 s ≤ s := Int.zpow_log_le_self (by norm_num) hs
  have hhi : s < ((4 : ℕ) : ℚ) ^ (Int.log 4 s + 1) := Int.lt_zpow_succ_log_self (by norm_num) s
  have hlo2 : (4 : ℚ) ^ Int.log 4 s ≤ s := by simpa using hlo
  have hhi2 : s < (4 : ℚ) ^ (Int.log 4 s + 1) := by simpa using hhi
  have eqq : (2 : ℚ) ^ (Int.log 4 s - 52) * 2 ^ (Int.log 4 s - 52) = 4 ^ (Int.log 4 s - 52) :=
    (four_zpow _).symm
  -- the scaled distValue lies in [4^52, 4^53)
  have ht1 : (4 : ℚ) ^ 52 ≤ s / (2 ^ (Int.log 4 s - 52) * 2 ^ (Int.log 4 s - 52)) := by
    rw [le_div_iff₀ hqq, eqq]
    have e : (4 : ℚ) ^ 52 * 4 ^ (Int.log 4 s - 52) = 4 ^ Int.log 4 s := by
      rw [← zpow_natCast, ← zpow_add₀ (by norm_num)]
      congr 1
      push_cast
      ring
    rw [e]
    exact hlo2
  have ht2 : s / (2 ^ (Int.log 4 s - 52) * 2 ^ (Int.log 4 s - 52)) < (4 : ℚ) ^ 53 := by
    rw [div_lt_iff₀ hqq, eqq]
    have e : (4 : ℚ) ^ 53 * 4 ^ (Int.log 4 s - 52) = 4 ^ (Int.log 4 s + 1) := by
      rw [← zpow_natCast, ← zpow_add₀ (by norm_num)]
      congr 1
      push_cast
      ring
    rw [e]
    exact hhi2
  set t : ℚ := s / (2 ^ (Int.log 4 s - 52) * 2 ^ (Int.log 4 s - 52)) with ht
  have ht0 : 0 ≤ t := le_trans (by positivity) ht1
  set n : ℕ := Nat.sqrt ⌊t⌋₊ with hn
  have hfl1 : ((⌊t⌋₊ : ℕ) : ℚ) ≤ t := Nat.floor_le ht0
  have hfl2 : t < ((⌊t⌋₊ : ℕ) : ℚ) + 1 := Nat.lt_floor_add_one t
  have hn1 : n * n ≤ ⌊t⌋₊ := Nat.sqrt_le _
  have hn2 : ⌊t⌋₊ < (n + 1) * (n + 1) := Nat.lt_succ_sqrt _
  have hn1q : (n : ℚ) * n ≤ t := by
    have : ((n * n : ℕ) : ℚ) ≤ ((⌊t⌋₊ : ℕ) : ℚ) := by exact_mod_cast hn1
    push_cast at this
    linarith
  have hn2q : t < ((n : ℚ) + 1) * ((n : ℚ) + 1) := by
    have : ((⌊t⌋₊ + 1 : ℕ) : ℚ) ≤ (((n + 1) * (n + 1) : ℕ) : ℚ) := by exact_mod_cast hn2
    push_cast at this
    linarith
  have hnlo : 2 ^ 52 ≤ n := by
    rw [hn, Nat.le_sqrt]
    apply Nat.le_floor
    have : ((2 ^ 52 * 2 ^ 52 : ℕ) : ℚ) = 4 ^ 52 := by norm_num
    rw [this]
    exact ht1
  have hnhi : n < 2 ^ 53 := by
    rw [hn, Nat.sqrt_lt]
    apply (Nat.floor_lt ht0).mpr
    have : ((2 ^ 53 * 2 ^ 53 : ℕ) : ℚ) = 4 ^ 53 := by norm_num
    rw [this]
    exact ht2
  have hn1' : (1 : ℚ) ≤ n := by
    have : 1 ≤ n := le_trans (by norm_num) hnlo
    exact_mod_cast this
  have key : ∀ N : ℕ, 2 ^ 52 ≤ N → N ≤ 2 ^ 53 →
      ((N : ℚ) - 1 / 2) * ((N : ℚ) - 1 / 2) ≤ t → t ≤ ((N : ℚ) + 1 / 2) * ((N : ℚ) + 1 / 2) →
      sqrt64 s = (if (2 : ℚ) ^ 1024 ≤ (N : ℚ) * 2 ^ (Int.log 4 s - 52) then Float64.pinf
        else Float64.fin ((N : ℚ) * 2 ^ (Int.log 4 s - 52))) →
      ∃ N : ℕ, 2 ^ 52 ≤ N ∧ N ≤ 2 ^ 53 ∧
        ((N : ℚ) - 1 / 2) * ((N : ℚ) - 1 / 2)
          * (2 ^ (Int.log 4 s - 52) * 2 ^ (Int.log 4 s - 52)) ≤ s ∧
        s ≤ ((N : ℚ) + 1 / 2) * ((N : ℚ) + 1 / 2)
          * (2 ^ (Int.log 4 s - 52) * 2 ^ (Int.log 4 s - 52)) ∧
        sqrt64 s = if (2 : ℚ) ^ 1024 ≤ (N : ℚ) * 2 ^ (Int.log 4 s - 52) then Float64.pinf
          else Float64.fin ((N : ℚ) * 2 ^ (Int.log 4 s - 52)) := by
    intro N h1 h2 h3 h4 h5
    refine ⟨N, h1, h2, ?_, ?_, h5⟩
    · have := (le_div_iff₀ hqq).mp h3
      exact this
    · have := (div_le_iff₀ hqq).mp h4
      exact this
  have hdef : sqrt64 s =
      (if (2 : ℚ) ^ 1024 ≤ (((if t < ((n : ℚ) + 1 / 2) * ((n : ℚ) + 1 / 2) then n
          else if ((n : ℚ) + 1 / 2) * ((n : ℚ) + 1 / 2) < t then n + 1
          else if n % 2 = 0 then n else n + 1 : ℕ)) : ℚ) * 2 ^ (Int.log 4 s - 52)
        then Float64.pinf
        else Float64.fin ((((if t < ((n : ℚ) + 1 / 2) * ((n : ℚ) + 1 / 2) then n
          else if ((n : ℚ) + 1 / 2) * ((n : ℚ) + 1 / 2) < t then n + 1
          else if n % 2 = 0 then n else n + 1 : ℕ)) : ℚ) * 2 ^ (Int.log 4 s - 52))) := by
    unfold sqrt64
    rw [if_neg (ne_of_gt hs)]
  have hlow : ((n : ℚ) - 1 / 2) * ((n : ℚ) - 1 / 2) ≤ t := by nlinarith [hn1q, hn1']
  have hup : t ≤ (((n + 1 : ℕ) : ℚ) + 1 / 2) * (((n + 1 : ℕ) : ℚ) + 1 / 2) := by
    push_cast
    nlinarith [hn2q, hn1']
  have emid : (((n + 1 : ℕ) : ℚ) - 1 / 2) * (((n + 1 : ℕ) : ℚ) - 1 / 2)
      = ((n : ℚ) + 1 / 2) * ((n : ℚ) + 1 / 2) := by
    push_cast
    ring
  by_cases c1 : t < ((n : ℚ) + 1 / 2) * ((n : ℚ) + 1 / 2)
  · rw [if_pos c1] at hdef
    exact key n hnlo (le_of_lt hnhi) hlow (le_of_lt c1) hdef
  · by_cases c2 : ((n : ℚ) + 1 / 2) * ((n : ℚ) + 1 / 2) < t
    · rw [if_neg c1, if_pos c2] at hdef
      exact key (n + 1) (by omega) (by omega) (by rw [emid]; exact le_of_lt c2) hup hdef
    · have heq : t = ((n : ℚ) + 1 / 2) * ((n : ℚ) + 1 / 2) :=
        le_antisymm (not_lt.mp c2) (not_lt.mp c1)
      rw [if_neg c1, if_neg c2] at hdef
      by_cases c3 : n % 2 = 0
      · rw [if_pos c3] at hdef
        exact key n hnlo (le_of_lt hnhi) hlow (le_of_eq heq) hdef
      · rw [if_neg c3] at hdef
        exact key (n + 1) (by omega) (by omega) (by rw [emid]; exact le_of_eq heq.symm) hup hdef

theorem sqrt64_zero : sqrt64 0 = Float64.fin 0 := by simp [sqrt64]

theorem log4_lt {s : ℚ} {k : ℤ} (hs : 0 < s) (h : s < 4 ^ k) : Int.log 4 s < k := by
  have h2 : s < ((4 : ℕ) : ℚ) ^ k := by simpa using h
  exact (Int.lt_zpow_iff_log_lt (b := 4) (by norm_num) hs).mp h2

theorem le_log4 {s : ℚ} {k : ℤ} (hs : 0 < s) (h : 4 ^ k ≤ s) : k ≤ Int.log 4 s := by
  have h2 : ((4 : ℕ) : ℚ) ^ k ≤ s := by simpa using h
  exact (Int.zpow_le_iff_le_log (b := 4) (by norm_num) hs).mp h2

/-- The rounded root of a value of `[4^k1, 4^k2)` is finite and lies in
`[2^k1, 2^k2]`. -/
theorem sqrt64_range (s : ℚ) (k1 k2 : ℤ) (h1 : 4 ^ k1 ≤ s) (h2 : s < 4 ^ k2) (hk : k2 ≤ 1023) :
    ∃ r : ℚ, sqrt64 s = Float64.fin r ∧ 2 ^ k1 ≤ r ∧ r ≤ 2 ^ k2 := by
  have hs : 0 < s := lt_of_lt_of_le (zpow_pos (by norm_num) _) h1
  obtain ⟨N, hN1, hN2, _, _, hdef⟩ := sqrt64_spec s hs
  have hL1 := le_log4 hs h1
  have hL2 := log4_lt hs h2
  have hq : (0 : ℚ) < 2 ^ (Int.log 4 s - 52) := zpow_pos (by norm_num) _
  have hN1q : (2 : ℚ) ^ (52 : ℤ) ≤ N := by
    have : ((2 ^ 52 : ℕ) : ℚ) ≤ (N : ℚ) := by exact_mod_cast hN1
    have e : (2 : ℚ) ^ (52 : ℤ) = ((2 ^ 52 : ℕ) : ℚ) := by norm_num
    rw [e]
    exact this
  have hN2q : (N : ℚ) ≤ 2 ^ (53 : ℤ) := by
    have : (N : ℚ) ≤ ((2 ^ 53 : ℕ) : ℚ) := by exact_mod_cast hN2
    have e : (2 : ℚ) ^ (53 : ℤ) = ((2 ^ 53 : ℕ) : ℚ) := by norm_num
    rw [e]
    exact this
  have hlow : (2 : ℚ) ^ k1 ≤ (N : ℚ) * 2 ^ (Int.log 4 s - 52) := by
    have e : (2 : ℚ) ^ (52 : ℤ) * 2 ^ (Int.log 4 s - 52) = 2 ^ Int.log 4 s := by
      rw [← zpow_add₀ (by norm_num)]
      congr 1
      ring
    have := mul_le_mul_of_nonneg_right hN1q (le_of_lt hq)
    rw [e] at this
    exact le_trans (zpow_le_zpow_right₀ (by norm_num) hL1) this
  have hupp : (N : ℚ) * 2 ^ (Int.log 4 s - 52) ≤ 2 ^ k2 := by
    have e : (2 : ℚ) ^ (53 : ℤ) * 2 ^ (Int.log 4 s - 52) = 2 ^ (Int.log 4 s + 1) := by
      rw [← zpow_add₀ (by norm_num)]
      congr 1
      ring
    have := mul_le_mul_of_nonneg_right hN2q (le_of_lt hq)
    rw [e] at this
    exact le_trans this (zpow_le_zpow_right₀ (by norm_num) (by omega))
  have hfin : ¬ (2 : ℚ) ^ 1024 ≤ (N : ℚ) * 2 ^ (Int.log 4 s - 52) := by
    have h3 : (2 : ℚ) ^ k2 ≤ 2 ^ (1023 : ℤ) := zpow_le_zpow_right₀ (by norm_num) hk
    have h4 : (2 : ℚ) ^ (1023 : ℤ) < 2 ^ 1024 := by norm_num
    intro h
    linarith
  rw [if_neg hfin] at hdef
  exact ⟨_, hdef, hlow, hupp⟩

/-- The rounded root of a non-negative value is a non-negative number or
`+Inf`. -/
theorem sqrt64_nonneg (s : ℚ) (hs : 0 ≤ s) :
    sqrt64 s = Float64.pinf ∨ ∃ r : ℚ, sqrt64 s = Float64.fin r ∧ 0 ≤ r := by
  rcases eq_or_lt_of_le hs with h0 | hpos
  · right
    rw [← h0]
    exact ⟨0, sqrt64_zero, le_refl _⟩
  · obtain ⟨N, _, _, _, _, hdef⟩ := sqrt64_spec s hpos
    by_cases h : (2 : ℚ) ^ 1024 ≤ (N : ℚ) * 2 ^ (Int.log 4 s - 52)
    · left
      rw [hdef, if_pos h]
    · right
      rw [if_neg h] at hdef
      exact ⟨_, hdef, mul_nonneg (Nat.cast_nonneg _) (le_of_lt (zpow_pos (by norm_num) _))⟩

/-- A value strictly between the squares of `(N - 1/2) * 2^(e-52)` and
`(N + 1/2) * 2^(e-52)`, in the binade `[4^e, 4^(e+1))`, has the rounded root
`N * 2^(e-52)`. -/
theorem sqrt64_of_near (s : ℚ) (e : ℤ) (N : ℕ) (he1 : 4 ^ e ≤ s) (he2 : s < 4 ^ (e + 1))
    (hN : 1 ≤ N)
    (h1 : ((N : ℚ) - 1 / 2) * ((N : ℚ) - 1 / 2) * (2 ^ (e - 52) * 2 ^ (e - 52)) < s)
    (h2 : s < ((N : ℚ) + 1 / 2) * ((N : ℚ) + 1 / 2) * (2 ^ (e - 52) * 2 ^ (e - 52)))
    (hfin : (N : ℚ) * 2 ^ (e - 52) < 2 ^ 1024) :
    sqrt64 s = Float64.fin ((N : ℚ) * 2 ^ (e - 52)) := by
  have hs : 0 < s := lt_of_lt_of_le (zpow_pos (by norm_num) _) he1
  have hL : Int.log 4 s = e := by
    have a := le_log4 hs he1
    have b := log4_lt hs he2
    omega
  obtain ⟨M, hM1, _, hM3, hM4, hdef⟩ := sqrt64_spec s hs
  rw [hL] at hM3 hM4 hdef
  have hqq : (0 : ℚ) < 2 ^ (e - 52) * 2 ^ (e - 52) :=
    mul_pos (zpow_pos (by norm_num) _) (zpow_pos (by norm_num) _)
  have hNq : (1 : ℚ) ≤ N := by exact_mod_cast hN
  have hMq : (1 : ℚ) ≤ M := by
    have : 1 ≤ M := le_trans (by norm_num) hM1
    exact_mod_cast this
  have hMN : M = N := by
    rcases Nat.lt_trichotomy M N with hlt | heq | hgt
    · exfalso
      have hc : (M : ℚ) + 1 ≤ N := by exact_mod_cast hlt
      have hsq : ((M : ℚ) + 1 / 2) * ((M : ℚ) + 1 / 2) ≤ ((N : ℚ) - 1 / 2) * ((N : ℚ) - 1 / 2) := by
        nlinarith
      have := mul_le_mul_of_nonneg_right hsq (le_of_lt hqq)
      linarith
    · exact heq
    · exfalso
      have hc : (N : ℚ) + 1 ≤ M := by exact_mod_cast hgt
      have hsq : ((N : ℚ) + 1 / 2) * ((N : ℚ) + 1 / 2) ≤ ((M : ℚ) - 1 / 2) * ((M : ℚ) - 1 / 2) := by
        nlinarith
      have := mul_le_mul_of_nonneg_right hsq (le_of_lt hqq)
      linarith
  rw [hMN] at hdef
  rw [hdef, if_neg (not_le.mpr hfin)]

/-! ## Colour distance -/

theorem f64_inRange_iff (x : F64) :
    x.inRange = true ↔ ∃ q : ℚ, x = F64.fin q ∧ 0 ≤ q ∧ q ≤ 65535 := by
  cases x with
  | fin q => simp [F64.inRange]
  | nan => simp [F64.inRange]

theorem color_inRange_iff (c : Color) :
    c.inRange = true ↔ ∃ r g b : ℚ, c = Color.ofRat r g b ∧
      (0 ≤ r ∧ r ≤ 65535) ∧ (0 ≤ g ∧ g ≤ 65535) ∧ (0 ≤ b ∧ b ≤ 65535) := by
  obtain ⟨r, g, b⟩ := c
  simp only [Color.inRange, Bool.and_eq_true, f64_inRange_iff, Color.ofRat, Color.mk.injEq]
  constructor
  · rintro ⟨⟨⟨qr, rfl, hr⟩, ⟨qg, rfl, hg⟩⟩, ⟨qb, rfl, hb⟩⟩
    exact ⟨qr, qg, qb, ⟨rfl, rfl, rfl⟩, hr, hg, hb⟩
  · rintro ⟨qr, qg, qb, ⟨rfl, rfl, rfl⟩, hr, hg, hb⟩
    exact ⟨⟨⟨qr, rfl, hr⟩, ⟨qg, rfl, hg⟩⟩, ⟨qb, rfl, hb⟩⟩

/-- The distance of two colours with finite channels, operation by operation. -/
theorem colorDistance_ofRat (ar ag ab br bg bb : ℚ) :
    colorDistance (Color.ofRat ar ag ab) (Color.ofRat br bg bb)
      = Sqrt (Float64.add
          (Float64.add (Float64.mul (round64 (ar - br)) (round64 (ar - br)))
            (Float64.mul (round64 (ag - bg)) (round64 (ag - bg))))
          (Float64.mul (round64 (ab - bb)) (round64 (ab - bb)))) := rfl

/-- A rounded non-negative value is a non-negative number or `+Inf`. -/
theorem round64_nonneg (x : ℚ) (hx : 0 ≤ x) :
    Float64.le (Float64.fin 0) (round64 x) = true := by
  have hu := ulp_pos x
  have h0 : (0 : ℤ) ≤ rne (x / ulp x) := rne_ge_int _ 0 (by simpa using div_nonneg hx (le_of_lt hu))
  have hr : (0 : ℚ) ≤ (rne (x / ulp x) : ℚ) * ulp x :=
    mul_nonneg (by exact_mod_cast h0) (le_of_lt hu)
  unfold round64
  simp only []
  split_ifs with a b
  · rfl
  · exfalso
    have : (0 : ℚ) < 2 ^ 1024 := by positivity
    linarith
  · simpa [Float64.le] using hr

theorem mul_neg_neg (X : Float64) : Float64.mul X.neg X.neg = Float64.mul X X := by
  cases X with
  | fin q => simp [Float64.neg, Float64.mul]
  | pinf => rfl
  | ninf => rfl
  | nan => rfl

/-- The square of a rounded value is a non-negative number or `+Inf`. -/
theorem sq_nonneg64 (x : ℚ) :
    Float64.le (Float64.fin 0) (Float64.mul (round64 x) (round64 x)) = true := by
  have h : ∀ X : Float64, X ≠ Float64.nan →
      Float64.le (Float64.fin 0) (Float64.mul X X) = true := by
    intro X hX
    cases X with
    | fin q => exact round64_nonneg _ (mul_self_nonneg q)
    | pinf => rfl
    | ninf => rfl
    | nan => exact absurd rfl hX
  apply h
  unfold round64
  simp only []
  split_ifs <;> simp

theorem add_nonneg64 (X Y : Float64) (hX : Float64.le (Float64.fin 0) X = true)
    (hY : Float64.le (Float64.fin 0) Y = true) :
    Float64.le (Float64.fin 0) (Float64.add X Y) = true := by
  cases X with
  | fin p =>
    cases Y with
    | fin q =>
      simp only [Float64.le, decide_eq_true_eq] at hX hY
      exact round64_nonneg _ (add_nonneg hX hY)
    | pinf => rfl
    | ninf => simp [Float64.le] at hY
    | nan => simp [Float64.le] at hY
  | pinf =>
    cases Y with
    | fin q => rfl
    | pinf => rfl
    | ninf => simp [Float64.le] at hY
    | nan => simp [Float64.le] at hY
  | ninf => simp [Float64.le] at hX
  | nan => simp [Float64.le] at hX

theorem Sqrt_nonneg64 (X : Float64) (hX : Float64.le (Float64.fin 0) X = true) :
    Float64.le (Float64.fin 0) (Sqrt X) = true := by
  cases X with
  | fin p =>
    simp only [Float64.le, decide_eq_true_eq] at hX
    simp only [Sqrt, if_neg (not_lt.mpr hX)]
    rcases sqrt64_nonneg p hX with h | ⟨r, h, hr⟩
    · rw [h]
      rfl
    · rw [h]
      simpa [Float64.le] using hr
  | pinf => rfl
  | ninf => simp [Float64.le] at hX
  | nan => simp [Float64.le] at hX

/-- The distance of two colours with finite channels is a non-negative number
or `+Inf`. -/
theorem colorDistance_nonneg (ar ag ab br bg bb : ℚ) :
    Float64.le (Float64.fin 0)
      (colorDistance (Color.ofRat ar ag ab) (Color.ofRat br bg bb)) = true := by
  rw [colorDistance_ofRat]
  exact Sqrt_nonneg64 _ (add_nonneg64 _ _ (add_nonneg64 _ _ (sq_nonneg64 _) (sq_nonneg64 _))
    (sq_nonneg64 _))

/-- The distance of a colour with finite channels to itself is zero. -/
theorem colorDistance_self (ar ag ab : ℚ) :
    colorDistance (Color.ofRat ar ag ab) (Color.ofRat ar ag ab) = Float64.fin 0 := by
  rw [colorDistance_ofRat]
  simp [Float64.mul, Float64.add, Sqrt, round64_zero, sqrt64_zero]

/-- The distance of two colours with finite channels is symmetric. -/
theorem colorDistance_comm (ar ag ab br bg bb : ℚ) :
    colorDistance (Color.ofRat ar ag ab) (Color.ofRat br bg bb)
      = colorDistance (Color.ofRat br bg bb) (Color.ofRat ar ag ab) := by
  have h : ∀ x y : ℚ, Float64.mul (round64 (y - x)) (round64 (y - x))
      = Float64.mul (round64 (x - y)) (round64 (x - y)) := by
    intro x y
    rw [show y - x = -(x - y) by ring, round64_neg, mul_neg_neg]
  rw [colorDistance_ofRat, colorDistance_ofRat, h ar br, h ag bg, h ab bb]

/-- The square of the difference of two values of `[0, 65535]`, as rounded. -/
theorem sq_bound (a b : ℚ) (ha : 0 ≤ a ∧ a ≤ 65535) (hb : 0 ≤ b ∧ b ≤ 65535) :
    ∃ p : ℚ, Float64.mul (round64 (a - b)) (round64 (a - b)) = Float64.fin p ∧
      0 ≤ p ∧ p ≤ 2 ^ (32 : ℤ) := by
  have hab : |a - b| ≤ 2 ^ (16 : ℤ) := by
    rw [abs_le]
    constructor <;> norm_num <;> linarith [ha.1, ha.2, hb.1, hb.2]
  obtain ⟨d, hd, hd2, _, _⟩ := round64_bound (a - b) 16 (by norm_num) (by norm_num) hab
  have hdd : |d * d| ≤ 2 ^ (32 : ℤ) := by
    rw [abs_mul]
    have e : (2 : ℚ) ^ (32 : ℤ) = 2 ^ (16 : ℤ) * 2 ^ (16 : ℤ) := by norm_num
    rw [e]
    exact mul_le_mul hd2 hd2 (abs_nonneg _) (by positivity)
  obtain ⟨p, hp, hp2, hp3, _⟩ := round64_bound (d * d) 32 (by norm_num) (by norm_num) hdd
  refine ⟨p, ?_, hp3 (mul_self_nonneg d), le_trans (le_abs_self p) hp2⟩
  rw [hd]
  exact hp

/-- The sum of two non-negative values of at most `2^k`, as rounded. -/
theorem add_bound (p q : ℚ) (k : ℤ) (hk : -1022 ≤ k) (hk2 : k + 1 ≤ 1023)
    (hp : 0 ≤ p ∧ p ≤ 2 ^ k) (hq : 0 ≤ q ∧ q ≤ 2 ^ k) :
    ∃ s : ℚ, Float64.add (Float64.fin p) (Float64.fin q) = Float64.fin s ∧
      0 ≤ s ∧ s ≤ 2 ^ (k + 1) := by
  have h : |p + q| ≤ 2 ^ (k + 1) := by
    rw [abs_of_nonneg (add_nonneg hp.1 hq.1), zpow_add₀ (by norm_num)]
    linarith [hp.2, hq.2]
  obtain ⟨s, hs, hs2, hs3, _⟩ := round64_bound (p + q) (k + 1) (by omega) hk2 h
  exact ⟨s, hs, hs3 (add_nonneg hp.1 hq.1), le_trans (le_abs_self s) hs2⟩

/-- The rounded root of a non-negative value of at most `2^34`. -/
theorem Sqrt_bound (s : ℚ) (hs : 0 ≤ s ∧ s ≤ 2 ^ (34 : ℤ)) :
    ∃ r : ℚ, Sqrt (Float64.fin s) = Float64.fin r ∧ 0 ≤ r ∧ r ≤ 2 ^ (18 : ℤ) := by
  simp only [Sqrt, if_neg (not_lt.mpr hs.1)]
  rcases eq_or_lt_of_le hs.1 with h0 | hpos
  · rw [← h0]
    exact ⟨0, sqrt64_zero, le_refl _, by positivity⟩
  · have hlt : s < 4 ^ (18 : ℤ) := by
      have : (2 : ℚ) ^ (34 : ℤ) < 4 ^ (18 : ℤ) := by norm_num
      linarith [hs.2]
    obtain ⟨N, _, hN2, _, _, hdef⟩ := sqrt64_spec s hpos
    have hL := log4_lt hpos hlt
    have hq : (0 : ℚ) < 2 ^ (Int.log 4 s - 52) := zpow_pos (by norm_num) _
    have hN2q : (N : ℚ) ≤ 2 ^ (53 : ℤ) := by
      have : (N : ℚ) ≤ ((2 ^ 53 : ℕ) : ℚ) := by exact_mod_cast hN2
      have e : (2 : ℚ) ^ (53 : ℤ) = ((2 ^ 53 : ℕ) : ℚ) := by norm_num
      rw [e]
      exact this
    have hupp : (N : ℚ) * 2 ^ (Int.log 4 s - 52) ≤ 2 ^ (18 : ℤ) := by
      have e : (2 : ℚ) ^ (53 : ℤ) * 2 ^ (Int.log 4 s - 52) = 2 ^ (Int.log 4 s + 1) := by
        rw [← zpow_add₀ (by norm_num)]
        congr 1
        ring
      have := mul_le_mul_of_nonneg_right hN2q (le_of_lt hq)
      rw [e] at this
      exact le_trans this (zpow_le_zpow_right₀ (by norm_num) (by omega))
    have hfin : ¬ (2 : ℚ) ^ 1024 ≤ (N : ℚ) * 2 ^ (Int.log 4 s - 52) := by
      have h4 : (2 : ℚ) ^ (18 : ℤ) < 2 ^ 1024 := by norm_num
      intro h
      linarith
    rw [if_neg hfin] at hdef
    exact ⟨_, hdef, mul_nonneg (Nat.cast_nonneg _) (le_of_lt hq), hupp⟩

/-- For colours with channels in `[0, 65535]` the distance is a finite
non-negative number below `math.MaxFloat64`. -/
theorem colorDistance_inRange {c t : Color} (hc : c.inRange = true) (ht : t.inRange = true) :
    colorDistance c t = Float64.fin (distValue c t) ∧ 0 ≤ distValue c t ∧
      distValue c t < MaxFloat64Val := by
  obtain ⟨cr, cg, cb, rfl, h1, h2, h3⟩ := (color_inRange_iff c).mp hc
  obtain ⟨tr, tg, tb, rfl, h4, h5, h6⟩ := (color_inRange_iff t).mp ht
  obtain ⟨p1, e1, b1, c1⟩ := sq_bound cr tr h1 h4
  obtain ⟨p2, e2, b2, c2⟩ := sq_bound cg tg h2 h5
  obtain ⟨p3, e3, b3, c3⟩ := sq_bound cb tb h3 h6
  obtain ⟨s1, f1, g1, g2⟩ := add_bound p1 p2 32 (by norm_num) (by norm_num) ⟨b1, c1⟩ ⟨b2, c2⟩
  have c3' : p3 ≤ 2 ^ ((32 : ℤ) + 1) := by
    have : (2 : ℚ) ^ (32 : ℤ) ≤ 2 ^ ((32 : ℤ) + 1) := by norm_num
    linarith
  obtain ⟨s2, f2, g3, g4⟩ := add_bound s1 p3 (32 + 1) (by norm_num) (by norm_num) ⟨g1, g2⟩
    ⟨b3, c3'⟩
  obtain ⟨r, hr, hr1, hr2⟩ := Sqrt_bound s2 ⟨g3, by simpa using g4⟩
  have e : colorDistance (Color.ofRat cr cg cb) (Color.ofRat tr tg tb) = Float64.fin r := by
    rw [colorDistance_ofRat, e1, e2, e3, f1, f2, hr]
  have v : distValue (Color.ofRat cr cg cb) (Color.ofRat tr tg tb) = r := by
    simp [distValue, e]
  rw [v]
  refine ⟨e, hr1, lt_of_le_of_lt hr2 ?_⟩
  unfold MaxFloat64Val
  norm_num

theorem round64_intCast (x : ℚ) (z : ℤ) (hx : x = (z : ℚ)) (hz : |z| < 2 ^ 53) :
    round64 x = Float64.fin x := by
  rw [hx]
  exact round64_int z hz

/-- For integer channel values in `[0, 65535]` every operation before the
square root is exact: the distance is the rounded root of the exact squared
distance. -/
theorem colorDistance_int (ar ag ab br bg bb : ℕ) (h1 : ar ≤ 65535) (h2 : ag ≤ 65535)
    (h3 : ab ≤ 65535) (h4 : br ≤ 65535) (h5 : bg ≤ 65535) (h6 : bb ≤ 65535) :
    colorDistance (Color.ofRat ar ag ab) (Color.ofRat br bg bb)
      = sqrt64 (sqDist ar ag ab br bg bb) := by
  have sq : ∀ a b : ℕ, a ≤ 65535 → b ≤ 65535 →
      Float64.mul (round64 ((a : ℚ) - b)) (round64 ((a : ℚ) - b))
        = Float64.fin (((a : ℚ) - b) * ((a : ℚ) - b)) ∧
      ∃ z : ℤ, ((a : ℚ) - b) * ((a : ℚ) - b) = (z : ℚ) ∧ 0 ≤ z ∧ z ≤ 4294836225 := by
    intro a b ha hb
    have hd : |(a : ℤ) - b| ≤ 65535 := by
      rw [abs_le]
      omega
    have e1 : round64 ((a : ℚ) - b) = Float64.fin ((a : ℚ) - b) :=
      round64_intCast _ ((a : ℤ) - b) (by push_cast; ring) (by
        have : (65535 : ℤ) < 2 ^ 53 := by norm_num
        omega)
    have hz0 : 0 ≤ ((a : ℤ) - b) * ((a : ℤ) - b) := mul_self_nonneg _
    have hz1 : ((a : ℤ) - b) * ((a : ℤ) - b) ≤ 4294836225 := by
      rw [abs_le] at hd
      nlinarith [hd.1, hd.2]
    have e2 : round64 (((a : ℚ) - b) * ((a : ℚ) - b))
        = Float64.fin (((a : ℚ) - b) * ((a : ℚ) - b)) :=
      round64_intCast _ (((a : ℤ) - b) * ((a : ℤ) - b)) (by push_cast; ring) (by
        rw [abs_of_nonneg hz0]
        have : (4294836225 : ℤ) < 2 ^ 53 := by norm_num
        omega)
    refine ⟨?_, ((a : ℤ) - b) * ((a : ℤ) - b), by push_cast; ring, hz0, hz1⟩
    rw [e1]
    exact e2
  obtain ⟨e1, z1, q1, l1, u1⟩ := sq ar br h1 h4
  obtain ⟨e2, z2, q2, l2, u2⟩ := sq ag bg h2 h5
  obtain ⟨e3, z3, q3, l3, u3⟩ := sq ab bb h3 h6
  have f1 : round64 (((ar : ℚ) - br) * ((ar : ℚ) - br) + ((ag : ℚ) - bg) * ((ag : ℚ) - bg))
      = Float64.fin (((ar : ℚ) - br) * ((ar : ℚ) - br) + ((ag : ℚ) - bg) * ((ag : ℚ) - bg)) :=
    round64_intCast _ (z1 + z2) (by rw [q1, q2]; push_cast; ring) (by
      rw [abs_of_nonneg (by omega)]
      have : (2 * 4294836225 : ℤ) < 2 ^ 53 := by norm_num
      omega)
  have f2 : round64 (((ar : ℚ) - br) * ((ar : ℚ) - br) + ((ag : ℚ) - bg) * ((ag : ℚ) - bg)
        + ((ab : ℚ) - bb) * ((ab : ℚ) - bb))
      = Float64.fin (((ar : ℚ) - br) * ((ar : ℚ) - br) + ((ag : ℚ) - bg) * ((ag : ℚ) - bg)
        + ((ab : ℚ) - bb) * ((ab : ℚ) - bb)) :=
    round64_intCast _ (z1 + z2 + z3) (by rw [q1, q2, q3]; push_cast; ring) (by
      rw [abs_of_nonneg (by omega)]
      have : (3 * 4294836225 : ℤ) < 2 ^ 53 := by norm_num
      omega)
  have hnn : ¬ (sqDist ar ag ab br bg bb < 0) := by
    unfold sqDist
    rw [q1, q2, q3]
    have : (0 : ℤ) ≤ z1 + z2 + z3 := by omega
    have h : (0 : ℚ) ≤ ((z1 + z2 + z3 : ℤ) : ℚ) := by exact_mod_cast this
    push_cast at h
    exact not_lt.mpr h
  rw [colorDistance_ofRat, e1, e2, e3]
  simp only [Float64.add, f1, f2]
  simp only [Sqrt]
  rw [show ((ar : ℚ) - br) * ((ar : ℚ) - br) + ((ag : ℚ) - bg) * ((ag : ℚ) - bg)
        + ((ab : ℚ) - bb) * ((ab : ℚ) - bb) = sqDist ar ag ab br bg bb from rfl, if_neg hnn]

theorem lt_zero_of_nonneg (X : Float64) (h : Float64.le (Float64.fin 0) X = true) :
    Float64.lt X (Float64.fin 0) = false := by
  cases X with
  | fin q =>
    simp only [Float64.le, decide_eq_true_eq] at h
    simp [Float64.lt, h]
  | pinf => rfl
  | ninf => simp [Float64.le] at h
  | nan => rfl

theorem MaxFloat64Val_pos : 0 < MaxFloat64Val := by
  unfold MaxFloat64Val
  norm_num

/-! ## Empty regions -/

/-- The sums of an empty region are zero, and their quotient is NaN. -/
theorem sumRegion_empty (m : Image) (x0 x1 y0 y1 : Int) (h : x1 ≤ x0 ∨ y1 ≤ y0) :
    sumRegion m x0 x1 y0 y1 = ⟨0, 0, 0, 0⟩ := by
  unfold sumRegion
  rcases h with h | h
  · have e : intRange x0 x1 = [] := by
      simp [intRange]
      omega
    rw [e]
    simp only [List.foldl_nil]
    induction intRange y0 y1 with
    | nil => rfl
    | cons y rest ih => simp
  · have e : intRange y0 y1 = [] := by
      simp [intRange]
      omega
    rw [e]
    rfl

theorem toColor_zero : Sums.toColor ⟨0, 0, 0, 0⟩ = nanColor := by
  simp [Sums.toColor, F64.div, nanColor]

/-! ## The nearest-tile loop -/

/-- The loop either keeps `closest` (no remaining tile is strictly below `min`)
or ends on the first index, counted from `i`, of a tile of least distance. -/
theorem closestLoop_spec (c : Color) (d : TileImage → ℚ) :
    ∀ (ts : List TileImage) (i : Nat) (cl : Option Nat) (m : ℚ),
      (∀ t ∈ ts, colorDistance c t.avgColor = Float64.fin (d t)) →
      ((∀ t ∈ ts, m ≤ d t) ∧ closestLoop c ts i cl (Float64.fin m) = cl) ∨
      (∃ j t, ts[j]? = some t ∧ closestLoop c ts i cl (Float64.fin m) = some (i + j) ∧
        d t < m ∧ (∀ u ∈ ts, d t ≤ d u) ∧
        (∀ j1 u, j1 < j → ts[j1]? = some u → d t < d u)) := by
  intro ts
  induction ts with
  | nil =>
    intro i cl m _
    left
    exact ⟨by simp, rfl⟩
  | cons t rest ih =>
    intro i cl m h
    have ht : colorDistance c t.avgColor = Float64.fin (d t) := h t (List.mem_cons_self _ _)
    have hrest : ∀ u ∈ rest, colorDistance c u.avgColor = Float64.fin (d u) :=
      fun u hu => h u (List.mem_cons_of_mem _ hu)
    by_cases hlt : d t < m
    · have step : closestLoop c (t :: rest) i cl (Float64.fin m)
          = closestLoop c rest (i + 1) (some i) (Float64.fin (d t)) := by
        simp [closestLoop, ht, Float64.lt, hlt]
      rcases ih (i + 1) (some i) (d t) hrest with ⟨hall, heq⟩ | ⟨j, u, hj, heq, hu, hmin, hfirst⟩
      · right
        refine ⟨0, t, by simp, by rw [step, heq]; rfl, hlt, ?_, ?_⟩
        · intro u hu
          rcases List.mem_cons.mp hu with rfl | hu
          · exact le_refl _
          · exact hall u hu
        · intro j1 u hj1 _
          exact absurd hj1 (Nat.not_lt_zero _)
      · right
        refine ⟨j + 1, u, by simpa using hj, ?_, lt_trans hu hlt, ?_, ?_⟩
        · rw [step, heq]
          congr 1
          omega
        · intro v hv
          rcases List.mem_cons.mp hv with rfl | hv
          · exact le_of_lt hu
          · exact hmin v hv
        · intro j1 v hj1 hv
          cases j1 with
          | zero =>
            simp at hv
            subst hv
            exact hu
          | succ k =>
            exact hfirst k v (by omega) (by simpa using hv)
    · have step : closestLoop c (t :: rest) i cl (Float64.fin m)
          = closestLoop c rest (i + 1) cl (Float64.fin m) := by
        simp [closestLoop, ht, Float64.lt, hlt]
      have hge : m ≤ d t := not_lt.mp hlt
      rcases ih (i + 1) cl m hrest with ⟨hall, heq⟩ | ⟨j, u, hj, heq, hu, hmin, hfirst⟩
      · left
        refine ⟨?_, by rw [step, heq]⟩
        intro u hu
        rcases List.mem_cons.mp hu with rfl | hu
        · exact hge
        · exact hall u hu
      · right
        refine ⟨j + 1, u, by simpa using hj, ?_, hu, ?_, ?_⟩
        · rw [step, heq]
          congr 1
          omega
        · intro v hv
          rcases List.mem_cons.mp hv with rfl | hv
          · exact le_of_lt (lt_of_lt_of_le hu hge)
          · exact hmin v hv
        · intro j1 v hj1 hv
          cases j1 with
          | zero =>
            simp at hv
            subst hv
            exact lt_of_lt_of_le hu hge
          | succ k =>
            exact hfirst k v (by omega) (by simpa using hv)

/-- For in-range colours the search returns the first index of a tile of least
distance. -/
theorem closestTileByColor_inRange (c : Color) (tiles : List TileImage)
    (hne : tiles ≠ []) (hc : c.inRange = true)
    (ht : ∀ t ∈ tiles, t.avgColor.inRange = true) :
    ∃ k t, tiles[k]? = some t ∧ closestTileByColor c tiles = some k ∧
      (∀ u ∈ tiles, distValue c t.avgColor ≤ distValue c u.avgColor) ∧
      (∀ j u, j < k → tiles[j]? = some u → distValue c t.avgColor < distValue c u.avgColor) := by
  have hd : ∀ t ∈ tiles, colorDistance c t.avgColor = Float64.fin (distValue c t.avgColor) :=
    fun t h => (colorDistance_inRange hc (ht t h)).1
  rcases closestLoop_spec c (fun t => distValue c t.avgColor) tiles 0 none
      MaxFloat64Val hd with ⟨hall, _⟩ | ⟨j, t, hj, heq, _, hmin, hfirst⟩
  · obtain ⟨t, rest, rfl⟩ := List.exists_cons_of_ne_nil hne
    have h1 := hall t (List.mem_cons_self _ _)
    have h2 := (colorDistance_inRange hc (ht t (List.mem_cons_self _ _))).2.2
    exact absurd h1 (not_le.mpr h2)
  · refine ⟨j, t, hj, ?_, hmin, hfirst⟩
    simpa [closestTileByColor, MaxFloat64] using heq

/-- C3 (amended): for every colour `c` with finite channels in `[0, 65535]` and
every non-empty tile list whose average colours have finite channels in
`[0, 65535]`, `closestTileByColor` returns a tile `t` of the list whose distance
to `c` is at most the distance of every tile `u` of the list. -/
theorem closestTileByColor_minimal (c : Color) (tiles : List TileImage)
    (hne : tiles ≠ []) (hc : c.inRange = true)
    (ht : ∀ t ∈ tiles, t.avgColor.inRange = true) :
    ∃ k t, closestTileByColor c tiles = some k ∧ tiles[k]? = some t ∧
      ∀ u ∈ tiles, Float64.le (colorDistance c t.avgColor) (colorDistance c u.avgColor) = true := by
  obtain ⟨k, t, hk, heq, hmin, _⟩ := closestTileByColor_inRange c tiles hne hc ht
  refine ⟨k, t, heq, hk, ?_⟩
  intro u hu
  have htm : t ∈ tiles := List.getElem?_mem hk
  rw [(colorDistance_inRange hc (ht t htm)).1, (colorDistance_inRange hc (ht u hu)).1]
  simpa [Float64.le] using hmin u hu

/-- C3 witness: the search among a red and a blue tile for pure blue. -/
theorem closestTileByColor_minimal_witness :
    ∃ k t, closestTileByColor (Color.ofRat 0 0 65535)
        [⟨redTile, Color.ofRat 65535 0 0⟩, ⟨blueTile, Color.ofRat 0 0 65535⟩] = some k ∧
      [(⟨redTile, Color.ofRat 65535 0 0⟩ : TileImage), ⟨blueTile, Color.ofRat 0 0 65535⟩][k]?
        = some t ∧
      ∀ u ∈ [(⟨redTile, Color.ofRat 65535 0 0⟩ : TileImage), ⟨blueTile, Color.ofRat 0 0 65535⟩],
        Float64.le (colorDistance (Color.ofRat 0 0 65535) t.avgColor)
          (colorDistance (Color.ofRat 0 0 65535) u.avgColor) = true :=
  closestTileByColor_minimal (Color.ofRat 0 0 65535)
    [⟨redTile, Color.ofRat 65535 0 0⟩, ⟨blueTile, Color.ofRat 0 0 65535⟩]
    (by simp) (by simp [Color.inRange, Color.ofRat, F64.inRange])
    (by simp [Color.inRange, Color.ofRat, F64.inRange])

/-- C3 (as stated) fails: the tile list is non-empty and its only average colour
is finite and in range, yet for a colour with a NaN channel every comparison
`dist < min` is false and the nil pointer is returned. -/
theorem closestTileByColor_nan_query :
    (∀ t ∈ [(⟨redTile, Color.ofRat 65535 0 0⟩ : TileImage)], t.avgColor.inRange = true) ∧
    closestTileByColor ⟨F64.nan, F64.fin 0, F64.fin 0⟩ [⟨redTile, Color.ofRat 65535 0 0⟩]
      = none := by
  refine ⟨by simp [Color.inRange, Color.ofRat, F64.inRange], ?_⟩
  simp [closestTileByColor, closestLoop, colorDistance, Color.ofRat, F64.toFloat64, Float64.sub,
    Float64.mul, Float64.add, Sqrt, Float64.lt]

/-- C4 (amended): for every colour `c` and non-empty tile list with finite
channels in `[0, 65535]`, `closestTileByColor` returns the smallest index among
the tiles of least distance: every tile is at least as far, every tile at a
smaller index is strictly farther; so of two tiles with the same average
colour the later one is never the one returned. -/
theorem closestTileByColor_first (c : Color) (tiles : List TileImage)
    (hne : tiles ≠ []) (hc : c.inRange = true)
    (ht : ∀ t ∈ tiles, t.avgColor.inRange = true) :
    ∃ k t, closestTileByColor c tiles = some k ∧ tiles[k]? = some t ∧
      (∀ u ∈ tiles, Float64.le (colorDistance c t.avgColor) (colorDistance c u.avgColor) = true) ∧
      (∀ j u, j < k → tiles[j]? = some u →
        Float64.lt (colorDistance c t.avgColor) (colorDistance c u.avgColor) = true) ∧
      (∀ i j ti tj, i < j → tiles[i]? = some ti → tiles[j]? = some tj →
        ti.avgColor = tj.avgColor → k ≠ j) := by
  obtain ⟨k, t, hk, heq, hmin, hfirst⟩ := closestTileByColor_inRange c tiles hne hc ht
  have htm : t ∈ tiles := List.getElem?_mem hk
  refine ⟨k, t, heq, hk, ?_, ?_, ?_⟩
  · intro u hu
    rw [(colorDistance_inRange hc (ht t htm)).1, (colorDistance_inRange hc (ht u hu)).1]
    simpa [Float64.le] using hmin u hu
  · intro j u hj hu
    have hum : u ∈ tiles := List.getElem?_mem hu
    rw [(colorDistance_inRange hc (ht t htm)).1, (colorDistance_inRange hc (ht u hum)).1]
    simpa [Float64.lt] using hfirst j u hj hu
  · intro i j ti tj hij hi hj hsame hkj
    subst hkj
    have e : t = tj := Option.some.inj (hk.symm.trans hj)
    have h := hfirst i ti hij hi
    rw [e, hsame] at h
    exact lt_irrefl _ h

/-- C4 witness: two red tiles and a red query; index 0 is returned. -/
theorem closestTileByColor_first_witness :
    ∃ k t, closestTileByColor (Color.ofRat 65535 0 0)
        [⟨redTile, Color.ofRat 65535 0 0⟩, ⟨redTile, Color.ofRat 65535 0 0⟩] = some k ∧
      [(⟨redTile, Color.ofRat 65535 0 0⟩ : TileImage), ⟨redTile, Color.ofRat 65535 0 0⟩][k]?
        = some t ∧
      (∀ u ∈ [(⟨redTile, Color.ofRat 65535 0 0⟩ : TileImage), ⟨redTile, Color.ofRat 65535 0 0⟩],
        Float64.le (colorDistance (Color.ofRat 65535 0 0) t.avgColor)
          (colorDistance (Color.ofRat 65535 0 0) u.avgColor) = true) ∧
      (∀ j u, j < k →
        [(⟨redTile, Color.ofRat 65535 0 0⟩ : TileImage), ⟨redTile, Color.ofRat 65535 0 0⟩][j]?
          = some u →
        Float64.lt (colorDistance (Color.ofRat 65535 0 0) t.avgColor)
          (colorDistance (Color.ofRat 65535 0 0) u.avgColor) = true) ∧
      (∀ i j ti tj, i < j →
        [(⟨redTile, Color.ofRat 65535 0 0⟩ : TileImage), ⟨redTile, Color.ofRat 65535 0 0⟩][i]?
          = some ti →
        [(⟨redTile, Color.ofRat 65535 0 0⟩ : TileImage), ⟨redTile, Color.ofRat 65535 0 0⟩][j]?
          = some tj →
        ti.avgColor = tj.avgColor → k ≠ j) :=
  closestTileByColor_first (Color.ofRat 65535 0 0)
    [⟨redTile, Color.ofRat 65535 0 0⟩, ⟨redTile, Color.ofRat 65535 0 0⟩]
    (by simp) (by simp [Color.inRange, Color.ofRat, F64.inRange])
    (by simp [Color.inRange, Color.ofRat, F64.inRange])

/-- C4 (as stated) fails: in a 4x1 target with squares of size 2 the square of
row 1 and column 0 is empty, so its average colour has all channels NaN; for
that colour and two tiles of identical average colour no tile is returned, in
particular not the earlier one. -/
theorem closestTileByColor_nan_tie :
    (profileSq (mkImage 4 1 (fun _ _ => red)) 2 1 0).avgColor = nanColor ∧
    closestTileByColor nanColor
      [⟨redTile, Color.ofRat 65535 0 0⟩, ⟨redTile, Color.ofRat 65535 0 0⟩] = none := by
  constructor
  · simp only [profileSq]
    rw [sumRegion_empty _ _ _ _ _ (Or.inr (by simp [mkImage])), toColor_zero]
  · simp [closestTileByColor, closestLoop, colorDistance, Color.ofRat, nanColor,
      F64.toFloat64, Float64.sub, Float64.mul, Float64.add, Sqrt, Float64.lt]

/-- C9: for colours with finite channels, `colorDistance c c` is `0`,
`colorDistance a b = colorDistance b a`, and `colorDistance a b` is
non-negative (`0 ≤ colorDistance a b` holds as a `float64` comparison, so the
distance is a non-negative number or `+Inf`, never NaN). -/
theorem colorDistance_metric (ar ag ab br bg bb : ℚ) :
    colorDistance (Color.ofRat ar ag ab) (Color.ofRat ar ag ab) = Float64.fin 0 ∧
    colorDistance (Color.ofRat ar ag ab) (Color.ofRat br bg bb)
      = colorDistance (Color.ofRat br bg bb) (Color.ofRat ar ag ab) ∧
    Float64.le (Float64.fin 0) (colorDistance (Color.ofRat ar ag ab) (Color.ofRat br bg bb))
      = true :=
  ⟨colorDistance_self ar ag ab, colorDistance_comm ar ag ab br bg bb,
    colorDistance_nonneg ar ag ab br bg bb⟩

/-! ## Averaging loops -/

theorem mem_intRange (lo hi v : Int) : v ∈ intRange lo hi ↔ lo ≤ v ∧ v < hi := by
  simp only [intRange, List.mem_map, List.mem_range]
  constructor
  · rintro ⟨k, hk, rfl⟩
    omega
  · rintro ⟨h1, h2⟩
    exact ⟨(v - lo).toNat, by omega, by omega⟩

theorem length_intRange (lo hi : Int) : (intRange lo hi).length = (hi - lo).toNat := by
  simp [intRange]

/-- The inner loop over a row of pixels that all have the RGB samples
`(r, g, b)` adds the row length times each sample. -/
theorem foldl_addPixel_uniform (f : Int → Pixel) (r g b : Nat) :
    ∀ (xs : List Int) (s : Sums),
      (∀ x ∈ xs, (f x).r = r ∧ (f x).g = g ∧ (f x).b = b) →
      xs.foldl (fun s x => s.addPixel (f x)) s
        = ⟨s.sumR + xs.length * r, s.sumG + xs.length * g, s.sumB + xs.length * b,
           s.count + xs.length⟩ := by
  intro xs
  induction xs with
  | nil => intro s _; simp
  | cons x rest ih =>
    intro s h
    obtain ⟨h1, h2, h3⟩ := h x (List.mem_cons_self _ _)
    rw [List.foldl_cons, ih _ (fun v hv => h v (List.mem_cons_of_mem _ hv))]
    simp only [Sums.addPixel, h1, h2, h3, List.length_cons, Sums.mk.injEq]
    push_cast
    refine ⟨?_, ?_, ?_, ?_⟩ <;> ring

/-- The nested loops over a region whose pixels all have the RGB samples
`(r, g, b)`. -/
theorem foldl_rows_uniform (f : Int → Int → Pixel) (r g b : Nat) (xs : List Int) :
    ∀ (ys : List Int) (s : Sums),
      (∀ y ∈ ys, ∀ x ∈ xs, (f x y).r = r ∧ (f x y).g = g ∧ (f x y).b = b) →
      ys.foldl (fun s y => xs.foldl (fun s x => s.addPixel (f x y)) s) s
        = ⟨s.sumR + (ys.length * xs.length : ℕ) * r, s.sumG + (ys.length * xs.length : ℕ) * g,
           s.sumB + (ys.length * xs.length : ℕ) * b, s.count + (ys.length * xs.length : ℕ)⟩ := by
  intro ys
  induction ys with
  | nil => intro s _; simp
  | cons y rest ih =>
    intro s h
    rw [List.foldl_cons, foldl_addPixel_uniform (fun x => f x y) r g b xs s
      (h y (List.mem_cons_self _ _)), ih _ (fun v hv => h v (List.mem_cons_of_mem _ hv))]
    simp only [List.length_cons, Sums.mk.injEq]
    push_cast
    refine ⟨?_, ?_, ?_, ?_⟩ <;> ring

/-- The sums over a region whose pixels all have the RGB samples `(r, g, b)`. -/
theorem sumRegion_uniform (m : Image) (x0 x1 y0 y1 : Int) (r g b : Nat)
    (h : ∀ x y, x0 ≤ x → x < x1 → y0 ≤ y → y < y1 →
      (m.At x y).r = r ∧ (m.At x y).g = g ∧ (m.At x y).b = b) :
    sumRegion m x0 x1 y0 y1
      = ⟨(((y1 - y0).toNat * (x1 - x0).toNat : ℕ) : ℚ) * r,
         (((y1 - y0).toNat * (x1 - x0).toNat : ℕ) : ℚ) * g,
         (((y1 - y0).toNat * (x1 - x0).toNat : ℕ) : ℚ) * b,
         (((y1 - y0).toNat * (x1 - x0).toNat : ℕ) : ℚ)⟩ := by
  unfold sumRegion
  rw [foldl_rows_uniform m.At r g b (intRange x0 x1) (intRange y0 y1) ⟨0, 0, 0, 0⟩]
  · simp [length_intRange]
  · intro y hy x hx
    rw [mem_intRange] at hy hx
    exact h x y hx.1 hx.2 hy.1 hy.2

/-- Dividing the sums of `n > 0` equal samples by `n` gives the sample. -/
theorem toColor_uniform (n : ℕ) (hn : 0 < n) (r g b : ℚ) :
    Sums.toColor ⟨(n : ℚ) * r, (n : ℚ) * g, (n : ℚ) * b, (n : ℚ)⟩ = Color.ofRat r g b := by
  have h0 : (n : ℚ) ≠ 0 := by exact_mod_cast (Nat.pos_iff_ne_zero.mp hn)
  simp only [Sums.toColor, F64.div, if_neg h0, Color.ofRat, Color.mk.injEq, F64.fin.injEq]
  refine ⟨?_, ?_, ?_⟩ <;> field_simp

/-- The average of a non-empty image of uniform RGB samples. -/
theorem avgColor_const (m : Image) (r g b : Nat)
    (hx : m.bounds.Min.X < m.bounds.Max.X) (hy : m.bounds.Min.Y < m.bounds.Max.Y)
    (h : ∀ x y, m.bounds.Contains x y = true →
      (m.At x y).r = r ∧ (m.At x y).g = g ∧ (m.At x y).b = b) :
    avgColor m = Color.ofRat r g b := by
  unfold avgColor
  rw [sumRegion_uniform m _ _ _ _ r g b]
  · apply toColor_uniform
    apply Nat.mul_pos <;> omega
  · intro x y h1 h2 h3 h4
    apply h
    simp [Rectangle.Contains, h1, h2, h3, h4]

/-- C8: for every image with non-empty bounds all of whose pixels have the RGB
samples `(r, g, b)`, whatever their alpha samples, `avgColor` returns exactly
the colour `(r, g, b)`. -/
theorem avgColor_uniform (m : Image) (r g b : Nat)
    (hx : m.bounds.Min.X < m.bounds.Max.X) (hy : m.bounds.Min.Y < m.bounds.Max.Y)
    (h : ∀ x y, m.bounds.Contains x y = true →
      (m.At x y).r = r ∧ (m.At x y).g = g ∧ (m.At x y).b = b) :
    avgColor m = Color.ofRat r g b :=
  avgColor_const m r g b hx hy h

/-- C8 witness: a 2x2 image whose pixels are red with alpha varying from pixel
to pixel. -/
theorem avgColor_uniform_witness :
    avgColor (mkImage 2 2 (fun x y => ⟨65535, 0, 0, (x + y).toNat⟩)) = Color.ofRat 65535 0 0 := by
  have h := avgColor_uniform (mkImage 2 2 (fun x y => ⟨65535, 0, 0, (x + y).toNat⟩)) 65535 0 0
    (by decide) (by decide) (by intro x y _; exact ⟨rfl, rfl, rfl⟩)
  simpa using h

/-! ## Colour profile -/

/-- For a non-negative width and a positive square size, Go's truncating
division is the floor. -/
theorem tdiv_eq_ediv (w s : Int) (hw : 0 ≤ w) (hs : 0 < s) : Int.tdiv w s = w / s := by
  rw [Int.tdiv_eq_ediv hw (le_of_lt hs)]

/-- The grid that `colorProfile` returns for a positive square size. -/
theorem colorProfile_pos (img : Image) (S : Int) (hS : 1 ≤ S) :
    colorProfile img S = some
      ((List.range ((img.bounds.Max.X - img.bounds.Min.X) / S).toNat.succ).map fun j =>
        (List.range ((img.bounds.Max.X - img.bounds.Min.X) / S).toNat.succ).map fun i =>
          profileSq img S j i) := by
  have hw : 0 ≤ img.bounds.Max.X - img.bounds.Min.X := by have := img.wf.1; omega
  have hq : 0 ≤ (img.bounds.Max.X - img.bounds.Min.X) / S := Int.ediv_nonneg hw (by omega)
  have e : (Int.tdiv (img.bounds.Max.X - img.bounds.Min.X) S + 1).toNat
      = ((img.bounds.Max.X - img.bounds.Min.X) / S).toNat.succ := by
    rw [tdiv_eq_ediv _ _ hw (by omega)]
    omega
  unfold colorProfile
  rw [if_neg (by omega)]
  simp only
  rw [if_neg (by rw [tdiv_eq_ediv _ _ hw (by omega)]; omega), e]

/-- C1: for every target image (of width `W ≥ 0` and any height) and every
`sqSize = S ≥ 1`, `colorProfile` returns a grid with exactly `⌊W/S⌋ + 1` rows,
each of exactly `⌊W/S⌋ + 1` columns; the number is computed from the width
alone. -/
theorem colorProfile_dims (img : Image) (S : Int) (hS : 1 ≤ S) :
    ∃ grid, colorProfile img S = some grid ∧
      (grid.length : Int) = (img.bounds.Max.X - img.bounds.Min.X) / S + 1 ∧
      ∀ row ∈ grid, (row.length : Int) = (img.bounds.Max.X - img.bounds.Min.X) / S + 1 := by
  have hw : 0 ≤ img.bounds.Max.X - img.bounds.Min.X := by have := img.wf.1; omega
  have hq : 0 ≤ (img.bounds.Max.X - img.bounds.Min.X) / S := Int.ediv_nonneg hw (by omega)
  refine ⟨_, colorProfile_pos img S hS, ?_, ?_⟩
  · simp only [List.length_map, List.length_range]
    omega
  · intro row hrow
    simp only [List.mem_map, List.mem_range] at hrow
    obtain ⟨j, _, rfl⟩ := hrow
    simp only [List.length_map, List.length_range]
    omega

/-- C1 witness: a 4x1 target with squares of size 2 has a 3x3 grid. -/
theorem colorProfile_dims_witness :
    ∃ grid, colorProfile (mkImage 4 1 (fun _ _ => red)) 2 = some grid ∧
      (grid.length : Int) = 3 ∧ ∀ row ∈ grid, (row.length : Int) = 3 := by
  have h := colorProfile_dims (mkImage 4 1 (fun _ _ => red)) 2 (by decide)
  simpa [mkImage] using h

/-! ## Rectangles and drawing -/

theorem Contains_iff (r : Rectangle) (x y : Int) :
    r.Contains x y = true ↔ r.Min.X ≤ x ∧ x < r.Max.X ∧ r.Min.Y ≤ y ∧ y < r.Max.Y := by
  simp [Rectangle.Contains, and_assoc]

theorem Contains_eq_false_iff (r : Rectangle) (x y : Int) :
    r.Contains x y = false ↔ ¬ (r.Min.X ≤ x ∧ x < r.Max.X ∧ r.Min.Y ≤ y ∧ y < r.Max.Y) := by
  rw [← Contains_iff, Bool.not_eq_true]

theorem Intersect_Contains (r s : Rectangle) (x y : Int) :
    (r.Intersect s).Contains x y = true ↔ r.Contains x y = true ∧ s.Contains x y = true := by
  simp only [Contains_iff, Rectangle.Intersect, Rectangle.Empty, Bool.or_eq_true,
    decide_eq_true_eq]
  split_ifs <;> constructor <;> intro h <;> simp only [] at * <;> omega

theorem Rect_wf (x0 y0 x1 y1 : Int) :
    (Rect x0 y0 x1 y1).Min.X ≤ (Rect x0 y0 x1 y1).Max.X ∧
    (Rect x0 y0 x1 y1).Min.Y ≤ (Rect x0 y0 x1 y1).Max.Y := by
  unfold Rect
  split_ifs <;> simp only [] <;> omega

theorem Rect_of_le (x0 y0 x1 y1 : Int) (hx : x0 ≤ x1) (hy : y0 ≤ y1) :
    Rect x0 y0 x1 y1 = ⟨⟨x0, y0⟩, ⟨x1, y1⟩⟩ := by
  unfold Rect
  rw [if_neg (by omega), if_neg (by omega)]

theorem cellRect_pos (S : Int) (hS : 1 ≤ S) (x y : Nat) :
    cellRect S x y = ⟨⟨(x : Int) * S, (y : Int) * S⟩, ⟨(x : Int) * S + S, (y : Int) * S + S⟩⟩ := by
  have e1 : ((x : Int) + 1) * S = (x : Int) * S + S := by ring
  have e2 : ((y : Int) + 1) * S = (y : Int) * S + S := by ring
  unfold cellRect
  rw [e1, e2, Rect_of_le _ _ _ _ (by omega) (by omega)]

/-- A coordinate lies in the slot of at most one index. -/
theorem slot_unique (S : Int) (hS : 1 ≤ S) (a b : Nat) (p : Int)
    (ha : (a : Int) * S ≤ p ∧ p < (a : Int) * S + S)
    (hb : (b : Int) * S ≤ p ∧ p < (b : Int) * S + S) : a = b := by
  have key : ∀ u v : Nat, u < v → (u : Int) * S + S ≤ (v : Int) * S := by
    intro u v huv
    have h1 : (u : Int) + 1 ≤ (v : Int) := by exact_mod_cast huv
    have h2 := Int.mul_le_mul_of_nonneg_right h1 (by omega : (0 : Int) ≤ S)
    have e : ((u : Int) + 1) * S = (u : Int) * S + S := by ring
    omega
  rcases Nat.lt_trichotomy a b with h | h | h
  · have := key a b h
    omega
  · exact h
  · have := key b a h
    omega

theorem cell_disjoint (S : Int) (hS : 1 ≤ S) (x y x1 y1 : Nat) (px py : Int)
    (hne : x ≠ x1 ∨ y ≠ y1) (h : (cellRect S x y).Contains px py = true) :
    (cellRect S x1 y1).Contains px py = false := by
  rw [cellRect_pos S hS, Contains_iff] at h
  rw [cellRect_pos S hS, Contains_eq_false_iff]
  simp only [] at h ⊢
  intro h1
  rcases hne with hne | hne
  · exact hne (slot_unique S hS x x1 px ⟨h.1, h.2.1⟩ ⟨h1.1, h1.2.1⟩)
  · exact hne (slot_unique S hS y y1 py ⟨h.2.2.1, h.2.2.2⟩ ⟨h1.2.2.1, h1.2.2.2⟩)

theorem Draw_bounds (dst : Image) (r : Rectangle) (src : Image) (sp : Point) :
    (Draw dst r src sp).bounds = dst.bounds := rfl

theorem Draw_At_of_not_mem (dst : Image) (r : Rectangle) (src : Image) (sp : Point)
    (px py : Int) (h : r.Contains px py = false) :
    (Draw dst r src sp).At px py = dst.At px py := by
  simp only [Draw]
  rw [if_neg]
  intro hc
  rw [Intersect_Contains, Intersect_Contains] at hc
  rw [hc.1.1] at h
  exact Bool.noConfusion h

theorem Draw_At_of_mem (dst : Image) (r : Rectangle) (src : Image) (sp : Point)
    (px py : Int) (h1 : r.Contains px py = true) (h2 : dst.bounds.Contains px py = true)
    (h3 : (src.bounds.Add ⟨r.Min.X - sp.X, r.Min.Y - sp.Y⟩).Contains px py = true) :
    (Draw dst r src sp).At px py
      = (src.At (sp.X + (px - r.Min.X)) (sp.Y + (py - r.Min.Y))).toRGBA := by
  simp only [Draw]
  rw [if_pos]
  rw [Intersect_Contains, Intersect_Contains]
  exact ⟨⟨h1, h2⟩, h3⟩

theorem Draw_At_congr (dst dst1 : Image) (r : Rectangle) (src : Image) (sp : Point)
    (px py : Int) (hb : dst1.bounds = dst.bounds) (ha : dst1.At px py = dst.At px py) :
    (Draw dst1 r src sp).At px py = (Draw dst r src sp).At px py := by
  simp only [Draw, hb, ha]

theorem NewRGBA_Rect (x0 y0 x1 y1 : Int) :
    ∃ dest, NewRGBA (Rect x0 y0 x1 y1) = some dest ∧ dest.bounds = Rect x0 y0 x1 y1 ∧
      ∀ px py, dest.At px py = Pixel.zero := by
  unfold NewRGBA
  rw [dif_pos (Rect_wf x0 y0 x1 y1)]
  exact ⟨_, rfl, rfl, fun _ _ => rfl⟩

/-! ## The drawing loops -/

theorem drawRow_cons (squares : List (List ImageSq)) (T : List TileImage) (S : Int) (y x : Nat)
    (xs : List Nat) (dest out : Image) :
    drawRow squares T S y (x :: xs) dest = some out ↔
      ∃ c k t, gridAt squares y x = some c ∧ closestTileByColor c.avgColor T = some k ∧
        T[k]? = some t ∧
        drawRow squares T S y xs (Draw dest (cellRect S x y) t.img ⟨0, 0⟩) = some out := by
  simp only [drawRow]
  cases h1 : gridAt squares y x with
  | none => simp
  | some c =>
    cases h2 : closestTileByColor c.avgColor T with
    | none => simp [h2]
    | some k =>
      cases h3 : T[k]? with
      | none => simp [h2, h3]
      | some t => simp [h2, h3]

theorem drawRow_bounds (squares : List (List ImageSq)) (T : List TileImage) (S : Int) (y : Nat) :
    ∀ (xs : List Nat) (dest out : Image),
      drawRow squares T S y xs dest = some out → out.bounds = dest.bounds := by
  intro xs
  induction xs with
  | nil =>
    intro dest out h
    simp only [drawRow, Option.some.injEq] at h
    rw [← h]
  | cons x rest ih =>
    intro dest out h
    obtain ⟨c, k, t, _, _, _, h4⟩ := (drawRow_cons _ _ _ _ _ _ _ _).mp h
    rw [ih _ _ h4, Draw_bounds]

/-- The row loop leaves every pixel outside its cells untouched. -/
theorem drawRow_frame (squares : List (List ImageSq)) (T : List TileImage) (S : Int) (y : Nat)
    (px py : Int) :
    ∀ (xs : List Nat) (dest out : Image),
      drawRow squares T S y xs dest = some out →
      (∀ x ∈ xs, (cellRect S x y).Contains px py = false) →
      out.At px py = dest.At px py := by
  intro xs
  induction xs with
  | nil =>
    intro dest out h _
    simp only [drawRow, Option.some.injEq] at h
    rw [← h]
  | cons x rest ih =>
    intro dest out h hout
    obtain ⟨c, k, t, _, _, _, h4⟩ := (drawRow_cons _ _ _ _ _ _ _ _).mp h
    rw [ih _ _ h4 (fun v hv => hout v (List.mem_cons_of_mem _ hv)),
      Draw_At_of_not_mem _ _ _ _ _ _ (hout x (List.mem_cons_self _ _))]

/-- The row loop gives every pixel of a cell the value its own `draw.Draw`
gives it. -/
theorem drawRow_cell (squares : List (List ImageSq)) (T : List TileImage) (S : Int)
    (hS : 1 ≤ S) (y x : Nat) :
    ∀ (xs : List Nat) (dest out : Image), xs.Nodup → x ∈ xs →
      drawRow squares T S y xs dest = some out →
      ∃ c k t, gridAt squares y x = some c ∧ closestTileByColor c.avgColor T = some k ∧
        T[k]? = some t ∧
        ∀ px py, (cellRect S x y).Contains px py = true →
          out.At px py = (Draw dest (cellRect S x y) t.img ⟨0, 0⟩).At px py := by
  intro xs
  induction xs with
  | nil => intro dest out _ hx; exact absurd hx (List.not_mem_nil _)
  | cons v rest ih =>
    intro dest out hnd hx h
    obtain ⟨c, k, t, h1, h2, h3, h4⟩ := (drawRow_cons _ _ _ _ _ _ _ _).mp h
    have hv : v ∉ rest := (List.nodup_cons.mp hnd).1
    by_cases hxv : x = v
    · subst hxv
      refine ⟨c, k, t, h1, h2, h3, ?_⟩
      intro px py hp
      apply drawRow_frame _ _ _ _ _ _ _ _ _ h4
      intro w hw
      apply cell_disjoint S hS x y w y px py _ hp
      left
      rintro rfl
      exact hv hw
    · have hxr : x ∈ rest := by
        rcases List.mem_cons.mp hx with h | h
        · exact absurd h hxv
        · exact h
      obtain ⟨c1, k1, t1, g1, g2, g3, g4⟩ := ih _ _ (List.nodup_cons.mp hnd).2 hxr h4
      refine ⟨c1, k1, t1, g1, g2, g3, ?_⟩
      intro px py hp
      rw [g4 px py hp]
      apply Draw_At_congr _ _ _ _ _ _ _ (Draw_bounds _ _ _ _)
      apply Draw_At_of_not_mem
      exact cell_disjoint S hS x y v y px py (Or.inl hxv) hp

/-- The row loop returns as soon as every cell of the row finds a tile. -/
theorem drawRow_some (squares : List (List ImageSq)) (T : List TileImage) (S : Int) (y : Nat) :
    ∀ (xs : List Nat) (dest : Image),
      (∀ x ∈ xs, ∃ c k t, gridAt squares y x = some c ∧
        closestTileByColor c.avgColor T = some k ∧ T[k]? = some t) →
      ∃ out, drawRow squares T S y xs dest = some out := by
  intro xs
  induction xs with
  | nil => intro dest _; exact ⟨dest, rfl⟩
  | cons x rest ih =>
    intro dest h
    obtain ⟨c, k, t, h1, h2, h3⟩ := h x (List.mem_cons_self _ _)
    obtain ⟨out, ho⟩ := ih (Draw dest (cellRect S x y) t.img ⟨0, 0⟩)
      (fun v hv => h v (List.mem_cons_of_mem _ hv))
    exact ⟨out, (drawRow_cons _ _ _ _ _ _ _ _).mpr ⟨c, k, t, h1, h2, h3, ho⟩⟩

theorem drawRows_cons (squares : List (List ImageSq)) (T : List TileImage) (S : Int)
    (cols y : Nat) (ys : List Nat) (dest out : Image) :
    drawRows squares T S cols (y :: ys) dest = some out ↔
      ∃ d1, drawRow squares T S y (List.range cols) dest = some d1 ∧
        drawRows squares T S cols ys d1 = some out := by
  simp only [drawRows]
  cases h1 : drawRow squares T S y (List.range cols) dest with
  | none => simp
  | some d1 => simp

theorem drawRows_bounds (squares : List (List ImageSq)) (T : List TileImage) (S : Int)
    (cols : Nat) :
    ∀ (ys : List Nat) (dest out : Image),
      drawRows squares T S cols ys dest = some out → out.bounds = dest.bounds := by
  intro ys
  induction ys with
  | nil =>
    intro dest out h
    simp only [drawRows, Option.some.injEq] at h
    rw [← h]
  | cons y rest ih =>
    intro dest out h
    obtain ⟨d1, h1, h2⟩ := (drawRows_cons _ _ _ _ _ _ _ _).mp h
    rw [ih _ _ h2, drawRow_bounds _ _ _ _ _ _ _ h1]

/-- The loops leave every pixel outside the rendered cells untouched. -/
theorem drawRows_frame (squares : List (List ImageSq)) (T : List TileImage) (S : Int)
    (cols : Nat) (px py : Int) :
    ∀ (ys : List Nat) (dest out : Image),
      drawRows squares T S cols ys dest = some out →
      (∀ y ∈ ys, ∀ x, x < cols → (cellRect S x y).Contains px py = false) →
      out.At px py = dest.At px py := by
  intro ys
  induction ys with
  | nil =>
    intro dest out h _
    simp only [drawRows, Option.some.injEq] at h
    rw [← h]
  | cons y rest ih =>
    intro dest out h hout
    obtain ⟨d1, h1, h2⟩ := (drawRows_cons _ _ _ _ _ _ _ _).mp h
    rw [ih _ _ h2 (fun v hv => hout v (List.mem_cons_of_mem _ hv)),
      drawRow_frame _ _ _ _ _ _ _ _ _ h1
        (fun x hx => hout y (List.mem_cons_self _ _) x (List.mem_range.mp hx))]

/-- The loops give every pixel of a rendered cell the value its own `draw.Draw`
gives it on the initial canvas. -/
theorem drawRows_cell (squares : List (List ImageSq)) (T : List TileImage) (S : Int)
    (hS : 1 ≤ S) (cols y x : Nat) (hx : x < cols) :
    ∀ (ys : List Nat) (dest out : Image), ys.Nodup → y ∈ ys →
      drawRows squares T S cols ys dest = some out →
      ∃ c k t, gridAt squares y x = some c ∧ closestTileByColor c.avgColor T = some k ∧
        T[k]? = some t ∧
        ∀ px py, (cellRect S x y).Contains px py = true →
          out.At px py = (Draw dest (cellRect S x y) t.img ⟨0, 0⟩).At px py := by
  intro ys
  induction ys with
  | nil => intro dest out _ hy; exact absurd hy (List.not_mem_nil _)
  | cons v rest ih =>
    intro dest out hnd hy h
    obtain ⟨d1, h1, h2⟩ := (drawRows_cons _ _ _ _ _ _ _ _).mp h
    have hv : v ∉ rest := (List.nodup_cons.mp hnd).1
    by_cases hyv : y = v
    · subst hyv
      obtain ⟨c, k, t, g1, g2, g3, g4⟩ := drawRow_cell squares T S hS y x (List.range cols)
        dest d1 (List.nodup_range cols) (List.mem_range.mpr hx) h1
      refine ⟨c, k, t, g1, g2, g3, ?_⟩
      intro px py hp
      rw [← g4 px py hp]
      apply drawRows_frame _ _ _ _ _ _ _ _ _ h2
      intro w hw u _
      apply cell_disjoint S hS x y u w px py _ hp
      right
      rintro rfl
      exact hv hw
    · have hyr : y ∈ rest := by
        rcases List.mem_cons.mp hy with h | h
        · exact absurd h hyv
        · exact h
      obtain ⟨c, k, t, g1, g2, g3, g4⟩ := ih _ _ (List.nodup_cons.mp hnd).2 hyr h2
      refine ⟨c, k, t, g1, g2, g3, ?_⟩
      intro px py hp
      rw [g4 px py hp]
      apply Draw_At_congr _ _ _ _ _ _ _ (drawRow_bounds _ _ _ _ _ _ _ h1)
      apply drawRow_frame _ _ _ _ _ _ _ _ _ h1
      intro u _
      exact cell_disjoint S hS x y u v px py (Or.inr hyv) hp

/-- The loops return as soon as every rendered cell finds a tile. -/
theorem drawRows_some (squares : List (List ImageSq)) (T : List TileImage) (S : Int)
    (cols : Nat) :
    ∀ (ys : List Nat) (dest : Image),
      (∀ y ∈ ys, ∀ x, x < cols → ∃ c k t, gridAt squares y x = some c ∧
        closestTileByColor c.avgColor T = some k ∧ T[k]? = some t) →
      ∃ out, drawRows squares T S cols ys dest = some out := by
  intro ys
  induction ys with
  | nil => intro dest _; exact ⟨dest, rfl⟩
  | cons y rest ih =>
    intro dest h
    obtain ⟨d1, h1⟩ := drawRow_some squares T S y (List.range cols) dest
      (fun x hx => h y (List.mem_cons_self _ _) x (List.mem_range.mp hx))
    obtain ⟨out, ho⟩ := ih d1 (fun v hv => h v (List.mem_cons_of_mem _ hv))
    exact ⟨out, (drawRows_cons _ _ _ _ _ _ _ _).mpr ⟨d1, h1, ho⟩⟩

/-! ## The mosaic -/

theorem Mosaic_ok (resize : Nat → Nat → Image → Image) (target : Image) (tiles : List Image)
    (S : Int) (out : Image) :
    Mosaic resize target tiles S = Result.ok out ↔
      ∃ squares dest, colorProfile target S = some squares ∧
        NewRGBA (Rect 0 0 (S * (squares.length : Int)) (S * (squares.length : Int))) = some dest ∧
        drawRows squares (tileImages resize tiles S) S (squares.length - 1)
          (List.range (squares.length - 1)) dest = some out := by
  simp only [Mosaic]
  cases h1 : colorProfile target S with
  | none => simp
  | some squares =>
    cases h2 : NewRGBA (Rect 0 0 (S * (squares.length : Int)) (S * (squares.length : Int))) with
    | none => simp [h2]
    | some dest =>
      cases h3 : drawRows squares (tileImages resize tiles S) S (squares.length - 1)
          (List.range (squares.length - 1)) dest with
      | none => simp [h2, h3]
      | some o => simp [h2, h3]

/-- The function `Mosaic` never returns a non-nil error. -/
theorem Mosaic_ne_error (resize : Nat → Nat → Image → Image) (target : Image)
    (tiles : List Image) (S : Int) : Mosaic resize target tiles S ≠ Result.error := by
  simp only [Mosaic]
  cases h1 : colorProfile target S with
  | none => simp
  | some squares =>
    cases h2 : NewRGBA (Rect 0 0 (S * (squares.length : Int)) (S * (squares.length : Int))) with
    | none => simp [h2]
    | some dest =>
      cases h3 : drawRows squares (tileImages resize tiles S) S (squares.length - 1)
          (List.range (squares.length - 1)) dest with
      | none => simp [h2, h3]
      | some o => simp [h2, h3]

/-- The number of rows of a grid that `colorProfile` returns. -/
theorem colorProfile_length (img : Image) (S : Int) (squares : List (List ImageSq))
    (h : colorProfile img S = some squares) :
    S ≠ 0 ∧ squares.length = (Int.tdiv (img.bounds.Max.X - img.bounds.Min.X) S + 1).toNat := by
  unfold colorProfile at h
  by_cases h0 : S = 0
  · rw [if_pos h0] at h
    exact Option.noConfusion h
  · rw [if_neg h0] at h
    simp only [] at h
    split_ifs at h
    simp only [Option.some.injEq] at h
    rw [← h]
    exact ⟨h0, by simp⟩

theorem colorProfile_length_pos (img : Image) (S : Int) (hS : 1 ≤ S)
    (squares : List (List ImageSq)) (h : colorProfile img S = some squares) :
    squares.length = ((img.bounds.Max.X - img.bounds.Min.X) / S).toNat + 1 := by
  rw [colorProfile_pos img S hS, Option.some.injEq] at h
  rw [← h]
  simp

/-- The element of row `y` and column `x` of the grid is the square computed
for that row and column. -/
theorem gridAt_colorProfile (img : Image) (S : Int) (hS : 1 ≤ S)
    (squares : List (List ImageSq)) (h : colorProfile img S = some squares) (y x : Nat)
    (hy : y < squares.length) (hx : x < squares.length) :
    gridAt squares y x = some (profileSq img S y x) := by
  have hl := colorProfile_length_pos img S hS squares h
  rw [colorProfile_pos img S hS, Option.some.injEq] at h
  rw [hl] at hy hx
  rw [← h]
  simp only [gridAt, List.getElem?_map, List.getElem?_range hy, Option.map_some',
    List.getElem?_range hx]

/-- The bounds of the canvas `Mosaic` returns. -/
theorem Mosaic_bounds (resize : Nat → Nat → Image → Image) (target : Image)
    (tiles : List Image) (S : Int) (out : Image)
    (h : Mosaic resize target tiles S = Result.ok out) :
    ∃ squares, colorProfile target S = some squares ∧
      out.bounds = Rect 0 0 (S * (squares.length : Int)) (S * (squares.length : Int)) := by
  obtain ⟨squares, dest, h1, h2, h3⟩ := (Mosaic_ok _ _ _ _ _).mp h
  obtain ⟨d, g1, g2, _⟩ := NewRGBA_Rect 0 0 (S * (squares.length : Int)) (S * (squares.length : Int))
  rw [h2, Option.some.injEq] at g1
  subst g1
  exact ⟨squares, h1, by rw [drawRows_bounds _ _ _ _ _ _ _ h3, g2]⟩

/-- Whatever the inputs, a pixel outside the slots of the rendered cells is
zero in the canvas `Mosaic` returns. -/
theorem Mosaic_frame (resize : Nat → Nat → Image → Image) (target : Image)
    (tiles : List Image) (S : Int) (out : Image)
    (h : Mosaic resize target tiles S = Result.ok out) :
    ∃ squares, colorProfile target S = some squares ∧
      ∀ px py : Int, (px ≥ ((squares.length : Int) - 1) * S ∨
          py ≥ ((squares.length : Int) - 1) * S) → out.At px py = Pixel.zero := by
  obtain ⟨squares, dest, h1, h2, h3⟩ := (Mosaic_ok _ _ _ _ _).mp h
  obtain ⟨d, g1, _, g3⟩ := NewRGBA_Rect 0 0 (S * (squares.length : Int)) (S * (squares.length : Int))
  rw [h2, Option.some.injEq] at g1
  subst g1
  refine ⟨squares, h1, ?_⟩
  intro px py hp
  rw [drawRows_frame _ _ _ _ _ _ _ _ _ h3, g3]
  intro y hy x hx
  rw [List.mem_range] at hy
  obtain ⟨hS0, hlen⟩ := colorProfile_length target S squares h1
  have hw : 0 ≤ target.bounds.Max.X - target.bounds.Min.X := by have := target.wf.1; omega
  rcases lt_or_gt_of_ne hS0 with hneg | hpos
  · have := Int.tdiv_nonpos hw (le_of_lt hneg)
    omega
  · have hS : 1 ≤ S := by omega
    rw [cellRect_pos S hS, Contains_eq_false_iff]
    simp only []
    intro hc
    have key : ∀ u : Nat, u < squares.length - 1 →
        (u : Int) * S + S ≤ ((squares.length : Int) - 1) * S := by
      intro u hu
      have h1 : (u : Int) + 1 ≤ (squares.length : Int) - 1 := by omega
      have h2 := Int.mul_le_mul_of_nonneg_right h1 (by omega : (0 : Int) ≤ S)
      have e : ((u : Int) + 1) * S = (u : Int) * S + S := by ring
      omega
    have kx := key x hx
    have ky := key y hy
    omega

/-- The pixels of a rendered cell in the canvas `Mosaic` returns: those of the
tile found for the cell, converted to 8 bits per channel, as far as the tile
reaches; zero beyond. -/
theorem Mosaic_cell (resize : Nat → Nat → Image → Image) (target : Image)
    (tiles : List Image) (S : Int) (hS : 1 ≤ S) (out : Image)
    (h : Mosaic resize target tiles S = Result.ok out) :
    ∃ squares, colorProfile target S = some squares ∧
      ∀ x y : Nat, x + 2 ≤ squares.length → y + 2 ≤ squares.length →
        ∃ c k t, gridAt squares y x = some c ∧
          closestTileByColor c.avgColor (tileImages resize tiles S) = some k ∧
          (tileImages resize tiles S)[k]? = some t ∧
          ∀ dx dy : Int, 0 ≤ dx → dx < S → 0 ≤ dy → dy < S →
            out.At ((x : Int) * S + dx) ((y : Int) * S + dy)
              = if t.img.bounds.Contains dx dy then (t.img.At dx dy).toRGBA else Pixel.zero := by
  obtain ⟨squares, dest, h1, h2, h3⟩ := (Mosaic_ok _ _ _ _ _).mp h
  obtain ⟨d, g1, g2, g3⟩ := NewRGBA_Rect 0 0 (S * (squares.length : Int)) (S * (squares.length : Int))
  rw [h2, Option.some.injEq] at g1
  subst g1
  refine ⟨squares, h1, ?_⟩
  intro x y hx hy
  obtain ⟨c, k, t, e1, e2, e3, e4⟩ := drawRows_cell squares (tileImages resize tiles S) S hS
    (squares.length - 1) y x (by omega) (List.range (squares.length - 1)) dest out
    (List.nodup_range _) (List.mem_range.mpr (by omega)) h3
  refine ⟨c, k, t, e1, e2, e3, ?_⟩
  intro dx dy hdx0 hdx hdy0 hdy
  have hcell : (cellRect S x y).Contains ((x : Int) * S + dx) ((y : Int) * S + dy) = true := by
    rw [cellRect_pos S hS, Contains_iff]
    simp only []
    omega
  rw [e4 _ _ hcell]
  have key : ∀ u : Nat, u + 2 ≤ squares.length →
      (u : Int) * S + S ≤ S * (squares.length : Int) := by
    intro u hu
    have h1 : (u : Int) + 1 ≤ (squares.length : Int) := by omega
    have h2 := Int.mul_le_mul_of_nonneg_right h1 (by omega : (0 : Int) ≤ S)
    have e : ((u : Int) + 1) * S = (u : Int) * S + S := by ring
    have e2 : (squares.length : Int) * S = S * (squares.length : Int) := by ring
    omega
  have kx := key x hx
  have ky := key y hy
  have hx0 : 0 ≤ (x : Int) * S := Int.mul_nonneg (Int.ofNat_nonneg x) (by omega)
  have hy0 : 0 ≤ (y : Int) * S := Int.mul_nonneg (Int.ofNat_nonneg y) (by omega)
  have hlen0 : 0 ≤ S * (squares.length : Int) := Int.mul_nonneg (by omega) (Int.ofNat_nonneg _)
  have hdest : dest.bounds.Contains ((x : Int) * S + dx) ((y : Int) * S + dy) = true := by
    rw [g2, Rect_of_le _ _ _ _ hlen0 hlen0, Contains_iff]
    simp only []
    omega
  have ex : (0 : Int) + ((x : Int) * S + dx - (cellRect S x y).Min.X) = dx := by
    rw [cellRect_pos S hS]
    simp only []
    omega
  have ey : (0 : Int) + ((y : Int) * S + dy - (cellRect S x y).Min.Y) = dy := by
    rw [cellRect_pos S hS]
    simp only []
    omega
  by_cases hsrc : t.img.bounds.Contains dx dy = true
  · rw [if_pos hsrc, Draw_At_of_mem _ _ _ _ _ _ hcell hdest, ex, ey]
    rw [Contains_iff] at hsrc ⊢
    rw [cellRect_pos S hS]
    simp only [Rectangle.Add]
    omega
  · rw [if_neg hsrc]
    simp only [Draw]
    rw [if_neg, g3]
    intro hc
    rw [Intersect_Contains, Contains_iff (Rectangle.Add _ _)] at hc
    apply hsrc
    rw [Contains_iff]
    have hc2 := hc.2
    rw [cellRect_pos S hS] at hc2
    simp only [Rectangle.Add] at hc2
    omega

/-- The function `Mosaic` returns a canvas as soon as every rendered cell finds
a tile. -/
theorem Mosaic_returns (resize : Nat → Nat → Image → Image) (target : Image)
    (tiles : List Image) (S : Int) (hS : 1 ≤ S)
    (h : ∀ y x : Nat, y < ((target.bounds.Max.X - target.bounds.Min.X) / S).toNat →
      x < ((target.bounds.Max.X - target.bounds.Min.X) / S).toNat →
      ∃ k t, closestTileByColor (profileSq target S y x).avgColor (tileImages resize tiles S)
          = some k ∧ (tileImages resize tiles S)[k]? = some t) :
    ∃ out, Mosaic resize target tiles S = Result.ok out := by
  obtain ⟨squares, hsq⟩ : ∃ squares, colorProfile target S = some squares :=
    ⟨_, colorProfile_pos target S hS⟩
  have hl := colorProfile_length_pos target S hS squares hsq
  obtain ⟨dest, g1, _, _⟩ :=
    NewRGBA_Rect 0 0 (S * (squares.length : Int)) (S * (squares.length : Int))
  obtain ⟨out, ho⟩ := drawRows_some squares (tileImages resize tiles S) S (squares.length - 1)
    (List.range (squares.length - 1)) dest (by
      intro y hy x hx
      rw [List.mem_range] at hy
      obtain ⟨k, t, e1, e2⟩ := h y x (by omega) (by omega)
      exact ⟨_, k, t, gridAt_colorProfile target S hS squares hsq y x (by omega) (by omega),
        e1, e2⟩)
  exact ⟨out, (Mosaic_ok _ _ _ _ _).mpr ⟨squares, dest, hsq, g1, ho⟩⟩

/-! ## Concrete runs -/

/-- The average stored in a square whose clipped region is non-empty and of
uniform RGB samples. -/
theorem profileSq_avg_uniform (img : Image) (S : Int) (j i : Nat) (r g b : Nat)
    (hx : (i : Int) * S < min ((i : Int) * S + S) img.bounds.Max.X)
    (hy : (j : Int) * S < min ((j : Int) * S + S) img.bounds.Max.Y)
    (h : ∀ x y, (i : Int) * S ≤ x → x < min ((i : Int) * S + S) img.bounds.Max.X →
      (j : Int) * S ≤ y → y < min ((j : Int) * S + S) img.bounds.Max.Y →
      (img.At x y).r = r ∧ (img.At x y).g = g ∧ (img.At x y).b = b) :
    (profileSq img S j i).avgColor = Color.ofRat r g b := by
  simp only [profileSq]
  rw [sumRegion_uniform img _ _ _ _ r g b h]
  apply toColor_uniform
  apply Nat.mul_pos <;> omega

theorem toUint_two : toUint 2 = 2 := by decide

theorem avgColor_redTile : avgColor redTile = Color.ofRat 65535 0 0 := by
  have h := avgColor_const redTile 65535 0 0 (by decide) (by decide)
    (fun _ _ _ => ⟨rfl, rfl, rfl⟩)
  simpa using h

theorem avgColor_blueTile : avgColor blueTile = Color.ofRat 0 0 65535 := by
  have h := avgColor_const blueTile 0 0 65535 (by decide) (by decide)
    (fun _ _ _ => ⟨rfl, rfl, rfl⟩)
  simpa using h

theorem avgColor_greyTile : avgColor greyTile = Color.ofRat 300 300 300 := by
  have h := avgColor_const greyTile 300 300 300 (by decide) (by decide)
    (fun _ _ _ => ⟨rfl, rfl, rfl⟩)
  simpa using h

theorem closestLoop_cons_lt (c : Color) (t : TileImage) (rest : List TileImage) (i : Nat)
    (cl : Option Nat) (m : Float64) (h : Float64.lt (colorDistance c t.avgColor) m = true) :
    closestLoop c (t :: rest) i cl m
      = closestLoop c rest (i + 1) (some i) (colorDistance c t.avgColor) := by
  simp [closestLoop, h]

theorem closestLoop_cons_not_lt (c : Color) (t : TileImage) (rest : List TileImage) (i : Nat)
    (cl : Option Nat) (m : Float64) (h : Float64.lt (colorDistance c t.avgColor) m = false) :
    closestLoop c (t :: rest) i cl m = closestLoop c rest (i + 1) cl m := by
  simp [closestLoop, h]

theorem lt_MaxFloat64 (q : ℚ) (h : q < MaxFloat64Val) :
    Float64.lt (Float64.fin q) MaxFloat64 = true := by
  show decide (q < MaxFloat64Val) = true
  exact decide_eq_true h

theorem closest_red :
    closestTileByColor (Color.ofRat 65535 0 0)
      [⟨redTile, Color.ofRat 65535 0 0⟩, ⟨blueTile, Color.ofRat 0 0 65535⟩] = some 0 := by
  have h1 := colorDistance_self 65535 0 0
  have h2 := lt_zero_of_nonneg _ (colorDistance_nonneg 65535 0 0 0 0 65535)
  unfold closestTileByColor
  rw [closestLoop_cons_lt _ _ _ _ _ _ (by rw [h1]; exact lt_MaxFloat64 0 MaxFloat64Val_pos), h1,
    closestLoop_cons_not_lt _ _ _ _ _ _ h2]
  rfl

/-- The distance from pure blue to pure red is a finite number, at least 1. -/
theorem distance_blue_red :
    ∃ r : ℚ, colorDistance (Color.ofRat 0 0 65535) (Color.ofRat 65535 0 0) = Float64.fin r ∧
      1 ≤ r ∧ r < MaxFloat64Val := by
  have h := colorDistance_int 0 0 65535 65535 0 0 (by norm_num) (by norm_num) (by norm_num)
    (by norm_num) (by norm_num) (by norm_num)
  have e : sqDist ((0 : ℕ) : ℚ) ((0 : ℕ) : ℚ) ((65535 : ℕ) : ℚ) ((65535 : ℕ) : ℚ) ((0 : ℕ) : ℚ)
      ((0 : ℕ) : ℚ) = 8589672450 := by
    unfold sqDist
    norm_num
  rw [e] at h
  obtain ⟨r, hr, hr1, hr2⟩ := sqrt64_range 8589672450 0 20 (by norm_num) (by norm_num)
    (by norm_num)
  refine ⟨r, ?_, by simpa using hr1, ?_⟩
  · have h' : colorDistance (Color.ofRat 0 0 65535) (Color.ofRat 65535 0 0)
        = sqrt64 8589672450 := by
      simpa using h
    rw [h', hr]
  · have : (2 : ℚ) ^ (20 : ℤ) < MaxFloat64Val := by
      unfold MaxFloat64Val
      norm_num
    linarith

theorem closest_blue :
    closestTileByColor (Color.ofRat 0 0 65535)
      [⟨redTile, Color.ofRat 65535 0 0⟩, ⟨blueTile, Color.ofRat 0 0 65535⟩] = some 1 := by
  obtain ⟨r, hr, hr1, hr2⟩ := distance_blue_red
  have h1 := colorDistance_self 0 0 65535
  have hpos : (0 : ℚ) < r := by linarith
  unfold closestTileByColor
  rw [closestLoop_cons_lt _ _ _ _ _ _ (by rw [hr]; exact lt_MaxFloat64 r hr2), hr,
    closestLoop_cons_lt _ _ _ _ _ _ (by
      rw [h1]
      show decide ((0 : ℚ) < r) = true
      exact decide_eq_true hpos)]
  rfl

theorem closest_grey :
    closestTileByColor (Color.ofRat 300 300 300) [⟨greyTile, Color.ofRat 300 300 300⟩]
      = some 0 := by
  have h1 := colorDistance_self 300 300 300
  unfold closestTileByColor
  rw [closestLoop_cons_lt _ _ _ _ _ _ (by rw [h1]; exact lt_MaxFloat64 0 MaxFloat64Val_pos)]
  rfl

theorem tileImages_grey : tileImages resizeId [greyTile] 1
    = [⟨greyTile, Color.ofRat 300 300 300⟩] := by
  simp [tileImages, resizeimages, resizeId, avgColor_greyTile]

theorem profileSq_grey300 (y x : Nat) (hy : y < 2) (hx : x < 2) :
    (profileSq grey300 1 y x).avgColor = Color.ofRat 300 300 300 := by
  have h := profileSq_avg_uniform grey300 1 y x 300 300 300
    (by simp only [grey300, mkImage]; omega) (by simp only [grey300, mkImage]; omega)
    (fun _ _ _ _ _ _ => ⟨rfl, rfl, rfl⟩)
  simpa using h

/-- The run of `Mosaic` on the grey 2x2 target with the grey 1x1 tile and
squares of size 1. -/
theorem Mosaic_grey :
    ∃ out, Mosaic resizeId grey300 [greyTile] 1 = Result.ok out ∧
      out.At 0 0 = ⟨257, 257, 257, 65535⟩ := by
  obtain ⟨out, ho⟩ := Mosaic_returns resizeId grey300 [greyTile] 1 (by decide) (by
    intro y x hy hx
    have hy2 : y < 2 := by simpa [grey300, mkImage] using hy
    have hx2 : x < 2 := by simpa [grey300, mkImage] using hx
    rw [profileSq_grey300 y x hy2 hx2, tileImages_grey, closest_grey]
    exact ⟨0, _, rfl, rfl⟩)
  refine ⟨out, ho, ?_⟩
  obtain ⟨squares, hsq, hcell⟩ := Mosaic_cell resizeId grey300 [greyTile] 1 (by decide) out ho
  have hl := colorProfile_length_pos grey300 1 (by decide) squares hsq
  have hl3 : squares.length = 3 := by
    rw [hl]
    simp [grey300, mkImage]
  obtain ⟨c, k, t, e1, e2, e3, e4⟩ := hcell 0 0 (by omega) (by omega)
  rw [gridAt_colorProfile grey300 1 (by decide) squares hsq 0 0 (by omega) (by omega),
    Option.some.injEq] at e1
  subst e1
  rw [profileSq_grey300 0 0 (by decide) (by decide), tileImages_grey, closest_grey,
    Option.some.injEq] at e2
  subst e2
  rw [tileImages_grey] at e3
  simp only [List.getElem?_cons_zero, Option.some.injEq] at e3
  subst e3
  have h := e4 0 0 (le_refl _) (by decide) (le_refl _) (by decide)
  simpa [greyTile, mkImage, Rectangle.Contains, Pixel.toRGBA, quant] using h

/-! ## Ties after rounding -/

/-- The distance from black to `(3, 4, 0)` is 5. -/
theorem distance_three_four :
    colorDistance (Color.ofRat 0 0 0) (Color.ofRat 3 4 0) = Float64.fin 5 := by
  have h := colorDistance_int 0 0 0 3 4 0 (by norm_num) (by norm_num) (by norm_num)
    (by norm_num) (by norm_num) (by norm_num)
  have e : sqDist ((0 : ℕ) : ℚ) ((0 : ℕ) : ℚ) ((0 : ℕ) : ℚ) ((3 : ℕ) : ℚ) ((4 : ℕ) : ℚ)
      ((0 : ℕ) : ℚ) = 25 := by
    unfold sqDist
    norm_num
  have r := sqrt64_of_near 25 2 (5 * 2 ^ 50) (by norm_num) (by norm_num) (by norm_num)
    (by norm_num) (by norm_num) (by norm_num)
  have r5 : sqrt64 25 = Float64.fin 5 := by
    rw [r]
    norm_num
  rw [e, r5] at h
  simpa using h

/-- The distance from black to `(3, 4 - 2^-51, 0)`, a colour strictly nearer
to black, is rounded to 5 as well. -/
theorem distance_three_four_less :
    colorDistance (Color.ofRat 0 0 0) (Color.ofRat 3 (4 - 1 / 2 ^ 51) 0) = Float64.fin 5 := by
  have s1 : round64 (0 - 3) = Float64.fin (-3) := by
    have h := round64_int (-3) (by norm_num)
    have e : (((-3 : ℤ)) : ℚ) = 0 - 3 := by norm_num
    rw [e] at h
    rw [h]
    norm_num
  have s2 : round64 (0 - (4 - 1 / 2 ^ 51)) = Float64.fin (-(4 - 1 / 2 ^ 51)) := by
    have h := round64_dyadic (-(2 ^ 53 - 1)) (-51) (by norm_num) (by norm_num) (by norm_num)
    have e : (((-(2 ^ 53 - 1) : ℤ)) : ℚ) * 2 ^ (-51 : ℤ) = 0 - (4 - 1 / 2 ^ 51) := by norm_num
    rw [e] at h
    rw [h]
    norm_num
  have s3 : round64 (0 - 0) = Float64.fin 0 := by
    rw [sub_zero]
    exact round64_zero
  have m1 : round64 (-3 * -3) = Float64.fin 9 := by
    have h := round64_int 9 (by norm_num)
    have e : (((9 : ℤ)) : ℚ) = -3 * -3 := by norm_num
    rw [e] at h
    rw [h]
    norm_num
  have m2 : round64 (-(4 - 1 / 2 ^ 51) * -(4 - 1 / 2 ^ 51)) = Float64.fin (16 - 1 / 2 ^ 48) := by
    have h := round64_of_near (-(4 - 1 / 2 ^ 51) * -(4 - 1 / 2 ^ 51)) (-49) (2 ^ 53 - 2)
      (by norm_num) (by norm_num)
      (by rw [abs_of_pos (by norm_num)]; norm_num)
      (by rw [abs_of_pos (by norm_num)]; norm_num)
      (by rw [abs_lt]; constructor <;> norm_num)
    rw [h]
    norm_num
  have m3 : round64 (0 * 0) = Float64.fin 0 := by
    rw [mul_zero]
    exact round64_zero
  have a1 : round64 (9 + (16 - 1 / 2 ^ 48)) = Float64.fin (25 - 1 / 2 ^ 48) := by
    have h := round64_dyadic (25 * 2 ^ 48 - 1) (-48) (by norm_num) (by norm_num) (by norm_num)
    have e : (((25 * 2 ^ 48 - 1 : ℤ)) : ℚ) * 2 ^ (-48 : ℤ) = 9 + (16 - 1 / 2 ^ 48) := by norm_num
    rw [e] at h
    rw [h]
    norm_num
  have a2 : round64 (25 - 1 / 2 ^ 48 + 0) = Float64.fin (25 - 1 / 2 ^ 48) := by
    have h := round64_dyadic (25 * 2 ^ 48 - 1) (-48) (by norm_num) (by norm_num) (by norm_num)
    have e : (((25 * 2 ^ 48 - 1 : ℤ)) : ℚ) * 2 ^ (-48 : ℤ) = 25 - 1 / 2 ^ 48 + 0 := by norm_num
    rw [e] at h
    rw [h]
    norm_num
  have r := sqrt64_of_near (25 - 1 / 2 ^ 48) 2 (5 * 2 ^ 50) (by norm_num) (by norm_num)
    (by norm_num) (by norm_num) (by norm_num) (by norm_num)
  rw [colorDistance_ofRat, s1, s2, s3]
  simp only [Float64.mul]
  rw [m1, m2, m3]
  simp only [Float64.add]
  rw [a1]
  simp only [Float64.add]
  rw [a2]
  simp only [Sqrt]
  rw [if_neg (by norm_num), r]
  norm_num

/-- A tie after rounding: of the tiles `(3, 4, 0)` and `(3, 4 - 2^-51, 0)` the
second is strictly nearer to black, but both computed distances are 5, and the
search keeps the first. -/
theorem closest_rounded_tie :
    closestTileByColor (Color.ofRat 0 0 0)
      [⟨redTile, Color.ofRat 3 4 0⟩, ⟨redTile, Color.ofRat 3 (4 - 1 / 2 ^ 51) 0⟩] = some 0 := by
  have h1 := distance_three_four
  have h2 := distance_three_four_less
  unfold closestTileByColor
  rw [closestLoop_cons_lt _ _ _ _ _ _ (by
      rw [h1]
      exact lt_MaxFloat64 5 (by unfold MaxFloat64Val; norm_num)), h1,
    closestLoop_cons_not_lt _ _ _ _ _ _ (by
      rw [h2]
      simp [Float64.lt])]
  rfl

/-- The distance from black to `(2^-600, 0, 0)` underflows to 0. -/
theorem distance_underflow :
    colorDistance (Color.ofRat 0 0 0) (Color.ofRat (1 / 2 ^ 600) 0 0) = Float64.fin 0 := by
  have s1 : round64 (0 - 1 / 2 ^ 600) = Float64.fin (-(1 / 2 ^ 600)) := by
    have h := round64_dyadic (-1) (-600) (by norm_num) (by norm_num) (by norm_num)
    have e : (((-1 : ℤ)) : ℚ) * 2 ^ (-600 : ℤ) = 0 - 1 / 2 ^ 600 := by norm_num
    rw [e] at h
    rw [h]
    norm_num
  have s3 : round64 (0 - 0) = Float64.fin 0 := by
    rw [sub_zero]
    exact round64_zero
  have m1 : round64 (-(1 / 2 ^ 600) * -(1 / 2 ^ 600)) = Float64.fin 0 :=
    round64_tiny _ (by rw [abs_of_pos (by norm_num)]; norm_num)
  have m3 : round64 (0 * 0) = Float64.fin 0 := by
    rw [mul_zero]
    exact round64_zero
  have a1 : round64 (0 + 0) = Float64.fin 0 := by
    rw [add_zero]
    exact round64_zero
  rw [colorDistance_ofRat, s1, s3]
  simp only [Float64.mul]
  rw [m1, m3]
  simp only [Float64.add]
  rw [a1]
  simp only [Float64.add]
  rw [a1]
  simp only [Sqrt]
  rw [if_neg (by norm_num), sqrt64_zero]

/-- A tie by underflow: the tile `(2^-600, 0, 0)` comes first and the tile
black, at distance 0 from black, second; the first distance is computed as 0
too, and the search keeps the first. -/
theorem closest_underflow_tie :
    closestTileByColor (Color.ofRat 0 0 0)
      [⟨redTile, Color.ofRat (1 / 2 ^ 600) 0 0⟩, ⟨redTile, Color.ofRat 0 0 0⟩] = some 0 := by
  have h1 := distance_underflow
  have h2 := colorDistance_self 0 0 0
  unfold closestTileByColor
  rw [closestLoop_cons_lt _ _ _ _ _ _ (by
      rw [h1]
      exact lt_MaxFloat64 0 MaxFloat64Val_pos), h1,
    closestLoop_cons_not_lt _ _ _ _ _ _ (by
      rw [h2]
      simp [Float64.lt])]
  rfl

/-! ## The canvas of `Mosaic` -/

/-- C2: for every target of width `W`, every `S ≥ 1` and every tile list for
which `Mosaic` returns, the returned image has bounds exactly
`(0,0)-(S*n, S*n)` with `n = ⌊W/S⌋ + 1`, whatever the height of the target and
the tiles. -/
theorem Mosaic_output_bounds (resize : Nat → Nat → Image → Image) (target : Image)
    (tiles : List Image) (S : Int) (out : Image) (hS : 1 ≤ S)
    (h : Mosaic resize target tiles S = Result.ok out) :
    out.bounds = ⟨⟨0, 0⟩,
      ⟨S * ((target.bounds.Max.X - target.bounds.Min.X) / S + 1),
       S * ((target.bounds.Max.X - target.bounds.Min.X) / S + 1)⟩⟩ := by
  obtain ⟨squares, hsq, hb⟩ := Mosaic_bounds resize target tiles S out h
  have hl := colorProfile_length_pos target S hS squares hsq
  have hw : 0 ≤ target.bounds.Max.X - target.bounds.Min.X := by have := target.wf.1; omega
  have hq : 0 ≤ (target.bounds.Max.X - target.bounds.Min.X) / S := Int.ediv_nonneg hw (by omega)
  have e : (squares.length : Int) = (target.bounds.Max.X - target.bounds.Min.X) / S + 1 := by
    rw [hl]
    push_cast
    rw [Int.toNat_of_nonneg hq]
  have hn : 0 ≤ S * (squares.length : Int) := Int.mul_nonneg (by omega) (Int.ofNat_nonneg _)
  rw [hb, Rect_of_le _ _ _ _ hn hn, e]

/-- C2 witness: the grey 2x2 target with squares of size 1 gives a 3x3 canvas. -/
theorem Mosaic_output_bounds_witness :
    ∃ out, Mosaic resizeId grey300 [greyTile] 1 = Result.ok out ∧
      out.bounds = ⟨⟨0, 0⟩, ⟨3, 3⟩⟩ := by
  obtain ⟨out, ho, _⟩ := Mosaic_grey
  refine ⟨out, ho, ?_⟩
  have h := Mosaic_output_bounds resizeId grey300 [greyTile] 1 out (by decide) ho
  simpa [grey300, mkImage] using h

/-- C5 (amended): for every target, `S ≥ 1` and tile list whose resized tiles
have bounds `(0,0)-(S,S)`, whenever `Mosaic` returns, every rendered cell
(row `y`, column `x`, both at most `n-2`) has a tile chosen by
`closestTileByColor` for `squares[y][x].avgColor`, and for all offsets
`0 ≤ dx, dy < S` the output pixel at `(x*S+dx, y*S+dy)` is the pixel `(dx, dy)`
of that resized tile converted to 8 bits per channel (each sample `s` becomes
`(s / 256 mod 256) * 257`), whatever the canvas held before. -/
theorem Mosaic_cell_pixels (resize : Nat → Nat → Image → Image) (target : Image)
    (tiles : List Image) (S : Int) (out : Image) (hS : 1 ≤ S)
    (hb : ∀ tile ∈ tiles, (resize (toUint S) (toUint S) tile).bounds = ⟨⟨0, 0⟩, ⟨S, S⟩⟩)
    (h : Mosaic resize target tiles S = Result.ok out) :
    ∃ squares, colorProfile target S = some squares ∧
      ∀ x y : Nat, x + 2 ≤ squares.length → y + 2 ≤ squares.length →
        ∃ c k t, gridAt squares y x = some c ∧
          closestTileByColor c.avgColor (tileImages resize tiles S) = some k ∧
          (tileImages resize tiles S)[k]? = some t ∧
          ∀ dx dy : Int, 0 ≤ dx → dx < S → 0 ≤ dy → dy < S →
            out.At ((x : Int) * S + dx) ((y : Int) * S + dy) = (t.img.At dx dy).toRGBA := by
  obtain ⟨squares, hsq, hcell⟩ := Mosaic_cell resize target tiles S hS out h
  refine ⟨squares, hsq, ?_⟩
  intro x y hx hy
  obtain ⟨c, k, t, e1, e2, e3, e4⟩ := hcell x y hx hy
  refine ⟨c, k, t, e1, e2, e3, ?_⟩
  intro dx dy h1 h2 h3 h4
  have ht : t ∈ tileImages resize tiles S := List.getElem?_mem e3
  simp only [tileImages, resizeimages, List.mem_map] at ht
  obtain ⟨im, ⟨tile, htile, rfl⟩, rfl⟩ := ht
  rw [e4 dx dy h1 h2 h3 h4, if_pos]
  rw [Contains_iff]
  simp only [hb tile htile]
  omega

/-- C5 witness: the grey 2x2 target with the grey 1x1 tile and squares of
size 1. -/
theorem Mosaic_cell_pixels_witness :
    ∃ out squares, Mosaic resizeId grey300 [greyTile] 1 = Result.ok out ∧
      colorProfile grey300 1 = some squares ∧
      ∀ x y : Nat, x + 2 ≤ squares.length → y + 2 ≤ squares.length →
        ∃ c k t, gridAt squares y x = some c ∧
          closestTileByColor c.avgColor (tileImages resizeId [greyTile] 1) = some k ∧
          (tileImages resizeId [greyTile] 1)[k]? = some t ∧
          ∀ dx dy : Int, 0 ≤ dx → dx < 1 → 0 ≤ dy → dy < 1 →
            out.At ((x : Int) * 1 + dx) ((y : Int) * 1 + dy) = (t.img.At dx dy).toRGBA := by
  obtain ⟨out, ho, _⟩ := Mosaic_grey
  obtain ⟨squares, h1, h2⟩ := Mosaic_cell_pixels resizeId grey300 [greyTile] 1 out (by decide)
    (by intro tile ht; rw [List.mem_singleton] at ht; subst ht; rfl) ho
  exact ⟨out, squares, ho, h1, h2⟩

/-- C5 (as stated) fails: the resized tile has bounds `(0,0)-(1,1)` and its
only pixel has the samples `(300, 300, 300, 65535)`, `Mosaic` returns, and the
output pixel at `(0, 0)` is `(257, 257, 257, 65535)`, not the tile's pixel. -/
theorem Mosaic_cell_not_copied :
    (resizeId (toUint 1) (toUint 1) greyTile).bounds = ⟨⟨0, 0⟩, ⟨1, 1⟩⟩ ∧
    (resizeId (toUint 1) (toUint 1) greyTile).At 0 0 = ⟨300, 300, 300, 65535⟩ ∧
    ∃ out, Mosaic resizeId grey300 [greyTile] 1 = Result.ok out ∧
      out.At 0 0 = ⟨257, 257, 257, 65535⟩ ∧
      out.At 0 0 ≠ (resizeId (toUint 1) (toUint 1) greyTile).At 0 0 := by
  refine ⟨rfl, rfl, ?_⟩
  obtain ⟨out, ho, hp⟩ := Mosaic_grey
  refine ⟨out, ho, hp, ?_⟩
  rw [hp]
  simp [resizeId, greyTile, mkImage]

/-- C6: for every input on which `Mosaic` returns, with `n` the number of rows
of the profile grid, every pixel `(px, py)` of the output with
`px ≥ (n-1)*S` or `py ≥ (n-1)*S` holds the zero value (all four channels 0). -/
theorem Mosaic_unrendered_zero (resize : Nat → Nat → Image → Image) (target : Image)
    (tiles : List Image) (S : Int) (out : Image)
    (h : Mosaic resize target tiles S = Result.ok out) :
    ∃ squares, colorProfile target S = some squares ∧
      ∀ px py : Int, (px ≥ ((squares.length : Int) - 1) * S ∨
          py ≥ ((squares.length : Int) - 1) * S) →
        out.At px py = ⟨0, 0, 0, 0⟩ :=
  Mosaic_frame resize target tiles S out h

/-- C6 witness: the grey 2x2 target with squares of size 1. -/
theorem Mosaic_unrendered_zero_witness :
    ∃ out squares, Mosaic resizeId grey300 [greyTile] 1 = Result.ok out ∧
      colorProfile grey300 1 = some squares ∧
      ∀ px py : Int, (px ≥ ((squares.length : Int) - 1) * 1 ∨
          py ≥ ((squares.length : Int) - 1) * 1) →
        out.At px py = ⟨0, 0, 0, 0⟩ := by
  obtain ⟨out, ho, _⟩ := Mosaic_grey
  obtain ⟨squares, h1, h2⟩ := Mosaic_unrendered_zero resizeId grey300 [greyTile] 1 out ho
  exact ⟨out, squares, ho, h1, h2⟩

/-! ## No tiles -/

theorem closestTileByColor_nil (c : Color) : closestTileByColor c [] = none := rfl

/-- With no tiles and a rendered cell, `Mosaic` panics on `closest.img`. -/
theorem Mosaic_nil_panics (resize : Nat → Nat → Image → Image) (target : Image) (S : Int)
    (hS : 1 ≤ S) (hW : S ≤ target.bounds.Max.X - target.bounds.Min.X) :
    Mosaic resize target [] S = Result.panic := by
  cases hres : Mosaic resize target [] S with
  | error => exact absurd hres (Mosaic_ne_error _ _ _ _)
  | panic => rfl
  | ok out =>
    exfalso
    obtain ⟨squares, hsq, hcell⟩ := Mosaic_cell resize target [] S hS out hres
    have hl := colorProfile_length_pos target S hS squares hsq
    have hq : 1 ≤ (target.bounds.Max.X - target.bounds.Min.X) / S :=
      (Int.le_ediv_iff_mul_le (by omega)).mpr (by omega)
    obtain ⟨c, k, t, _, e2, _⟩ := hcell 0 0 (by omega) (by omega)
    have e : tileImages resize [] S = [] := rfl
    rw [e, closestTileByColor_nil] at e2
    exact Option.noConfusion e2

/-- With no tiles and no rendered cell, `Mosaic` returns a canvas and a nil
error. -/
theorem Mosaic_nil_returns (resize : Nat → Nat → Image → Image) (target : Image) (S : Int)
    (hS : 1 ≤ S) (hW : target.bounds.Max.X - target.bounds.Min.X < S) :
    ∃ out, Mosaic resize target [] S = Result.ok out := by
  apply Mosaic_returns resize target [] S hS
  intro y x hy
  have hw : 0 ≤ target.bounds.Max.X - target.bounds.Min.X := by have := target.wf.1; omega
  rw [Int.ediv_eq_zero_of_lt hw hW] at hy
  exact absurd hy (Nat.not_lt_zero y)

/-- C10 (code defect): `Mosaic` called with an empty tile sequence never returns
an error: on the grey 2x2 target with squares of size 1 it panics on the nil
tile, and on a 1x1 target with squares of size 2 it returns a canvas with a
nil error. -/
theorem Mosaic_empty_tiles :
    (∀ (resize : Nat → Nat → Image → Image) (target : Image) (S : Int),
      Mosaic resize target [] S ≠ Result.error) ∧
    Mosaic resizeId grey300 [] 1 = Result.panic ∧
    ∃ out, Mosaic resizeId greyTile [] 2 = Result.ok out :=
  ⟨fun resize target S => Mosaic_ne_error resize target [] S,
   Mosaic_nil_panics resizeId grey300 1 (by decide) (by decide),
   Mosaic_nil_returns resizeId greyTile 2 (by decide) (by decide)⟩

/-! ## The end-to-end scenario -/

theorem tileImages_scenario (resize : Nat → Nat → Image → Image)
    (h1 : resize 2 2 redTile = redTile) (h2 : resize 2 2 blueTile = blueTile) :
    tileImages resize [redTile, blueTile] 2
      = [⟨redTile, Color.ofRat 65535 0 0⟩, ⟨blueTile, Color.ofRat 0 0 65535⟩] := by
  simp [tileImages, resizeimages, toUint_two, h1, h2, avgColor_redTile, avgColor_blueTile]

/-- The average colours of the four rendered squares of the 4x4 target. -/
theorem profileSq_target4 (y x : Nat) (hy : y < 2) (hx : x < 2) :
    (profileSq target4 2 y x).avgColor
      = if x = 0 ∧ y = 0 then Color.ofRat 65535 0 0 else Color.ofRat 0 0 65535 := by
  have hX : target4.bounds.Max.X = 4 := rfl
  have hY : target4.bounds.Max.Y = 4 := rfl
  by_cases h0 : x = 0 ∧ y = 0
  · rw [if_pos h0]
    obtain ⟨rfl, rfl⟩ := h0
    have h := profileSq_avg_uniform target4 2 0 0 65535 0 0
      (by rw [hX]; decide) (by rw [hY]; decide) (by
        intro u v hu1 hu2 hv1 hv2
        rw [hX] at hu2
        rw [hY] at hv2
        have hu : u < 2 := by
          have := min_le_left ((0 : ℕ) * 2 + 2 : Int) 4
          omega
        have hv : v < 2 := by
          have := min_le_left ((0 : ℕ) * 2 + 2 : Int) 4
          omega
        simp [target4, mkImage, hu, hv, red])
    simpa using h
  · rw [if_neg h0]
    have h := profileSq_avg_uniform target4 2 y x 0 0 65535
      (by rw [hX]; apply lt_min <;> omega) (by rw [hY]; apply lt_min <;> omega) (by
        intro u v hu1 _ hv1 _
        have hn : ¬ (u < 2 ∧ v < 2) := by
          rintro ⟨hu, hv⟩
          apply h0
          constructor <;> omega
        simp [target4, mkImage, hn, blue])
    simpa using h

/-- The pixels of the four rendered cells in the scenario's output. -/
theorem scenario_cell (resize : Nat → Nat → Image → Image)
    (h1 : resize 2 2 redTile = redTile) (h2 : resize 2 2 blueTile = blueTile) (out : Image)
    (hret : Mosaic resize target4 [redTile, blueTile] 2 = Result.ok out)
    (cx cy : Nat) (hcx : cx < 2) (hcy : cy < 2) (dx dy : Int)
    (hdx0 : 0 ≤ dx) (hdx : dx < 2) (hdy0 : 0 ≤ dy) (hdy : dy < 2) :
    out.At ((cx : Int) * 2 + dx) ((cy : Int) * 2 + dy)
      = if cx = 0 ∧ cy = 0 then red else blue := by
  obtain ⟨squares, hsq, hcell⟩ := Mosaic_cell resize target4 [redTile, blueTile] 2 (by decide)
    out hret
  have hl := colorProfile_length_pos target4 2 (by decide) squares hsq
  have hl3 : squares.length = 3 := by
    rw [hl]
    simp [target4, mkImage]
  obtain ⟨c, k, t, e1, e2, e3, e4⟩ := hcell cx cy (by omega) (by omega)
  rw [gridAt_colorProfile target4 2 (by decide) squares hsq cy cx (by omega) (by omega),
    Option.some.injEq] at e1
  subst e1
  rw [profileSq_target4 cy cx hcy hcx, tileImages_scenario resize h1 h2] at e2
  rw [tileImages_scenario resize h1 h2] at e3
  by_cases h0 : cx = 0 ∧ cy = 0
  · rw [if_pos h0] at e2 ⊢
    rw [closest_red, Option.some.injEq] at e2
    subst e2
    simp only [List.getElem?_cons_zero, Option.some.injEq] at e3
    subst e3
    rw [e4 dx dy hdx0 hdx hdy0 hdy, if_pos]
    · show red.toRGBA = red
      decide
    · rw [Contains_iff]
      simp only [redTile, mkImage]
      omega
  · rw [if_neg h0] at e2 ⊢
    rw [closest_blue, Option.some.injEq] at e2
    subst e2
    simp only [List.getElem?_cons_succ, List.getElem?_cons_zero, Option.some.injEq] at e3
    subst e3
    rw [e4 dx dy hdx0 hdx hdy0 hdy, if_pos]
    · show blue.toRGBA = blue
      decide
    · rw [Contains_iff]
      simp only [blueTile, mkImage]
      omega

/-- C7: the end-to-end scenario.  For the 4x4 target that is red in its top-left
2x2 quadrant and blue elsewhere, `sqSize = 2` and the tiles `[red 2x2, blue 2x2]`
(the resize of a 2x2 tile to 2x2 being the identity): the profile grid is 3x3;
cell (0,0) has average pure red and selects tile 0; cells (0,1), (1,0), (1,1)
have average pure blue and select tile 1; `Mosaic` returns a 6x6 canvas whose
top-left 2x2 block is red, whose other pixels inside `[0,4) x [0,4)` are blue,
and whose pixels with `x ≥ 4` or `y ≥ 4` are all zero. -/
theorem Mosaic_scenario (resize : Nat → Nat → Image → Image)
    (h1 : resize 2 2 redTile = redTile) (h2 : resize 2 2 blueTile = blueTile) :
    ∃ squares out,
      colorProfile target4 2 = some squares ∧
      squares.length = 3 ∧ (∀ row ∈ squares, row.length = 3) ∧
      (gridAt squares 0 0).map ImageSq.avgColor = some (Color.ofRat 65535 0 0) ∧
      closestTileByColor (Color.ofRat 65535 0 0) (tileImages resize [redTile, blueTile] 2)
        = some 0 ∧
      (gridAt squares 0 1).map ImageSq.avgColor = some (Color.ofRat 0 0 65535) ∧
      (gridAt squares 1 0).map ImageSq.avgColor = some (Color.ofRat 0 0 65535) ∧
      (gridAt squares 1 1).map ImageSq.avgColor = some (Color.ofRat 0 0 65535) ∧
      closestTileByColor (Color.ofRat 0 0 65535) (tileImages resize [redTile, blueTile] 2)
        = some 1 ∧
      Mosaic resize target4 [redTile, blueTile] 2 = Result.ok out ∧
      out.bounds = ⟨⟨0, 0⟩, ⟨6, 6⟩⟩ ∧
      (∀ x y : Int, 0 ≤ x → x < 2 → 0 ≤ y → y < 2 → out.At x y = ⟨65535, 0, 0, 65535⟩) ∧
      (∀ x y : Int, 0 ≤ x → x < 4 → 0 ≤ y → y < 4 → ¬ (x < 2 ∧ y < 2) →
        out.At x y = ⟨0, 0, 65535, 65535⟩) ∧
      (∀ x y : Int, 4 ≤ x ∨ 4 ≤ y → out.At x y = ⟨0, 0, 0, 0⟩) := by
  have hT := tileImages_scenario resize h1 h2
  obtain ⟨squares, hsq⟩ : ∃ squares, colorProfile target4 2 = some squares :=
    ⟨_, colorProfile_pos target4 2 (by decide)⟩
  have hl := colorProfile_length_pos target4 2 (by decide) squares hsq
  have hl3 : squares.length = 3 := by
    rw [hl]
    simp [target4, mkImage]
  have hrows : ∀ row ∈ squares, row.length = 3 := by
    intro row hrow
    rw [colorProfile_pos target4 2 (by decide), Option.some.injEq] at hsq
    rw [← hsq] at hrow
    simp only [List.mem_map, List.mem_range] at hrow
    obtain ⟨j, _, rfl⟩ := hrow
    simp [target4, mkImage]
  have hgrid : ∀ y x : Nat, y < 2 → x < 2 →
      (gridAt squares y x).map ImageSq.avgColor
        = some (if x = 0 ∧ y = 0 then Color.ofRat 65535 0 0 else Color.ofRat 0 0 65535) := by
    intro y x hy hx
    rw [gridAt_colorProfile target4 2 (by decide) squares hsq y x (by omega) (by omega),
      Option.map_some', profileSq_target4 y x hy hx]
  obtain ⟨out, hret⟩ := Mosaic_returns resize target4 [redTile, blueTile] 2 (by decide) (by
    intro y x hy hx
    have hy2 : y < 2 := by simpa [target4, mkImage] using hy
    have hx2 : x < 2 := by simpa [target4, mkImage] using hx
    rw [profileSq_target4 y x hy2 hx2, hT]
    by_cases h0 : x = 0 ∧ y = 0
    · rw [if_pos h0, closest_red]
      exact ⟨0, _, rfl, rfl⟩
    · rw [if_neg h0, closest_blue]
      exact ⟨1, _, rfl, rfl⟩)
  have hcellpx := scenario_cell resize h1 h2 out hret
  refine ⟨squares, out, hsq, hl3, hrows, ?_, ?_, ?_, ?_, ?_, ?_, hret, ?_, ?_, ?_, ?_⟩
  · simpa using hgrid 0 0 (by decide) (by decide)
  · rw [hT, closest_red]
  · simpa using hgrid 0 1 (by decide) (by decide)
  · simpa using hgrid 1 0 (by decide) (by decide)
  · simpa using hgrid 1 1 (by decide) (by decide)
  · rw [hT, closest_blue]
  · obtain ⟨sq2, g1, g2⟩ := Mosaic_bounds resize target4 [redTile, blueTile] 2 out hret
    rw [hsq, Option.some.injEq] at g1
    subst g1
    rw [g2, hl3]
    rfl
  · intro x y hx0 hx hy0 hy
    have h := hcellpx 0 0 (by decide) (by decide) x y hx0 hx hy0 hy
    simpa [red] using h
  · intro x y hx0 hx hy0 hy hn
    by_cases hxl : x < 2
    · have hyl : ¬ y < 2 := fun hy2 => hn ⟨hxl, hy2⟩
      have h := hcellpx 0 1 (by decide) (by decide) x (y - 2) hx0 hxl (by omega) (by omega)
      have e : ((1 : ℕ) : Int) * 2 + (y - 2) = y := by omega
      rw [e] at h
      simpa [blue] using h
    · by_cases hyl : y < 2
      · have h := hcellpx 1 0 (by decide) (by decide) (x - 2) y (by omega) (by omega) hy0 hyl
        have e : ((1 : ℕ) : Int) * 2 + (x - 2) = x := by omega
        rw [e] at h
        simpa [blue] using h
      · have h := hcellpx 1 1 (by decide) (by decide) (x - 2) (y - 2) (by omega) (by omega)
          (by omega) (by omega)
        have ex : ((1 : ℕ) : Int) * 2 + (x - 2) = x := by omega
        have ey : ((1 : ℕ) : Int) * 2 + (y - 2) = y := by omega
        rw [ex, ey] at h
        simpa [blue] using h
  · intro x y hxy
    obtain ⟨sq2, g1, g2⟩ := Mosaic_frame resize target4 [redTile, blueTile] 2 out hret
    rw [hsq, Option.some.injEq] at g1
    subst g1
    have h := g2 x y (by rw [hl3]; omega)
    simpa [Pixel.zero] using h

/-- C7 witness: the scenario with a resize that returns its input. -/
theorem Mosaic_scenario_witness :
    ∃ squares out,
      colorProfile target4 2 = some squares ∧
      squares.length = 3 ∧ (∀ row ∈ squares, row.length = 3) ∧
      (gridAt squares 0 0).map ImageSq.avgColor = some (Color.ofRat 65535 0 0) ∧
      closestTileByColor (Color.ofRat 65535 0 0) (tileImages resizeId [redTile, blueTile] 2)
        = some 0 ∧
      (gridAt squares 0 1).map ImageSq.avgColor = some (Color.ofRat 0 0 65535) ∧
      (gridAt squares 1 0).map ImageSq.avgColor = some (Color.ofRat 0 0 65535) ∧
      (gridAt squares 1 1).map ImageSq.avgColor = some (Color.ofRat 0 0 65535) ∧
      closestTileByColor (Color.ofRat 0 0 65535) (tileImages resizeId [redTile, blueTile] 2)
        = some 1 ∧
      Mosaic resizeId target4 [redTile, blueTile] 2 = Result.ok out ∧
      out.bounds = ⟨⟨0, 0⟩, ⟨6, 6⟩⟩ ∧
      (∀ x y : Int, 0 ≤ x → x < 2 → 0 ≤ y → y < 2 → out.At x y = ⟨65535, 0, 0, 65535⟩) ∧
      (∀ x y : Int, 0 ≤ x → x < 4 → 0 ≤ y → y < 4 → ¬ (x < 2 ∧ y < 2) →
        out.At x y = ⟨0, 0, 65535, 65535⟩) ∧
      (∀ x y : Int, 4 ≤ x ∨ 4 ≤ y → out.At x y = ⟨0, 0, 0, 0⟩) :=
  Mosaic_scenario resizeId rfl rfl

/-! ## Absent tiles -/

/-- C17: `closestTileByColor` returns the nil pointer on the empty tile list,
and for every colour with channels in `[0, 65535]` and every tile list whose
average colours have channels in `[0, 65535]` the result is nil if and only if
the list is empty. -/
theorem closestTileByColor_nil_iff (c : Color) (tiles : List TileImage)
    (hc : c.inRange = true) (ht : ∀ t ∈ tiles, t.avgColor.inRange = true) :
    closestTileByColor c [] = none ∧
      (closestTileByColor c tiles = none ↔ tiles = []) := by
  refine ⟨rfl, ?_, ?_⟩
  · intro h
    by_contra hne
    obtain ⟨k, t, _, heq, _⟩ := closestTileByColor_inRange c tiles hne hc ht
    rw [h] at heq
    exact Option.noConfusion heq
  · rintro rfl
    rfl

/-- C17 witness: a red query and a single red tile. -/
theorem closestTileByColor_nil_iff_witness :
    closestTileByColor (Color.ofRat 65535 0 0) [] = none ∧
      (closestTileByColor (Color.ofRat 65535 0 0) [⟨redTile, Color.ofRat 65535 0 0⟩] = none ↔
        [(⟨redTile, Color.ofRat 65535 0 0⟩ : TileImage)] = []) :=
  closestTileByColor_nil_iff (Color.ofRat 65535 0 0) [⟨redTile, Color.ofRat 65535 0 0⟩]
    (by simp [Color.inRange, Color.ofRat, F64.inRange])
    (by simp [Color.inRange, Color.ofRat, F64.inRange])

/-! ## The triangle inequality -/

/-- The triangle inequality of the Euclidean norm on real triples. -/
theorem sqrt_triangle (u1 u2 u3 v1 v2 v3 : ℝ) :
    Real.sqrt ((u1 + v1) ^ 2 + (u2 + v2) ^ 2 + (u3 + v3) ^ 2)
      ≤ Real.sqrt (u1 ^ 2 + u2 ^ 2 + u3 ^ 2) + Real.sqrt (v1 ^ 2 + v2 ^ 2 + v3 ^ 2) := by
  have hU : 0 ≤ u1 ^ 2 + u2 ^ 2 + u3 ^ 2 := by positivity
  have hV : 0 ≤ v1 ^ 2 + v2 ^ 2 + v3 ^ 2 := by positivity
  have cs : (u1 * v1 + u2 * v2 + u3 * v3) ^ 2
      ≤ (u1 ^ 2 + u2 ^ 2 + u3 ^ 2) * (v1 ^ 2 + v2 ^ 2 + v3 ^ 2) := by
    nlinarith [sq_nonneg (u1 * v2 - u2 * v1), sq_nonneg (u1 * v3 - u3 * v1),
      sq_nonneg (u2 * v3 - u3 * v2)]
  have dot : u1 * v1 + u2 * v2 + u3 * v3
      ≤ Real.sqrt (u1 ^ 2 + u2 ^ 2 + u3 ^ 2) * Real.sqrt (v1 ^ 2 + v2 ^ 2 + v3 ^ 2) := by
    rw [← Real.sqrt_mul hU]
    exact le_trans (le_abs_self _) (Real.abs_le_sqrt cs)
  rw [Real.sqrt_le_iff]
  refine ⟨add_nonneg (Real.sqrt_nonneg _) (Real.sqrt_nonneg _), ?_⟩
  have e1 := Real.sq_sqrt hU
  have e2 := Real.sq_sqrt hV
  nlinarith [dot, e1, e2]

/-! ## The triangle inequality and rounding -/

theorem sqrt64_two : sqrt64 2 = Float64.fin (6369051672525773 / 2 ^ 52) := by
  have h := sqrt64_of_near 2 0 6369051672525773 (by norm_num) (by norm_num) (by norm_num)
    (by norm_num) (by norm_num) (by norm_num)
  rw [h]
  norm_num

theorem sqrt64_eighteen : sqrt64 18 = Float64.fin (4776788754394329 / 2 ^ 50) := by
  have h := sqrt64_of_near 18 2 4776788754394329 (by norm_num) (by norm_num) (by norm_num)
    (by norm_num) (by norm_num) (by norm_num)
  rw [h]
  norm_num

theorem sqrt64_thirtytwo : sqrt64 32 = Float64.fin (6369051672525773 / 2 ^ 50) := by
  have h := sqrt64_of_near 32 2 6369051672525773 (by norm_num) (by norm_num) (by norm_num)
    (by norm_num) (by norm_num) (by norm_num)
  rw [h]
  norm_num

/-- The `float64` sum of the rounded roots of 2 and of 18. -/
theorem add_roots :
    Float64.add (Float64.fin (6369051672525773 / 2 ^ 52))
      (Float64.fin (4776788754394329 / 2 ^ 50)) = Float64.fin (6369051672525772 / 2 ^ 50) := by
  have h := round64_of_near (6369051672525773 / 2 ^ 52 + 4776788754394329 / 2 ^ 50) (-50)
    6369051672525772 (by norm_num) (by norm_num)
    (by rw [abs_of_pos (by norm_num)]; norm_num)
    (by rw [abs_of_pos (by norm_num)]; norm_num)
    (by rw [abs_lt]; constructor <;> norm_num)
  show round64 (6369051672525773 / 2 ^ 52 + 4776788754394329 / 2 ^ 50) = _
  rw [h]
  norm_num

/-- C15 (as stated) fails: at `a = (0,0,0)`, `b = (0,1,1)`, `c = (0,4,4)` the
distances are the rounded roots of 2, 18 and 32, and `colorDistance(a, c)` is
greater than `colorDistance(a, b) + colorDistance(b, c)`, whether the sum is
taken exactly or in `float64`. -/
theorem colorDistance_triangle_fails :
    colorDistance (Color.ofRat 0 0 0) (Color.ofRat 0 1 1)
      = Float64.fin (6369051672525773 / 2 ^ 52) ∧
    colorDistance (Color.ofRat 0 1 1) (Color.ofRat 0 4 4)
      = Float64.fin (4776788754394329 / 2 ^ 50) ∧
    colorDistance (Color.ofRat 0 0 0) (Color.ofRat 0 4 4)
      = Float64.fin (6369051672525773 / 2 ^ 50) ∧
    (6369051672525773 / 2 ^ 52 + 4776788754394329 / 2 ^ 50 : ℚ) < 6369051672525773 / 2 ^ 50 ∧
    Float64.le (colorDistance (Color.ofRat 0 0 0) (Color.ofRat 0 4 4))
      (Float64.add (colorDistance (Color.ofRat 0 0 0) (Color.ofRat 0 1 1))
        (colorDistance (Color.ofRat 0 1 1) (Color.ofRat 0 4 4))) = false := by
  have hab : colorDistance (Color.ofRat 0 0 0) (Color.ofRat 0 1 1)
      = Float64.fin (6369051672525773 / 2 ^ 52) := by
    have h := colorDistance_int 0 0 0 0 1 1 (by norm_num) (by norm_num) (by norm_num)
      (by norm_num) (by norm_num) (by norm_num)
    have e : sqDist ((0 : ℕ) : ℚ) ((0 : ℕ) : ℚ) ((0 : ℕ) : ℚ) ((0 : ℕ) : ℚ) ((1 : ℕ) : ℚ)
        ((1 : ℕ) : ℚ) = 2 := by
      unfold sqDist
      norm_num
    rw [e, sqrt64_two] at h
    simpa using h
  have hbc : colorDistance (Color.ofRat 0 1 1) (Color.ofRat 0 4 4)
      = Float64.fin (4776788754394329 / 2 ^ 50) := by
    have h := colorDistance_int 0 1 1 0 4 4 (by norm_num) (by norm_num) (by norm_num)
      (by norm_num) (by norm_num) (by norm_num)
    have e : sqDist ((0 : ℕ) : ℚ) ((1 : ℕ) : ℚ) ((1 : ℕ) : ℚ) ((0 : ℕ) : ℚ) ((4 : ℕ) : ℚ)
        ((4 : ℕ) : ℚ) = 18 := by
      unfold sqDist
      norm_num
    rw [e, sqrt64_eighteen] at h
    simpa using h
  have hac : colorDistance (Color.ofRat 0 0 0) (Color.ofRat 0 4 4)
      = Float64.fin (6369051672525773 / 2 ^ 50) := by
    have h := colorDistance_int 0 0 0 0 4 4 (by norm_num) (by norm_num) (by norm_num)
      (by norm_num) (by norm_num) (by norm_num)
    have e : sqDist ((0 : ℕ) : ℚ) ((0 : ℕ) : ℚ) ((0 : ℕ) : ℚ) ((0 : ℕ) : ℚ) ((4 : ℕ) : ℚ)
        ((4 : ℕ) : ℚ) = 32 := by
      unfold sqDist
      norm_num
    rw [e, sqrt64_thirtytwo] at h
    simpa using h
  refine ⟨hab, hbc, hac, by norm_num, ?_⟩
  rw [hab, hbc, hac, add_roots]
  simp only [Float64.le, decide_eq_false_iff_not, not_le]
  norm_num

/-! ## Rounding errors -/

/-- The error of rounding a value of magnitude at most `2^k`: at most `2^-53`
of the magnitude, plus half of the least subnormal number. -/
theorem round64_err (x : ℚ) (k : ℤ) (hk : -1022 ≤ k) (hk2 : k ≤ 1023) (h : |x| ≤ 2 ^ k) :
    ∃ r : ℚ, round64 x = Float64.fin r ∧ |r| ≤ 2 ^ k ∧ (0 ≤ x → 0 ≤ r) ∧
      |r - x| ≤ |x| * (1 / 2 ^ 53) + 1 / 2 ^ 1075 := by
  by_cases hx : x = 0
  · subst hx
    refine ⟨0, round64_zero, ?_, fun _ => le_refl _, ?_⟩
    · rw [abs_zero]
      positivity
    · simp
  · obtain ⟨r, hr, hr2, hr3, hr4⟩ := round64_bound x k hk hk2 h
    refine ⟨r, hr, hr2, hr3, le_trans hr4 ?_⟩
    have := ulp_le x hx
    have e : |x| * (1 / 2 ^ 53) + 1 / 2 ^ 1075 = (|x| / 2 ^ 52 + 1 / 2 ^ 1074) / 2 := by ring
    rw [e]
    exact div_le_div_of_nonneg_right this (by norm_num)

/-- The error of the rounded root: at most `2^-53` of the root. -/
theorem sqrt64_err (s : ℚ) (k : ℤ) (hs : 0 ≤ s) (h2 : s < 4 ^ k) (hk : k ≤ 1023) :
    ∃ r : ℚ, sqrt64 s = Float64.fin r ∧ 0 ≤ r ∧
      |(r : ℝ) - Real.sqrt (s : ℝ)| ≤ Real.sqrt (s : ℝ) * (1 / 2 ^ 53) := by
  rcases eq_or_lt_of_le hs with h0 | hpos
  · rw [← h0]
    exact ⟨0, sqrt64_zero, le_refl _, by simp⟩
  · obtain ⟨N, hN1, hN2, hlo, hhi, hdef⟩ := sqrt64_spec s hpos
    have hL := log4_lt hpos h2
    have hq : (0 : ℚ) < 2 ^ (Int.log 4 s - 52) := zpow_pos (by norm_num) _
    have hN2q : (N : ℚ) ≤ 2 ^ (53 : ℤ) := by
      have : (N : ℚ) ≤ ((2 ^ 53 : ℕ) : ℚ) := by exact_mod_cast hN2
      have e : (2 : ℚ) ^ (53 : ℤ) = ((2 ^ 53 : ℕ) : ℚ) := by norm_num
      rw [e]
      exact this
    have hfin : ¬ (2 : ℚ) ^ 1024 ≤ (N : ℚ) * 2 ^ (Int.log 4 s - 52) := by
      have e : (2 : ℚ) ^ (53 : ℤ) * 2 ^ (Int.log 4 s - 52) = 2 ^ (Int.log 4 s + 1) := by
        rw [← zpow_add₀ (by norm_num)]
        congr 1
        ring
      have h3 := mul_le_mul_of_nonneg_right hN2q (le_of_lt hq)
      rw [e] at h3
      have h4 : (2 : ℚ) ^ (Int.log 4 s + 1) ≤ 2 ^ (1023 : ℤ) :=
        zpow_le_zpow_right₀ (by norm_num) (by omega)
      have h5 : (2 : ℚ) ^ (1023 : ℤ) < 2 ^ 1024 := by norm_num
      intro h
      linarith
    rw [if_neg hfin] at hdef
    refine ⟨_, hdef, mul_nonneg (Nat.cast_nonneg _) (le_of_lt hq), ?_⟩
    -- the unit in the last place is at most `2^-52` of the root
    have hlog : (4 : ℚ) ^ Int.log 4 s ≤ s := by
      have := Int.zpow_log_le_self (b := 4) (r := s) (by norm_num) hpos
      simpa using this
    have hq52 : (2 : ℚ) ^ (Int.log 4 s - 52) * 2 ^ 52 = 2 ^ Int.log 4 s := by
      have e : (2 : ℚ) ^ 52 = 2 ^ (52 : ℤ) := by norm_num
      rw [e, ← zpow_add₀ (by norm_num)]
      congr 1
      ring
    have hlog2 : (2 : ℚ) ^ (Int.log 4 s - 52) * 2 ^ 52
        * ((2 : ℚ) ^ (Int.log 4 s - 52) * 2 ^ 52) ≤ s := by
      rw [hq52, ← four_zpow]
      exact hlog
    generalize (2 : ℚ) ^ (Int.log 4 s - 52) = q at hq hlo hhi hlog2
    have hqR : (0 : ℝ) < (q : ℝ) := by exact_mod_cast hq
    have hloR : ((N : ℝ) - 1 / 2) * ((N : ℝ) - 1 / 2) * ((q : ℝ) * (q : ℝ)) ≤ (s : ℝ) := by
      have := (Rat.cast_le (K := ℝ)).mpr hlo
      push_cast at this
      exact this
    have hhiR : (s : ℝ) ≤ ((N : ℝ) + 1 / 2) * ((N : ℝ) + 1 / 2) * ((q : ℝ) * (q : ℝ)) := by
      have := (Rat.cast_le (K := ℝ)).mpr hhi
      push_cast at this
      exact this
    have hlogR : (q : ℝ) * 2 ^ 52 * ((q : ℝ) * 2 ^ 52) ≤ (s : ℝ) := by
      have := (Rat.cast_le (K := ℝ)).mpr hlog2
      push_cast at this
      exact this
    have hNR : (1 : ℝ) ≤ N := by
      have : 1 ≤ N := le_trans (by norm_num) hN1
      exact_mod_cast this
    have hsR : (0 : ℝ) ≤ (s : ℝ) := by exact_mod_cast hs
    have h1 : ((N : ℝ) - 1 / 2) * q ≤ Real.sqrt (s : ℝ) := by
      rw [Real.le_sqrt (mul_nonneg (by linarith) (le_of_lt hqR)) hsR]
      calc (((N : ℝ) - 1 / 2) * q) ^ 2
          = ((N : ℝ) - 1 / 2) * ((N : ℝ) - 1 / 2) * ((q : ℝ) * (q : ℝ)) := by ring
        _ ≤ (s : ℝ) := hloR
    have h2 : Real.sqrt (s : ℝ) ≤ ((N : ℝ) + 1 / 2) * q := by
      rw [Real.sqrt_le_iff]
      refine ⟨mul_nonneg (by linarith) (le_of_lt hqR), ?_⟩
      calc (s : ℝ) ≤ ((N : ℝ) + 1 / 2) * ((N : ℝ) + 1 / 2) * ((q : ℝ) * (q : ℝ)) := hhiR
        _ = (((N : ℝ) + 1 / 2) * q) ^ 2 := by ring
    have h3 : (q : ℝ) * 2 ^ 52 ≤ Real.sqrt (s : ℝ) := by
      rw [Real.le_sqrt (by positivity) hsR]
      calc ((q : ℝ) * 2 ^ 52) ^ 2 = (q : ℝ) * 2 ^ 52 * ((q : ℝ) * 2 ^ 52) := by ring
        _ ≤ (s : ℝ) := hlogR
    have h4 : (q : ℝ) / 2 ≤ Real.sqrt (s : ℝ) * (1 / 2 ^ 53) := by
      have e : (q : ℝ) / 2 = (q : ℝ) * 2 ^ 52 * (1 / 2 ^ 53) := by ring
      rw [e]
      exact mul_le_mul_of_nonneg_right h3 (by positivity)
    push_cast
    rw [abs_le]
    constructor <;> linarith

/-! ## Error propagation -/

/-- A relative and absolute error bound on a non-negative value, as two
inequalities. -/
theorem err_bounds {x r u τ : ℚ} (hx : 0 ≤ x) (h : |r - x| ≤ |x| * u + τ) :
    r ≤ (1 + u) * x + τ ∧ (1 - u) * x - τ ≤ r := by
  rw [abs_of_nonneg hx, abs_le] at h
  constructor <;> linarith [h.1, h.2]

/-- The rounded sum of three rounded squares against the exact sum. -/
theorem radicand_err (u τ Y1 Y2 Y3 p1 p2 p3 s1 s : ℚ) (hu : 0 ≤ u) (hu2 : u ≤ 1 / 16)
    (hτ : 0 ≤ τ) (hY1 : 0 ≤ Y1) (hY2 : 0 ≤ Y2) (hY3 : 0 ≤ Y3)
    (hp1 : 0 ≤ p1) (hp2 : 0 ≤ p2) (hp3 : 0 ≤ p3) (hs1 : 0 ≤ s1)
    (h1 : |p1 - Y1| ≤ |Y1| * u + τ) (h2 : |p2 - Y2| ≤ |Y2| * u + τ)
    (h3 : |p3 - Y3| ≤ |Y3| * u + τ) (h4 : |s1 - (p1 + p2)| ≤ |p1 + p2| * u + τ)
    (h5 : |s - (s1 + p3)| ≤ |s1 + p3| * u + τ) :
    s ≤ (1 + 2 * u) ^ 2 * (Y1 + Y2 + Y3) + 8 * τ ∧
      (1 - 2 * u) ^ 2 * (Y1 + Y2 + Y3) ≤ s + 8 * τ := by
  obtain ⟨a1, b1⟩ := err_bounds hY1 h1
  obtain ⟨a2, b2⟩ := err_bounds hY2 h2
  obtain ⟨a3, b3⟩ := err_bounds hY3 h3
  obtain ⟨a4, b4⟩ := err_bounds (add_nonneg hp1 hp2) h4
  obtain ⟨a5, b5⟩ := err_bounds (add_nonneg hs1 hp3) h5
  clear h1 h2 h3 h4 h5
  have hY : 0 ≤ Y1 + Y2 := add_nonneg hY1 hY2
  have hYY : 0 ≤ Y1 + Y2 + Y3 := add_nonneg hY hY3
  have hu1 : 0 ≤ 1 + u := by linarith
  have hu3 : 0 ≤ 1 - u := by linarith
  have huu : u * u ≤ u * (1 / 16) := mul_le_mul_of_nonneg_left hu2 hu
  have k1 : u * u * (Y1 + Y2) ≤ u * (1 / 16) * (Y1 + Y2) := mul_le_mul_of_nonneg_right huu hY
  have k2 : 0 ≤ u * (Y1 + Y2) := mul_nonneg hu hY
  have k3 : u * τ ≤ 1 / 16 * τ := mul_le_mul_of_nonneg_right hu2 hτ
  have k4 : 0 ≤ u * Y3 := mul_nonneg hu hY3
  have k5 : u * u * (Y1 + Y2 + Y3) ≤ u * (1 / 16) * (Y1 + Y2 + Y3) :=
    mul_le_mul_of_nonneg_right huu hYY
  have k6 : 0 ≤ u * (Y1 + Y2 + Y3) := mul_nonneg hu hYY
  have k7 : 0 ≤ u * u * (Y1 + Y2 + Y3) := mul_nonneg (mul_nonneg hu hu) hYY
  have k8 : 0 ≤ u * u * (Y1 + Y2) := mul_nonneg (mul_nonneg hu hu) hY
  have k9 : 0 ≤ u * τ := mul_nonneg hu hτ
  constructor
  · -- upper bound
    have c1 : s1 ≤ (1 + 3 * u) * (Y1 + Y2) + 4 * τ := by
      have := mul_le_mul_of_nonneg_left (add_le_add a1 a2) hu1
      linarith
    have c2 : s1 + p3 ≤ (1 + 3 * u) * (Y1 + Y2 + Y3) + 5 * τ := by linarith
    have c3 := mul_le_mul_of_nonneg_left c2 hu1
    linarith
  · -- lower bound
    have c1 : (1 - 2 * u) * (Y1 + Y2) - 3 * τ ≤ s1 := by
      have := mul_le_mul_of_nonneg_left (add_le_add b1 b2) hu3
      linarith
    have c2 : (1 - 2 * u) * (Y1 + Y2 + Y3) - 4 * τ ≤ s1 + p3 := by linarith
    have c3 := mul_le_mul_of_nonneg_left c2 hu3
    linarith

/-- The Euclidean norm of a perturbed triple against the norm of the triple. -/
theorem norm_err (u τ x1 x2 x3 y1 y2 y3 : ℝ) (hu : 0 ≤ u) (hτ : 0 ≤ τ)
    (h1 : |y1 - x1| ≤ |x1| * u + τ) (h2 : |y2 - x2| ≤ |x2| * u + τ)
    (h3 : |y3 - x3| ≤ |x3| * u + τ) :
    |Real.sqrt (y1 ^ 2 + y2 ^ 2 + y3 ^ 2) - Real.sqrt (x1 ^ 2 + x2 ^ 2 + x3 ^ 2)|
      ≤ Real.sqrt (x1 ^ 2 + x2 ^ 2 + x3 ^ 2) * u + 2 * τ := by
  have hS : 0 ≤ x1 ^ 2 + x2 ^ 2 + x3 ^ 2 := by positivity
  have sq1 : ∀ a x : ℝ, |a - x| ≤ |x| * u + τ → (a - x) ^ 2 ≤ (|x| * u + τ) ^ 2 := by
    intro a x h
    rw [← sq_abs (a - x)]
    exact pow_le_pow_left₀ (abs_nonneg _) h 2
  have hE : Real.sqrt ((y1 - x1) ^ 2 + (y2 - x2) ^ 2 + (y3 - x3) ^ 2)
      ≤ Real.sqrt (x1 ^ 2 + x2 ^ 2 + x3 ^ 2) * u + 2 * τ := by
    have e1 : Real.sqrt ((y1 - x1) ^ 2 + (y2 - x2) ^ 2 + (y3 - x3) ^ 2)
        ≤ Real.sqrt ((|x1| * u + τ) ^ 2 + (|x2| * u + τ) ^ 2 + (|x3| * u + τ) ^ 2) :=
      Real.sqrt_le_sqrt (by linarith [sq1 y1 x1 h1, sq1 y2 x2 h2, sq1 y3 x3 h3])
    have e2 := sqrt_triangle (|x1| * u) (|x2| * u) (|x3| * u) τ τ τ
    have e3 : Real.sqrt ((|x1| * u) ^ 2 + (|x2| * u) ^ 2 + (|x3| * u) ^ 2)
        ≤ Real.sqrt (x1 ^ 2 + x2 ^ 2 + x3 ^ 2) * u := by
      rw [Real.sqrt_le_iff]
      refine ⟨mul_nonneg (Real.sqrt_nonneg _) hu, ?_⟩
      rw [mul_pow, mul_pow, mul_pow, mul_pow, Real.sq_sqrt hS, sq_abs, sq_abs, sq_abs]
      linarith
    have e4 : Real.sqrt (τ ^ 2 + τ ^ 2 + τ ^ 2) ≤ 2 * τ := by
      rw [Real.sqrt_le_iff]
      refine ⟨by linarith, ?_⟩
      nlinarith [sq_nonneg τ]
    linarith
  have t1 := sqrt_triangle x1 x2 x3 (y1 - x1) (y2 - x2) (y3 - x3)
  rw [show x1 + (y1 - x1) = y1 by ring, show x2 + (y2 - x2) = y2 by ring,
    show x3 + (y3 - x3) = y3 by ring] at t1
  have t2 := sqrt_triangle y1 y2 y3 (x1 - y1) (x2 - y2) (x3 - y3)
  rw [show y1 + (x1 - y1) = x1 by ring, show y2 + (x2 - y2) = x2 by ring,
    show y3 + (x3 - y3) = x3 by ring,
    show (x1 - y1) ^ 2 + (x2 - y2) ^ 2 + (x3 - y3) ^ 2
      = (y1 - x1) ^ 2 + (y2 - x2) ^ 2 + (y3 - x3) ^ 2 by ring] at t2
  rw [abs_le]
  constructor <;> linarith

/-- The rounded root of a perturbed radicand against the root of the exact
one. -/
theorem root_err (u K s Y r : ℝ) (hu : 0 ≤ u) (hu2 : u ≤ 1 / 16) (hK : 0 ≤ K)
    (hs : 0 ≤ s) (hY : 0 ≤ Y)
    (hup : s ≤ (1 + 2 * u) ^ 2 * Y + K ^ 2) (hlo : (1 - 2 * u) ^ 2 * Y ≤ s + K ^ 2)
    (hr : |r - Real.sqrt s| ≤ Real.sqrt s * u) :
    r ≤ (1 + u) * ((1 + 2 * u) * Real.sqrt Y + K) ∧
      (1 - u) * ((1 - 2 * u) * Real.sqrt Y - K) ≤ r := by
  have hsY := Real.sqrt_nonneg Y
  have hss := Real.sqrt_nonneg s
  have eY := Real.sq_sqrt hY
  have es := Real.sq_sqrt hs
  have h1 : Real.sqrt s ≤ (1 + 2 * u) * Real.sqrt Y + K := by
    rw [Real.sqrt_le_iff]
    refine ⟨by positivity, ?_⟩
    have : 0 ≤ (1 + 2 * u) * Real.sqrt Y * K := by positivity
    nlinarith
  have h2 : (1 - 2 * u) * Real.sqrt Y ≤ Real.sqrt s + K := by
    have hnn : 0 ≤ (1 - 2 * u) * Real.sqrt Y := mul_nonneg (by linarith) hsY
    apply le_of_not_lt
    intro hlt
    have := mul_self_lt_mul_self (add_nonneg hss hK) hlt
    have : 0 ≤ Real.sqrt s * K := mul_nonneg hss hK
    nlinarith
  rw [abs_le] at hr
  constructor
  · have := mul_le_mul_of_nonneg_left h1 (show 0 ≤ 1 + u by linarith)
    linarith [hr.2]
  · have := mul_le_mul_of_nonneg_left (sub_le_iff_le_add.mpr h2) (show 0 ≤ 1 - u by linarith)
    linarith [hr.1]

/-- The two stages together: the computed distance `r` against the exact
norm `N`, through the norm `R` of the rounded differences. -/
theorem dist_err (u τ K N R r : ℝ) (hu : 0 ≤ u) (hu2 : u ≤ 1 / 16) (hτ : 0 ≤ τ)
    (hτK : 4 * τ ≤ K) (hN : 0 ≤ N) (hR : |R - N| ≤ N * u + 2 * τ)
    (h1 : r ≤ (1 + u) * ((1 + 2 * u) * R + K))
    (h2 : (1 - u) * ((1 - 2 * u) * R - K) ≤ r) :
    r ≤ (1 + 5 * u) * N + 2 * K ∧ (1 - 4 * u) * N ≤ r + 2 * K := by
  rw [abs_le] at hR
  have hK : 0 ≤ K := by linarith
  have hA : 0 ≤ (1 + u) * (1 + 2 * u) := by positivity
  have hB : 0 ≤ (1 - u) * (1 - 2 * u) := mul_nonneg (by linarith) (by linarith)
  have huu : u * u ≤ u * (1 / 16) := mul_le_mul_of_nonneg_left hu2 hu
  have hNu : 0 ≤ N * u := mul_nonneg hN hu
  have hNuu : 0 ≤ N * u * u := mul_nonneg hNu hu
  have hNuuu : 0 ≤ N * u * u * u := mul_nonneg hNuu hu
  have hNuu4 : N * u * u * u ≤ N * u * u * (1 / 16) := mul_le_mul_of_nonneg_left hu2 hNuu
  have hNuu2 : N * u * u ≤ N * u * (1 / 16) := mul_le_mul_of_nonneg_left hu2 hNu
  constructor
  · have c := mul_le_mul_of_nonneg_left hR.2 hA
    nlinarith [mul_nonneg hu hτ, mul_nonneg hu hK, mul_nonneg (mul_nonneg hu hu) hτ]
  · have c := mul_le_mul_of_nonneg_left hR.1 hB
    nlinarith [mul_nonneg hu hτ, mul_nonneg hu hK, mul_nonneg (mul_nonneg hu hu) hτ]

/-- The triangle inequality of the exact norms carried over to the computed
distances. -/
theorem triangle_err (u K Nab Nbc Nac rab rbc rac : ℝ) (hu : 0 ≤ u) (hu2 : u ≤ 1 / 64)
    (hK : 0 ≤ K) (hab : 0 ≤ rab) (hbc : 0 ≤ rbc) (ht : Nac ≤ Nab + Nbc)
    (h1 : rac ≤ (1 + 5 * u) * Nac + 2 * K)
    (h2 : (1 - 4 * u) * Nab ≤ rab + 2 * K) (h3 : (1 - 4 * u) * Nbc ≤ rbc + 2 * K) :
    rac ≤ (1 + 16 * u) * (rab + rbc) + 8 * K := by
  have hpos : 0 < 1 - 4 * u := by linarith
  have hR : 0 ≤ rab + rbc := add_nonneg hab hbc
  have c1 : (1 - 4 * u) * rac ≤ (1 + 5 * u) * ((1 - 4 * u) * Nac) + 2 * K * (1 - 4 * u) := by
    have := mul_le_mul_of_nonneg_left h1 (le_of_lt hpos)
    linarith
  have c2 : (1 - 4 * u) * Nac ≤ rab + rbc + 4 * K := by
    have := mul_le_mul_of_nonneg_left ht (le_of_lt hpos)
    linarith
  have c3 := mul_le_mul_of_nonneg_left c2 (show 0 ≤ 1 + 5 * u by linarith)
  have huu : u * u ≤ u * (1 / 64) := mul_le_mul_of_nonneg_left hu2 hu
  have c4 : (1 - 4 * u) * rac ≤ (1 - 4 * u) * ((1 + 16 * u) * (rab + rbc) + 8 * K) := by
    nlinarith [mul_nonneg hu hR, mul_nonneg hu hK, mul_nonneg (mul_nonneg hu hu) hR,
      mul_le_mul_of_nonneg_right huu hR]
  exact le_of_mul_le_mul_left c4 hpos

/-- The computed distance of two colours in the sample range against their
exact Euclidean distance: a relative error of a few units of `2^-53` and an
absolute error of `2^-535`. -/
theorem colorDistance_err (ar ag ab br bg bb : ℚ)
    (ha : (0 ≤ ar ∧ ar ≤ 65535) ∧ (0 ≤ ag ∧ ag ≤ 65535) ∧ (0 ≤ ab ∧ ab ≤ 65535))
    (hb : (0 ≤ br ∧ br ≤ 65535) ∧ (0 ≤ bg ∧ bg ≤ 65535) ∧ (0 ≤ bb ∧ bb ≤ 65535)) :
    ∃ r : ℚ, colorDistance (Color.ofRat ar ag ab) (Color.ofRat br bg bb) = Float64.fin r ∧
      0 ≤ r ∧
      (r : ℝ) ≤ (1 + 5 * (1 / 2 ^ 53))
          * Real.sqrt (((ar : ℝ) - br) ^ 2 + ((ag : ℝ) - bg) ^ 2 + ((ab : ℝ) - bb) ^ 2)
        + 2 * (1 / 2 ^ 536) ∧
      (1 - 4 * (1 / 2 ^ 53))
          * Real.sqrt (((ar : ℝ) - br) ^ 2 + ((ag : ℝ) - bg) ^ 2 + ((ab : ℝ) - bb) ^ 2)
        ≤ (r : ℝ) + 2 * (1 / 2 ^ 536) := by
  obtain ⟨⟨a1, a2⟩, ⟨a3, a4⟩, ⟨a5, a6⟩⟩ := ha
  obtain ⟨⟨b1, b2⟩, ⟨b3, b4⟩, ⟨b5, b6⟩⟩ := hb
  have range : ∀ a b : ℚ, 0 ≤ a → a ≤ 65535 → 0 ≤ b → b ≤ 65535 → |a - b| ≤ 2 ^ (16 : ℤ) := by
    intro a b h1 h2 h3 h4
    rw [abs_le]
    constructor <;> norm_num <;> linarith
  have hsq : ∀ y : ℚ, |y| ≤ 2 ^ (16 : ℤ) → |y * y| ≤ 2 ^ (32 : ℤ) := by
    intro y h
    rw [abs_mul, show (2 : ℚ) ^ (32 : ℤ) = 2 ^ (16 : ℤ) * 2 ^ (16 : ℤ) by norm_num]
    exact mul_le_mul h h (abs_nonneg _) (by positivity)
  obtain ⟨y1, e1, by1, _, d1⟩ :=
    round64_err (ar - br) 16 (by norm_num) (by norm_num) (range ar br a1 a2 b1 b2)
  obtain ⟨y2, e2, by2, _, d2⟩ :=
    round64_err (ag - bg) 16 (by norm_num) (by norm_num) (range ag bg a3 a4 b3 b4)
  obtain ⟨y3, e3, by3, _, d3⟩ :=
    round64_err (ab - bb) 16 (by norm_num) (by norm_num) (range ab bb a5 a6 b5 b6)
  obtain ⟨p1, f1, bp1, np1, dp1⟩ :=
    round64_err (y1 * y1) 32 (by norm_num) (by norm_num) (hsq y1 by1)
  obtain ⟨p2, f2, bp2, np2, dp2⟩ :=
    round64_err (y2 * y2) 32 (by norm_num) (by norm_num) (hsq y2 by2)
  obtain ⟨p3, f3, bp3, np3, dp3⟩ :=
    round64_err (y3 * y3) 32 (by norm_num) (by norm_num) (hsq y3 by3)
  have n1 := np1 (mul_self_nonneg y1)
  have n2 := np2 (mul_self_nonneg y2)
  have n3 := np3 (mul_self_nonneg y3)
  have hs1 : |p1 + p2| ≤ 2 ^ (33 : ℤ) := by
    rw [abs_of_nonneg (add_nonneg n1 n2),
      show (2 : ℚ) ^ (33 : ℤ) = 2 ^ (32 : ℤ) + 2 ^ (32 : ℤ) by norm_num]
    exact add_le_add (le_trans (le_abs_self _) bp1) (le_trans (le_abs_self _) bp2)
  obtain ⟨s1, g1, bs1, ns1, ds1⟩ := round64_err (p1 + p2) 33 (by norm_num) (by norm_num) hs1
  have m1 := ns1 (add_nonneg n1 n2)
  have hs : |s1 + p3| ≤ 2 ^ (34 : ℤ) := by
    rw [abs_of_nonneg (add_nonneg m1 n3),
      show (2 : ℚ) ^ (34 : ℤ) = 2 ^ (33 : ℤ) + 2 ^ (33 : ℤ) by norm_num]
    refine add_le_add (le_trans (le_abs_self _) bs1) (le_trans (le_abs_self _) (le_trans bp3 ?_))
    norm_num
  obtain ⟨s, g, bs, ns, ds⟩ := round64_err (s1 + p3) 34 (by norm_num) (by norm_num) hs
  have m := ns (add_nonneg m1 n3)
  have hlt : s < 4 ^ (18 : ℤ) := by
    have h1 : s ≤ 2 ^ (34 : ℤ) := le_trans (le_abs_self _) bs
    have h2 : (2 : ℚ) ^ (34 : ℤ) < 4 ^ (18 : ℤ) := by norm_num
    exact lt_of_le_of_lt h1 h2
  obtain ⟨r, hr, hr0, hre⟩ := sqrt64_err s 18 m hlt (by norm_num)
  refine ⟨r, ?_, hr0, ?_⟩
  · rw [colorDistance_ofRat, e1, e2, e3]
    simp only [Float64.mul]
    rw [f1, f2, f3]
    simp only [Float64.add]
    rw [g1]
    simp only [Float64.add]
    rw [g]
    simp only [Sqrt, if_neg (not_lt.mpr m)]
    exact hr
  · -- the radicand
    obtain ⟨up, lo⟩ := radicand_err (1 / 2 ^ 53) (1 / 2 ^ 1075) (y1 * y1) (y2 * y2) (y3 * y3)
      p1 p2 p3 s1 s (by positivity) (by norm_num) (by positivity) (mul_self_nonneg _)
      (mul_self_nonneg _) (mul_self_nonneg _) n1 n2 n3 m1 dp1 dp2 dp3 ds1 ds
    have eK : (8 : ℝ) * (1 / 2 ^ 1075) = (1 / 2 ^ 536) ^ 2 := by norm_num
    have upR : (s : ℝ) ≤ (1 + 2 * (1 / 2 ^ 53)) ^ 2
        * ((y1 : ℝ) ^ 2 + (y2 : ℝ) ^ 2 + (y3 : ℝ) ^ 2) + (1 / 2 ^ 536) ^ 2 := by
      have := (Rat.cast_le (K := ℝ)).mpr up
      push_cast at this
      rw [← eK]
      rw [sq (y1 : ℝ), sq (y2 : ℝ), sq (y3 : ℝ)]
      exact this
    have loR : (1 - 2 * (1 / 2 ^ 53)) ^ 2
        * ((y1 : ℝ) ^ 2 + (y2 : ℝ) ^ 2 + (y3 : ℝ) ^ 2) ≤ (s : ℝ) + (1 / 2 ^ 536) ^ 2 := by
      have := (Rat.cast_le (K := ℝ)).mpr lo
      push_cast at this
      rw [← eK]
      rw [sq (y1 : ℝ), sq (y2 : ℝ), sq (y3 : ℝ)]
      exact this
    have cast : ∀ x y : ℚ, |y - x| ≤ |x| * (1 / 2 ^ 53) + 1 / 2 ^ 1075 →
        |(y : ℝ) - (x : ℝ)| ≤ |(x : ℝ)| * (1 / 2 ^ 53) + 1 / 2 ^ 1075 := by
      intro x y h
      have := (Rat.cast_le (K := ℝ)).mpr h
      push_cast at this
      exact this
    have c1 := cast _ _ d1
    have c2 := cast _ _ d2
    have c3 := cast _ _ d3
    push_cast at c1 c2 c3
    have hR := norm_err (1 / 2 ^ 53) (1 / 2 ^ 1075) ((ar : ℝ) - br) ((ag : ℝ) - bg)
      ((ab : ℝ) - bb) y1 y2 y3 (by positivity) (by positivity) c1 c2 c3
    obtain ⟨r1, r2⟩ := root_err (1 / 2 ^ 53) (1 / 2 ^ 536) (s : ℝ)
      ((y1 : ℝ) ^ 2 + (y2 : ℝ) ^ 2 + (y3 : ℝ) ^ 2) (r : ℝ) (by positivity) (by norm_num)
      (by positivity) (by exact_mod_cast m) (by positivity) upR loR hre
    exact dist_err (1 / 2 ^ 53) (1 / 2 ^ 1075) (1 / 2 ^ 536) _ _ (r : ℝ) (by positivity)
      (by norm_num) (by positivity) (by norm_num) (Real.sqrt_nonneg _) hR r1 r2

/-- C15 (amended): for colours whose channels are finite and in `[0, 65535]` the
three computed distances are finite numbers and satisfy the triangle inequality
up to rounding: `d(a,c) <= (1 + 2^-49) * (d(a,b) + d(b,c)) + 2^-533`, the sum
and the product taken exactly. -/
theorem colorDistance_triangle (a b c : Color) (ha : a.inRange = true) (hb : b.inRange = true)
    (hc : c.inRange = true) :
    colorDistance a b = Float64.fin (distValue a b) ∧
    colorDistance b c = Float64.fin (distValue b c) ∧
    colorDistance a c = Float64.fin (distValue a c) ∧
    distValue a c ≤ (1 + 1 / 2 ^ 49) * (distValue a b + distValue b c) + 1 / 2 ^ 533 := by
  obtain ⟨ar, ag, ab, rfl, ka⟩ := (color_inRange_iff a).mp ha
  obtain ⟨br, bg, bb, rfl, kb⟩ := (color_inRange_iff b).mp hb
  obtain ⟨cr, cg, cb, rfl, kc⟩ := (color_inRange_iff c).mp hc
  obtain ⟨rab, eab, nab, _, lab⟩ := colorDistance_err ar ag ab br bg bb ka kb
  obtain ⟨rbc, ebc, nbc, _, lbc⟩ := colorDistance_err br bg bb cr cg cb kb kc
  obtain ⟨rac, eac, _, uac, _⟩ := colorDistance_err ar ag ab cr cg cb ka kc
  have vab : distValue (Color.ofRat ar ag ab) (Color.ofRat br bg bb) = rab := by
    simp only [distValue, eab]
  have vbc : distValue (Color.ofRat br bg bb) (Color.ofRat cr cg cb) = rbc := by
    simp only [distValue, ebc]
  have vac : distValue (Color.ofRat ar ag ab) (Color.ofRat cr cg cb) = rac := by
    simp only [distValue, eac]
  rw [vab, vbc, vac]
  refine ⟨eab, ebc, eac, ?_⟩
  have tri := sqrt_triangle ((ar : ℝ) - br) ((ag : ℝ) - bg) ((ab : ℝ) - bb)
    ((br : ℝ) - cr) ((bg : ℝ) - cg) ((bb : ℝ) - cb)
  rw [show (ar : ℝ) - br + (br - cr) = ar - cr by ring,
    show (ag : ℝ) - bg + (bg - cg) = ag - cg by ring,
    show (ab : ℝ) - bb + (bb - cb) = ab - cb by ring] at tri
  have key := triangle_err (1 / 2 ^ 53) (1 / 2 ^ 536) _ _ _ (rab : ℝ) (rbc : ℝ) (rac : ℝ)
    (by positivity) (by norm_num) (by positivity) (by exact_mod_cast nab)
    (by exact_mod_cast nbc) tri uac lab lbc
  have e1 : (1 : ℝ) + 16 * (1 / 2 ^ 53) = 1 + 1 / 2 ^ 49 := by norm_num
  have e2 : (8 : ℝ) * (1 / 2 ^ 536) = 1 / 2 ^ 533 := by norm_num
  rw [e1, e2] at key
  rw [← Rat.cast_le (K := ℝ)]
  push_cast
  exact key

/-- C15 witness: the bound at black, `(0, 1, 1)` and `(0, 4, 4)`, where the
inequality without slack fails. -/
theorem colorDistance_triangle_witness :
    distValue (Color.ofRat 0 0 0) (Color.ofRat 0 4 4)
      ≤ (1 + 1 / 2 ^ 49) * (distValue (Color.ofRat 0 0 0) (Color.ofRat 0 1 1)
          + distValue (Color.ofRat 0 1 1) (Color.ofRat 0 4 4)) + 1 / 2 ^ 533 :=
  (colorDistance_triangle (Color.ofRat 0 0 0) (Color.ofRat 0 1 1) (Color.ofRat 0 4 4)
    (by norm_num [Color.inRange, Color.ofRat, F64.inRange])
    (by norm_num [Color.inRange, Color.ofRat, F64.inRange])
    (by norm_num [Color.inRange, Color.ofRat, F64.inRange])).2.2.2

/-! ## The destination rectangles -/

/-- Every coordinate of `[0, m*S)` lies in the slot of some index below `m`. -/
theorem slot_exists (S : Int) (hS : 1 ≤ S) (m : Nat) (p : Int) (h0 : 0 ≤ p)
    (hp : p < (m : Int) * S) :
    ∃ a : Nat, a < m ∧ (a : Int) * S ≤ p ∧ p < (a : Int) * S + S := by
  have hq0 : 0 ≤ p / S := Int.ediv_nonneg h0 (by omega)
  have hq1 : p / S < (m : Int) := Int.ediv_lt_of_lt_mul (by omega) hp
  have hlo : p / S * S ≤ p := Int.ediv_mul_le p (by omega)
  have hhi : p < (p / S + 1) * S := Int.lt_ediv_add_one_mul_self p (by omega)
  have e : (p / S + 1) * S = p / S * S + S := by ring
  refine ⟨(p / S).toNat, by omega, ?_, ?_⟩
  · rw [Int.toNat_of_nonneg hq0]
    exact hlo
  · rw [Int.toNat_of_nonneg hq0]
    omega

/-- The slot of an index below `m` lies in `[0, m*S)`. -/
theorem slot_bounds (S : Int) (hS : 1 ≤ S) (m a : Nat) (ha : a < m) :
    0 ≤ (a : Int) * S ∧ (a : Int) * S + S ≤ (m : Int) * S := by
  have h1 : (a : Int) + 1 ≤ (m : Int) := by exact_mod_cast ha
  have h2 := Int.mul_le_mul_of_nonneg_right h1 (by omega : (0 : Int) ≤ S)
  have e : ((a : Int) + 1) * S = (a : Int) * S + S := by ring
  have h3 : 0 ≤ (a : Int) * S := Int.mul_nonneg (Int.ofNat_nonneg a) (by omega)
  omega

/-- C16: for every `S ≥ 1` and grid dimension `n`, the destination rectangles
`[x*S, (x+1)*S) x [y*S, (y+1)*S)` that `Mosaic` draws for the rendered cells
`0 ≤ x, y ≤ n-2` are pairwise disjoint for distinct `(x, y)`, their union is
exactly the square `[0, (n-1)*S) x [0, (n-1)*S)`, and every pixel of that
square lies in the rectangle of exactly one rendered cell. -/
theorem cellRect_partition (S : Int) (hS : 1 ≤ S) (n : Nat) :
    (∀ x y x1 y1 : Nat, (x ≠ x1 ∨ y ≠ y1) → ∀ px py : Int,
      (cellRect S x y).Contains px py = true → (cellRect S x1 y1).Contains px py = false) ∧
    (∀ px py : Int,
      (∃ x y : Nat, x + 2 ≤ n ∧ y + 2 ≤ n ∧ (cellRect S x y).Contains px py = true) ↔
        (0 ≤ px ∧ px < ((n : Int) - 1) * S ∧ 0 ≤ py ∧ py < ((n : Int) - 1) * S)) ∧
    (∀ px py : Int, 0 ≤ px → px < ((n : Int) - 1) * S → 0 ≤ py → py < ((n : Int) - 1) * S →
      ∃! c : Nat × Nat, c.1 + 2 ≤ n ∧ c.2 + 2 ≤ n ∧
        (cellRect S c.1 c.2).Contains px py = true) := by
  have hdis : ∀ x y x1 y1 : Nat, (x ≠ x1 ∨ y ≠ y1) → ∀ px py : Int,
      (cellRect S x y).Contains px py = true → (cellRect S x1 y1).Contains px py = false :=
    fun x y x1 y1 hne px py h => cell_disjoint S hS x y x1 y1 px py hne h
  have hex : ∀ px py : Int, 0 ≤ px → px < ((n : Int) - 1) * S → 0 ≤ py →
      py < ((n : Int) - 1) * S →
      ∃ x y : Nat, x + 2 ≤ n ∧ y + 2 ≤ n ∧ (cellRect S x y).Contains px py = true := by
    intro px py hx0 hx hy0 hy
    have hn : 1 ≤ n := by
      by_contra hlt
      have h0 : n = 0 := by omega
      subst h0
      have : ((0 : ℕ) : Int) - 1 = -1 := by norm_num
      rw [this] at hx
      omega
    have ecast : (((n - 1 : ℕ)) : Int) = (n : Int) - 1 := by omega
    obtain ⟨x, hxm, hx1, hx2⟩ := slot_exists S hS (n - 1) px hx0 (by rw [ecast]; exact hx)
    obtain ⟨y, hym, hy1, hy2⟩ := slot_exists S hS (n - 1) py hy0 (by rw [ecast]; exact hy)
    refine ⟨x, y, by omega, by omega, ?_⟩
    rw [cellRect_pos S hS, Contains_iff]
    exact ⟨hx1, hx2, hy1, hy2⟩
  refine ⟨hdis, ?_, ?_⟩
  · intro px py
    constructor
    · rintro ⟨x, y, hx, hy, hc⟩
      rw [cellRect_pos S hS, Contains_iff] at hc
      simp only [] at hc
      have ecast : (((n - 1 : ℕ)) : Int) = (n : Int) - 1 := by omega
      have bx := slot_bounds S hS (n - 1) x (by omega)
      have by1 := slot_bounds S hS (n - 1) y (by omega)
      rw [ecast] at bx by1
      omega
    · rintro ⟨hx0, hx, hy0, hy⟩
      exact hex px py hx0 hx hy0 hy
  · intro px py hx0 hx hy0 hy
    obtain ⟨x, y, hx2, hy2, hc⟩ := hex px py hx0 hx hy0 hy
    refine ⟨(x, y), ⟨hx2, hy2, hc⟩, ?_⟩
    rintro ⟨x1, y1⟩ ⟨_, _, hc1⟩
    by_contra hne
    have hne2 : x1 ≠ x ∨ y1 ≠ y := by
      by_contra hcon
      push_neg at hcon
      exact hne (by rw [hcon.1, hcon.2])
    have := hdis x1 y1 x y hne2 px py hc1
    rw [hc] at this
    exact Bool.noConfusion this

/-- C16 witness: squares of size 2 in a grid of dimension 3. -/
theorem cellRect_partition_witness :
    (∀ x y x1 y1 : Nat, (x ≠ x1 ∨ y ≠ y1) → ∀ px py : Int,
      (cellRect 2 x y).Contains px py = true → (cellRect 2 x1 y1).Contains px py = false) ∧
    (∀ px py : Int,
      (∃ x y : Nat, x + 2 ≤ 3 ∧ y + 2 ≤ 3 ∧ (cellRect 2 x y).Contains px py = true) ↔
        (0 ≤ px ∧ px < (((3 : ℕ) : Int) - 1) * 2 ∧ 0 ≤ py ∧ py < (((3 : ℕ) : Int) - 1) * 2)) ∧
    (∀ px py : Int, 0 ≤ px → px < (((3 : ℕ) : Int) - 1) * 2 → 0 ≤ py →
      py < (((3 : ℕ) : Int) - 1) * 2 →
      ∃! c : Nat × Nat, c.1 + 2 ≤ 3 ∧ c.2 + 2 ≤ 3 ∧
        (cellRect 2 c.1 c.2).Contains px py = true) :=
  cellRect_partition 2 (by decide) 3

/-! ## Pixel counts -/

theorem foldl_addPixel_count (f : Int → Pixel) :
    ∀ (xs : List Int) (s : Sums),
      (xs.foldl (fun s x => s.addPixel (f x)) s).count = s.count + xs.length := by
  intro xs
  induction xs with
  | nil => intro s; simp
  | cons x rest ih =>
    intro s
    rw [List.foldl_cons, ih]
    simp only [Sums.addPixel, List.length_cons]
    push_cast
    ring

theorem foldl_rows_count (f : Int → Int → Pixel) (xs : List Int) :
    ∀ (ys : List Int) (s : Sums),
      (ys.foldl (fun s y => xs.foldl (fun s x => s.addPixel (f x y)) s) s).count
        = s.count + (ys.length * xs.length : ℕ) := by
  intro ys
  induction ys with
  | nil => intro s; simp
  | cons y rest ih =>
    intro s
    rw [List.foldl_cons, ih, foldl_addPixel_count (fun x => f x y)]
    simp only [List.length_cons]
    push_cast
    ring

/-- The count the loops end with is the number of pixels of the region. -/
theorem sumRegion_count (m : Image) (x0 x1 y0 y1 : Int) :
    (sumRegion m x0 x1 y0 y1).count = (((y1 - y0).toNat * (x1 - x0).toNat : ℕ) : ℚ) := by
  unfold sumRegion
  rw [foldl_rows_count m.At]
  simp [length_intRange]

theorem profileSq_avgColor (img : Image) (S : Int) (j i : Nat) :
    (profileSq img S j i).avgColor = (squareSums img S j i).toColor := rfl

theorem profileSq_bounds (img : Image) (S : Int) (j i : Nat) :
    (profileSq img S j i).bounds
      = Rect ((i : Int) * S) ((j : Int) * S) ((i : Int) * S + S) ((j : Int) * S + S) := rfl

theorem squareSums_count (img : Image) (S : Int) (j i : Nat) :
    (squareSums img S j i).count
      = ((((min ((j : Int) * S + S) img.bounds.Max.Y - (j : Int) * S).toNat *
          (min ((i : Int) * S + S) img.bounds.Max.X - (i : Int) * S).toNat : ℕ)) : ℚ) := by
  unfold squareSums
  rw [sumRegion_count]

/-- A square with no pixel has the average `0 / 0`. -/
theorem toColor_of_count_zero (s : Sums) (h : s.count = 0) : s.toColor = nanColor := by
  simp [Sums.toColor, F64.div, nanColor, h]

/-- The number of pixels of a square is positive exactly when its top-left
corner lies before the maximal bounds of the image. -/
theorem squareSums_count_pos (img : Image) (S : Int) (hS : 1 ≤ S) (j i : Nat) :
    0 < (squareSums img S j i).count ↔
      (i : Int) * S < img.bounds.Max.X ∧ (j : Int) * S < img.bounds.Max.Y := by
  rw [squareSums_count]
  constructor
  · intro h
    have h2 : 0 < (min ((j : Int) * S + S) img.bounds.Max.Y - (j : Int) * S).toNat *
        (min ((i : Int) * S + S) img.bounds.Max.X - (i : Int) * S).toNat := by
      exact_mod_cast h
    have hy := Nat.pos_of_mul_pos_left h2
    have hx := Nat.pos_of_mul_pos_right h2
    have mx := min_le_right ((i : Int) * S + S) img.bounds.Max.X
    have my := min_le_right ((j : Int) * S + S) img.bounds.Max.Y
    constructor <;> omega
  · rintro ⟨hx, hy⟩
    have mx : (i : Int) * S < min ((i : Int) * S + S) img.bounds.Max.X := lt_min (by omega) hx
    have my : (j : Int) * S < min ((j : Int) * S + S) img.bounds.Max.Y := lt_min (by omega) hy
    have h2 : 0 < (min ((j : Int) * S + S) img.bounds.Max.Y - (j : Int) * S).toNat *
        (min ((i : Int) * S + S) img.bounds.Max.X - (i : Int) * S).toNat := by
      apply Nat.mul_pos <;> omega
    exact_mod_cast h2

/-! ## The recorded bounds -/

/-- C12 (amended): for every target and every `S ≥ 1`, the bounds recorded in
cell `(row, col)` of `colorProfile`'s grid are the rectangle from
`(col*S, row*S)` to `((col+1)*S, (row+1)*S)`, not clipped against the bounds of
the target; only the region that is averaged is clipped. -/
theorem colorProfile_cell_bounds (img : Image) (S : Int) (hS : 1 ≤ S) :
    ∃ squares, colorProfile img S = some squares ∧
      ∀ row col : Nat, row < squares.length → col < squares.length →
        ∃ c, gridAt squares row col = some c ∧
          c.bounds = ⟨⟨(col : Int) * S, (row : Int) * S⟩,
            ⟨((col : Int) + 1) * S, ((row : Int) + 1) * S⟩⟩ := by
  refine ⟨_, colorProfile_pos img S hS, ?_⟩
  intro row col hr hc
  refine ⟨_, gridAt_colorProfile img S hS _ (colorProfile_pos img S hS) row col hr hc, ?_⟩
  have e1 : ((col : Int) + 1) * S = (col : Int) * S + S := by ring
  have e2 : ((row : Int) + 1) * S = (row : Int) * S + S := by ring
  rw [profileSq_bounds, Rect_of_le _ _ _ _ (by omega) (by omega), e1, e2]

/-- C12 witness: the 3x3 target with squares of size 2. -/
theorem colorProfile_cell_bounds_witness :
    ∃ squares, colorProfile target3 2 = some squares ∧
      ∀ row col : Nat, row < squares.length → col < squares.length →
        ∃ c, gridAt squares row col = some c ∧
          c.bounds = ⟨⟨(col : Int) * 2, (row : Int) * 2⟩,
            ⟨((col : Int) + 1) * 2, ((row : Int) + 1) * 2⟩⟩ :=
  colorProfile_cell_bounds target3 2 (by decide)

/-- C12 (as stated) fails: in the 3x3 target with squares of size 2 the cell of
row 0 and column 1 overflows the right edge; its recorded bounds are
`(2,0)-(4,2)`, not the clipped `(2,0)-(3,2)`. -/
theorem colorProfile_cell_bounds_unclipped :
    target3.bounds = ⟨⟨0, 0⟩, ⟨3, 3⟩⟩ ∧
    ∃ squares c, colorProfile target3 2 = some squares ∧ gridAt squares 0 1 = some c ∧
      c.bounds = ⟨⟨2, 0⟩, ⟨4, 2⟩⟩ ∧
      c.bounds ≠ ⟨⟨1 * 2, 0 * 2⟩, ⟨min ((1 + 1) * 2) 3, min ((0 + 1) * 2) 3⟩⟩ := by
  refine ⟨rfl, ?_⟩
  have hsq := colorProfile_pos target3 2 (by decide)
  have hl := colorProfile_length_pos target3 2 (by decide) _ hsq
  have hl2 : 1 < ((target3.bounds.Max.X - target3.bounds.Min.X) / 2).toNat + 1 := by
    simp [target3, mkImage]
  refine ⟨_, _, hsq, gridAt_colorProfile target3 2 (by decide) _ hsq 0 1
    (by rw [hl]; omega) (by rw [hl]; exact hl2), ?_, ?_⟩
  · rw [profileSq_bounds]
    decide
  · rw [profileSq_bounds]
    decide

/-! ## Averages of squares -/

/-- C13: for every target with origin `(0,0)`, width `W` and height `H`, every
`S ≥ 1` and every grid cell `(row, col)` whose clipped region
`[col*S, min((col+1)*S, W)) x [row*S, min((row+1)*S, H))` is non-empty, the
average colour stored in `colorProfile`'s cell is `avgColor` of the target
restricted to that clipped region. -/
theorem colorProfile_cell_avg (img : Image) (S : Int) (hS : 1 ≤ S)
    (hO : img.bounds.Min = ⟨0, 0⟩) :
    ∃ squares, colorProfile img S = some squares ∧
      ∀ row col : Nat, row < squares.length → col < squares.length →
        (col : Int) * S < min (((col : Int) + 1) * S) (img.bounds.Max.X - img.bounds.Min.X) →
        (row : Int) * S < min (((row : Int) + 1) * S) (img.bounds.Max.Y - img.bounds.Min.Y) →
        ∃ c, gridAt squares row col = some c ∧
          c.avgColor = avgColor (restrict img ((col : Int) * S) ((row : Int) * S)
            (min (((col : Int) + 1) * S) (img.bounds.Max.X - img.bounds.Min.X))
            (min (((row : Int) + 1) * S) (img.bounds.Max.Y - img.bounds.Min.Y))) := by
  refine ⟨_, colorProfile_pos img S hS, ?_⟩
  intro row col hr hc hx hy
  refine ⟨_, gridAt_colorProfile img S hS _ (colorProfile_pos img S hS) row col hr hc, ?_⟩
  have e1 : ((col : Int) + 1) * S = (col : Int) * S + S := by ring
  have e2 : ((row : Int) + 1) * S = (row : Int) * S + S := by ring
  have ox : img.bounds.Min.X = 0 := by rw [hO]
  have oy : img.bounds.Min.Y = 0 := by rw [hO]
  rw [ox, sub_zero, e1] at hx
  rw [oy, sub_zero, e2] at hy
  rw [ox, oy, sub_zero, sub_zero, e1, e2]
  have hR := Rect_of_le _ _ _ _ (le_of_lt hx) (le_of_lt hy)
  simp only [profileSq, avgColor, restrict, hR, sumRegion]

/-- C13 witness: the 3x3 target with squares of size 2, whose cells of row and
column 1 are clipped to one pixel. -/
theorem colorProfile_cell_avg_witness :
    ∃ squares, colorProfile target3 2 = some squares ∧
      ∀ row col : Nat, row < squares.length → col < squares.length →
        (col : Int) * 2 < min (((col : Int) + 1) * 2)
          (target3.bounds.Max.X - target3.bounds.Min.X) →
        (row : Int) * 2 < min (((row : Int) + 1) * 2)
          (target3.bounds.Max.Y - target3.bounds.Min.Y) →
        ∃ c, gridAt squares row col = some c ∧
          c.avgColor = avgColor (restrict target3 ((col : Int) * 2) ((row : Int) * 2)
            (min (((col : Int) + 1) * 2) (target3.bounds.Max.X - target3.bounds.Min.X))
            (min (((row : Int) + 1) * 2) (target3.bounds.Max.Y - target3.bounds.Min.Y))) :=
  colorProfile_cell_avg target3 2 (by decide) rfl

/-! ## Empty and full squares -/

/-- With a positive count the quotients are finite. -/
theorem toColor_of_count_pos (s : Sums) (h : 0 < s.count) :
    s.toColor = Color.ofRat (s.sumR / s.count) (s.sumG / s.count) (s.sumB / s.count) := by
  have h0 : s.count ≠ 0 := ne_of_gt h
  simp [Sums.toColor, F64.div, Color.ofRat, h0]

theorem count_nonneg (img : Image) (S : Int) (j i : Nat) : 0 ≤ (squareSums img S j i).count := by
  rw [squareSums_count]
  exact Nat.cast_nonneg _

/-- Which squares of the grid are empty. -/
theorem cell_nonempty_iff (img : Image) (S : Int) (hS : 1 ≤ S) (hO : img.bounds.Min = ⟨0, 0⟩) :
    ∃ squares, colorProfile img S = some squares ∧
      ∀ row col : Nat, row < squares.length → col < squares.length →
        ∃ c, gridAt squares row col = some c ∧
          c.avgColor = (squareSums img S row col).toColor ∧
          (0 < (squareSums img S row col).count ↔
            ((col : Int) * S < img.bounds.Max.X - img.bounds.Min.X ∧
             (row : Int) * S < img.bounds.Max.Y - img.bounds.Min.Y)) ∧
          ((squareSums img S row col).count = 0 → c.avgColor = nanColor) := by
  refine ⟨_, colorProfile_pos img S hS, ?_⟩
  intro row col hr hc
  refine ⟨_, gridAt_colorProfile img S hS _ (colorProfile_pos img S hS) row col hr hc,
    profileSq_avgColor img S row col, ?_, ?_⟩
  · have ox : img.bounds.Min.X = 0 := by rw [hO]
    have oy : img.bounds.Min.Y = 0 := by rw [hO]
    rw [ox, oy, sub_zero, sub_zero]
    exact squareSums_count_pos img S hS row col
  · intro h0
    rw [profileSq_avgColor, toColor_of_count_zero _ h0]

/-- C14 (amended): for every target with origin `(0,0)`, width `W` and height
`H`, and every `S ≥ 1`, a cell `(row, col)` of the grid produced by
`colorProfile` averages over at least one pixel if and only if `col*S < W` and
`row*S < H`; the other cells of the grid have a zero pixel count and the
average `0 / 0`, which is NaN in every channel. -/
theorem colorProfile_cell_nonempty (img : Image) (S : Int) (hS : 1 ≤ S)
    (hO : img.bounds.Min = ⟨0, 0⟩) :
    ∃ squares, colorProfile img S = some squares ∧
      ∀ row col : Nat, row < squares.length → col < squares.length →
        ∃ c, gridAt squares row col = some c ∧
          c.avgColor = (squareSums img S row col).toColor ∧
          (0 < (squareSums img S row col).count ↔
            ((col : Int) * S < img.bounds.Max.X - img.bounds.Min.X ∧
             (row : Int) * S < img.bounds.Max.Y - img.bounds.Min.Y)) ∧
          ((squareSums img S row col).count = 0 → c.avgColor = nanColor) :=
  cell_nonempty_iff img S hS hO

/-- C14 witness: the 4x4 target with squares of size 2. -/
theorem colorProfile_cell_nonempty_witness :
    ∃ squares, colorProfile target4 2 = some squares ∧
      ∀ row col : Nat, row < squares.length → col < squares.length →
        ∃ c, gridAt squares row col = some c ∧
          c.avgColor = (squareSums target4 2 row col).toColor ∧
          (0 < (squareSums target4 2 row col).count ↔
            ((col : Int) * 2 < target4.bounds.Max.X - target4.bounds.Min.X ∧
             (row : Int) * 2 < target4.bounds.Max.Y - target4.bounds.Min.Y)) ∧
          ((squareSums target4 2 row col).count = 0 → c.avgColor = nanColor) :=
  colorProfile_cell_nonempty target4 2 (by decide) rfl

/-- C14 (as stated) fails: the 4x4 target has positive width and height and
`sqSize = 2 ≥ 1`, yet the cell of row 0 and column 2 of its grid averages over
no pixel; its count is zero and its average is NaN in every channel. -/
theorem colorProfile_cell_empty :
    target4.bounds = ⟨⟨0, 0⟩, ⟨4, 4⟩⟩ ∧
    ∃ squares c, colorProfile target4 2 = some squares ∧ gridAt squares 0 2 = some c ∧
      (squareSums target4 2 0 2).count = 0 ∧
      c.avgColor = (squareSums target4 2 0 2).toColor ∧
      c.avgColor = nanColor := by
  refine ⟨rfl, ?_⟩
  obtain ⟨squares, hsq, hcell⟩ := cell_nonempty_iff target4 2 (by decide) rfl
  have hl := colorProfile_length_pos target4 2 (by decide) squares hsq
  have hl3 : squares.length = 3 := by
    rw [hl]
    simp [target4, mkImage]
  obtain ⟨c, h1, h2, h3, h4⟩ := hcell 0 2 (by omega) (by omega)
  have hz : (squareSums target4 2 0 2).count = 0 := by
    have hn : ¬ 0 < (squareSums target4 2 0 2).count := by
      rw [h3]
      simp [target4, mkImage]
    exact le_antisymm (not_lt.mp hn) (count_nonneg _ _ _ _)
  exact ⟨squares, c, hsq, h1, hz, h2, h4 hz⟩

/-- C18: for every square target of size `W x W` with origin `(0,0)` and every
`S ≥ 1`, every grid cell that `Mosaic` renders (row and column both at most
`n-2`, `n = ⌊W/S⌋ + 1` the grid dimension) lies entirely inside the target:
its square is not clipped, `colorProfile` averages exactly `S*S` pixels for
it, and its average colour has finite channels. -/
theorem rendered_cell_inside (img : Image) (W S : Int) (hS : 1 ≤ S)
    (hb : img.bounds = ⟨⟨0, 0⟩, ⟨W, W⟩⟩) :
    ∃ squares, colorProfile img S = some squares ∧
      (squares.length : Int) = W / S + 1 ∧
      ∀ row col : Nat, row + 2 ≤ squares.length → col + 2 ≤ squares.length →
        ∃ c, gridAt squares row col = some c ∧
          ((col : Int) + 1) * S ≤ W ∧ ((row : Int) + 1) * S ≤ W ∧
          min (((col : Int) + 1) * S) W = ((col : Int) + 1) * S ∧
          min (((row : Int) + 1) * S) W = ((row : Int) + 1) * S ∧
          c.avgColor = (squareSums img S row col).toColor ∧
          (squareSums img S row col).count = ((S * S : Int) : ℚ) ∧
          ∃ r g b : ℚ, c.avgColor = Color.ofRat r g b := by
  have hsq := colorProfile_pos img S hS
  have hl := colorProfile_length_pos img S hS _ hsq
  have hW : 0 ≤ W := by
    have := img.wf.1
    rw [hb] at this
    exact this
  have hq : 0 ≤ W / S := Int.ediv_nonneg hW (by omega)
  have hX : img.bounds.Max.X = W := by rw [hb]
  have hY : img.bounds.Max.Y = W := by rw [hb]
  have hm : img.bounds.Min.X = 0 := by rw [hb]
  have hlen : ((List.range ((img.bounds.Max.X - img.bounds.Min.X) / S).toNat.succ).map fun j =>
      (List.range ((img.bounds.Max.X - img.bounds.Min.X) / S).toNat.succ).map fun i =>
        profileSq img S j i).length = (W / S).toNat + 1 := by
    rw [hl, hX, hm, sub_zero]
  refine ⟨_, hsq, ?_, ?_⟩
  · rw [hlen]
    push_cast
    rw [Int.toNat_of_nonneg hq]
  · intro row col hr hc
    rw [hlen] at hr hc
    have key : ∀ u : Nat, u + 2 ≤ (W / S).toNat + 1 → ((u : Int) + 1) * S ≤ W := by
      intro u hu
      have h1 : (u : Int) + 1 ≤ W / S := by omega
      have h2 := Int.mul_le_mul_of_nonneg_right h1 (by omega : (0 : Int) ≤ S)
      have h3 := Int.ediv_mul_le W (by omega : S ≠ 0)
      omega
    have kc := key col hc
    have kr := key row hr
    have e1 : ((col : Int) + 1) * S = (col : Int) * S + S := by ring
    have e2 : ((row : Int) + 1) * S = (row : Int) * S + S := by ring
    have hcount : (squareSums img S row col).count = ((S * S : Int) : ℚ) := by
      rw [squareSums_count, hX, hY, min_eq_left (by omega), min_eq_left (by omega)]
      have d1 : (row : Int) * S + S - (row : Int) * S = S := by ring
      have d2 : (col : Int) * S + S - (col : Int) * S = S := by ring
      rw [d1, d2]
      have hn : ((S.toNat : ℕ) : ℚ) = (S : ℚ) := by
        have : ((S.toNat : ℤ) : ℚ) = (S : ℚ) := by rw [Int.toNat_of_nonneg (by omega)]
        rw [← this]
        norm_cast
      push_cast
      rw [hn]
    have hpos : 0 < (squareSums img S row col).count := by
      rw [hcount]
      have : 0 < S * S := Int.mul_pos (by omega) (by omega)
      exact_mod_cast this
    refine ⟨_, gridAt_colorProfile img S hS _ hsq row col (by rw [hlen]; omega)
      (by rw [hlen]; omega), kc, kr, min_eq_left kc, min_eq_left kr,
      profileSq_avgColor img S row col, hcount, ?_⟩
    rw [profileSq_avgColor, toColor_of_count_pos _ hpos]
    exact ⟨_, _, _, rfl⟩

/-- C18 witness: the 4x4 target with squares of size 2. -/
theorem rendered_cell_inside_witness :
    ∃ squares, colorProfile target4 2 = some squares ∧
      (squares.length : Int) = 4 / 2 + 1 ∧
      ∀ row col : Nat, row + 2 ≤ squares.length → col + 2 ≤ squares.length →
        ∃ c, gridAt squares row col = some c ∧
          ((col : Int) + 1) * 2 ≤ 4 ∧ ((row : Int) + 1) * 2 ≤ 4 ∧
          min (((col : Int) + 1) * 2) 4 = ((col : Int) + 1) * 2 ∧
          min (((row : Int) + 1) * 2) 4 = ((row : Int) + 1) * 2 ∧
          c.avgColor = (squareSums target4 2 row col).toColor ∧
          (squareSums target4 2 row col).count = (((2 : Int) * 2 : Int) : ℚ) ∧
          ∃ r g b : ℚ, c.avgColor = Color.ofRat r g b :=
  rendered_cell_inside target4 4 2 (by decide) rfl

/-! ## Averages lie between the samples -/

theorem within_zero (loR hiR loG hiG loB hiB : ℚ) :
    Sums.Within ⟨0, 0, 0, 0⟩ loR hiR loG hiG loB hiB := by
  simp [Sums.Within]

theorem addPixel_within (s : Sums) (p : Pixel) (loR hiR loG hiG loB hiB : ℚ)
    (h : s.Within loR hiR loG hiG loB hiB)
    (hr : loR ≤ (p.r : ℚ) ∧ (p.r : ℚ) ≤ hiR) (hg : loG ≤ (p.g : ℚ) ∧ (p.g : ℚ) ≤ hiG)
    (hb : loB ≤ (p.b : ℚ) ∧ (p.b : ℚ) ≤ hiB) :
    (s.addPixel p).Within loR hiR loG hiG loB hiB := by
  obtain ⟨⟨r1, r2⟩, ⟨g1, g2⟩, ⟨b1, b2⟩⟩ := h
  simp only [Sums.Within, Sums.addPixel]
  refine ⟨⟨?_, ?_⟩, ⟨?_, ?_⟩, ⟨?_, ?_⟩⟩
  · have e : loR * (s.count + 1) = loR * s.count + loR := by ring
    rw [e]; linarith [hr.1]
  · have e : hiR * (s.count + 1) = hiR * s.count + hiR := by ring
    rw [e]; linarith [hr.2]
  · have e : loG * (s.count + 1) = loG * s.count + loG := by ring
    rw [e]; linarith [hg.1]
  · have e : hiG * (s.count + 1) = hiG * s.count + hiG := by ring
    rw [e]; linarith [hg.2]
  · have e : loB * (s.count + 1) = loB * s.count + loB := by ring
    rw [e]; linarith [hb.1]
  · have e : hiB * (s.count + 1) = hiB * s.count + hiB := by ring
    rw [e]; linarith [hb.2]

theorem foldl_addPixel_within (f : Int → Pixel) (loR hiR loG hiG loB hiB : ℚ) :
    ∀ (xs : List Int) (s : Sums), s.Within loR hiR loG hiG loB hiB →
      (∀ x ∈ xs, (loR ≤ ((f x).r : ℚ) ∧ ((f x).r : ℚ) ≤ hiR) ∧
        (loG ≤ ((f x).g : ℚ) ∧ ((f x).g : ℚ) ≤ hiG) ∧
        (loB ≤ ((f x).b : ℚ) ∧ ((f x).b : ℚ) ≤ hiB)) →
      (xs.foldl (fun s x => s.addPixel (f x)) s).Within loR hiR loG hiG loB hiB := by
  intro xs
  induction xs with
  | nil => intro s h _; exact h
  | cons x rest ih =>
    intro s h hp
    obtain ⟨h1, h2, h3⟩ := hp x (List.mem_cons_self _ _)
    rw [List.foldl_cons]
    exact ih _ (addPixel_within s (f x) _ _ _ _ _ _ h h1 h2 h3)
      (fun v hv => hp v (List.mem_cons_of_mem _ hv))

theorem foldl_rows_within (f : Int → Int → Pixel) (loR hiR loG hiG loB hiB : ℚ)
    (xs : List Int) :
    ∀ (ys : List Int) (s : Sums), s.Within loR hiR loG hiG loB hiB →
      (∀ y ∈ ys, ∀ x ∈ xs, (loR ≤ ((f x y).r : ℚ) ∧ ((f x y).r : ℚ) ≤ hiR) ∧
        (loG ≤ ((f x y).g : ℚ) ∧ ((f x y).g : ℚ) ≤ hiG) ∧
        (loB ≤ ((f x y).b : ℚ) ∧ ((f x y).b : ℚ) ≤ hiB)) →
      (ys.foldl (fun s y => xs.foldl (fun s x => s.addPixel (f x y)) s) s).Within
        loR hiR loG hiG loB hiB := by
  intro ys
  induction ys with
  | nil => intro s h _; exact h
  | cons y rest ih =>
    intro s h hp
    rw [List.foldl_cons]
    exact ih _ (foldl_addPixel_within (fun x => f x y) _ _ _ _ _ _ xs s h
      (hp y (List.mem_cons_self _ _))) (fun v hv => hp v (List.mem_cons_of_mem _ hv))

/-- The sums over a region lie between the bounds of its samples times the
count. -/
theorem sumRegion_within (m : Image) (x0 x1 y0 y1 : Int) (loR hiR loG hiG loB hiB : ℚ)
    (h : ∀ x y, x0 ≤ x → x < x1 → y0 ≤ y → y < y1 →
      (loR ≤ ((m.At x y).r : ℚ) ∧ ((m.At x y).r : ℚ) ≤ hiR) ∧
      (loG ≤ ((m.At x y).g : ℚ) ∧ ((m.At x y).g : ℚ) ≤ hiG) ∧
      (loB ≤ ((m.At x y).b : ℚ) ∧ ((m.At x y).b : ℚ) ≤ hiB)) :
    (sumRegion m x0 x1 y0 y1).Within loR hiR loG hiG loB hiB := by
  unfold sumRegion
  apply foldl_rows_within m.At _ _ _ _ _ _ _ _ _ (within_zero _ _ _ _ _ _)
  intro y hy x hx
  rw [mem_intRange] at hy hx
  exact h x y hx.1 hx.2 hy.1 hy.2

/-- The quotients of sums within bounds, by a positive count, lie within the
bounds. -/
theorem toColor_between (s : Sums) (loR hiR loG hiG loB hiB : ℚ)
    (h : s.Within loR hiR loG hiG loB hiB) (hc : 0 < s.count) :
    s.toColor.r.between loR hiR = true ∧ s.toColor.g.between loG hiG = true ∧
      s.toColor.b.between loB hiB = true := by
  obtain ⟨⟨r1, r2⟩, ⟨g1, g2⟩, ⟨b1, b2⟩⟩ := h
  rw [toColor_of_count_pos s hc]
  simp only [Color.ofRat, F64.between, Bool.and_eq_true, decide_eq_true_eq]
  refine ⟨⟨?_, ?_⟩, ⟨?_, ?_⟩, ⟨?_, ?_⟩⟩
  · exact (le_div_iff₀ hc).mpr r1
  · exact (div_le_iff₀ hc).mpr r2
  · exact (le_div_iff₀ hc).mpr g1
  · exact (div_le_iff₀ hc).mpr g2
  · exact (le_div_iff₀ hc).mpr b1
  · exact (div_le_iff₀ hc).mpr b2

theorem between_inRange (x : F64) (lo hi : ℚ) (h0 : 0 ≤ lo) (h1 : hi ≤ 65535)
    (h : x.between lo hi = true) : x.inRange = true := by
  cases x with
  | nan => simp [F64.between] at h
  | fin q =>
    simp only [F64.between, Bool.and_eq_true, decide_eq_true_eq] at h
    simp only [F64.inRange, Bool.and_eq_true, decide_eq_true_eq]
    exact ⟨le_trans h0 h.1, le_trans h.2 h1⟩

/-- C19: for every image with non-empty bounds whose RGB samples lie, channel
by channel, between `lo` and `hi` (such as the least and the greatest sample
of the channel) with `hi ≤ 65535`, each channel of `avgColor`'s result is
finite and lies between `lo` and `hi`, hence in `[0, 65535]`; the same holds
for the average of every `colorProfile` square over a non-empty region whose
samples lie between `lo` and `hi`. -/
theorem avgColor_between (m : Image) (loR hiR loG hiG loB hiB : Nat)
    (hx : m.bounds.Min.X < m.bounds.Max.X) (hy : m.bounds.Min.Y < m.bounds.Max.Y)
    (hs : ∀ x y, m.bounds.Contains x y = true →
      (loR ≤ (m.At x y).r ∧ (m.At x y).r ≤ hiR) ∧ (loG ≤ (m.At x y).g ∧ (m.At x y).g ≤ hiG) ∧
      (loB ≤ (m.At x y).b ∧ (m.At x y).b ≤ hiB))
    (h65 : hiR ≤ 65535 ∧ hiG ≤ 65535 ∧ hiB ≤ 65535) :
    ((avgColor m).r.between loR hiR = true ∧ (avgColor m).g.between loG hiG = true ∧
      (avgColor m).b.between loB hiB = true) ∧
    (avgColor m).inRange = true ∧
    ∀ (S : Int) (row col : Nat),
      (col : Int) * S < min ((col : Int) * S + S) m.bounds.Max.X →
      (row : Int) * S < min ((row : Int) * S + S) m.bounds.Max.Y →
      (∀ x y, (col : Int) * S ≤ x → x < min ((col : Int) * S + S) m.bounds.Max.X →
        (row : Int) * S ≤ y → y < min ((row : Int) * S + S) m.bounds.Max.Y →
        (loR ≤ (m.At x y).r ∧ (m.At x y).r ≤ hiR) ∧ (loG ≤ (m.At x y).g ∧ (m.At x y).g ≤ hiG) ∧
        (loB ≤ (m.At x y).b ∧ (m.At x y).b ≤ hiB)) →
      ((profileSq m S row col).avgColor.r.between loR hiR = true ∧
        (profileSq m S row col).avgColor.g.between loG hiG = true ∧
        (profileSq m S row col).avgColor.b.between loB hiB = true) ∧
      (profileSq m S row col).avgColor.inRange = true := by
  have cast : ∀ a b c : Nat, a ≤ b ∧ b ≤ c → (a : ℚ) ≤ (b : ℚ) ∧ (b : ℚ) ≤ (c : ℚ) := by
    intro a b c h
    exact ⟨by exact_mod_cast h.1, by exact_mod_cast h.2⟩
  have hR : (hiR : ℚ) ≤ 65535 := by exact_mod_cast h65.1
  have hG : (hiG : ℚ) ≤ 65535 := by exact_mod_cast h65.2.1
  have hB : (hiB : ℚ) ≤ 65535 := by exact_mod_cast h65.2.2
  have fin : ∀ s : Sums, s.Within loR hiR loG hiG loB hiB → 0 < s.count →
      (s.toColor.r.between loR hiR = true ∧ s.toColor.g.between loG hiG = true ∧
        s.toColor.b.between loB hiB = true) ∧ s.toColor.inRange = true := by
    intro s hw hc
    have hb := toColor_between s _ _ _ _ _ _ hw hc
    refine ⟨hb, ?_⟩
    simp only [Color.inRange, Bool.and_eq_true]
    exact ⟨⟨between_inRange _ _ _ (Nat.cast_nonneg _) hR hb.1,
      between_inRange _ _ _ (Nat.cast_nonneg _) hG hb.2.1⟩,
      between_inRange _ _ _ (Nat.cast_nonneg _) hB hb.2.2⟩
  have himg := fin (sumRegion m m.bounds.Min.X m.bounds.Max.X m.bounds.Min.Y m.bounds.Max.Y)
    (sumRegion_within m _ _ _ _ _ _ _ _ _ _ (by
      intro x y h1 h2 h3 h4
      obtain ⟨a, b, c⟩ := hs x y (by simp [Rectangle.Contains, h1, h2, h3, h4])
      exact ⟨cast _ _ _ a, cast _ _ _ b, cast _ _ _ c⟩))
    (by
      rw [sumRegion_count]
      have : 0 < (m.bounds.Max.Y - m.bounds.Min.Y).toNat * (m.bounds.Max.X - m.bounds.Min.X).toNat := by
        apply Nat.mul_pos <;> omega
      exact_mod_cast this)
  refine ⟨himg.1, himg.2, ?_⟩
  intro S row col hcx hcy hreg
  rw [profileSq_avgColor]
  apply fin
  · unfold squareSums
    apply sumRegion_within
    intro x y h1 h2 h3 h4
    obtain ⟨a, b, c⟩ := hreg x y h1 h2 h3 h4
    exact ⟨cast _ _ _ a, cast _ _ _ b, cast _ _ _ c⟩
  · rw [squareSums_count]
    have : 0 < (min ((row : Int) * S + S) m.bounds.Max.Y - (row : Int) * S).toNat *
        (min ((col : Int) * S + S) m.bounds.Max.X - (col : Int) * S).toNat := by
      apply Nat.mul_pos <;> omega
    exact_mod_cast this

theorem twoTone_samples (x y : Int) :
    (100 ≤ (twoTone.At x y).r ∧ (twoTone.At x y).r ≤ 300) ∧
    (0 ≤ (twoTone.At x y).g ∧ (twoTone.At x y).g ≤ 0) ∧
    (0 ≤ (twoTone.At x y).b ∧ (twoTone.At x y).b ≤ 0) := by
  simp only [twoTone, mkImage]
  split_ifs <;> decide

/-- C19 witness: the 2x2 target whose red samples are 100 and 300, and its
square of row 0 and column 1 for squares of size 1. -/
theorem avgColor_between_witness :
    ((avgColor twoTone).r.between ((100 : ℕ) : ℚ) ((300 : ℕ) : ℚ) = true ∧
      (avgColor twoTone).g.between ((0 : ℕ) : ℚ) ((0 : ℕ) : ℚ) = true ∧
      (avgColor twoTone).b.between ((0 : ℕ) : ℚ) ((0 : ℕ) : ℚ) = true) ∧
    (avgColor twoTone).inRange = true ∧
    ((profileSq twoTone 1 0 1).avgColor.r.between ((100 : ℕ) : ℚ) ((300 : ℕ) : ℚ) = true ∧
      (profileSq twoTone 1 0 1).avgColor.g.between ((0 : ℕ) : ℚ) ((0 : ℕ) : ℚ) = true ∧
      (profileSq twoTone 1 0 1).avgColor.b.between ((0 : ℕ) : ℚ) ((0 : ℕ) : ℚ) = true) ∧
    (profileSq twoTone 1 0 1).avgColor.inRange = true := by
  have h := avgColor_between twoTone 100 300 0 0 0 0 (by decide) (by decide)
    (fun x y _ => twoTone_samples x y) (by decide)
  obtain ⟨h1, h2, h3⟩ := h
  have h4 := h3 1 0 1 (by decide) (by decide) (fun x y _ _ _ _ => twoTone_samples x y)
  exact ⟨h1, h2, h4.1, h4.2⟩

/-! ## Square sizes that are not positive -/

/-- With `sqSize = 0` the division in `colorProfile` panics. -/
theorem Mosaic_zero_panics (resize : Nat → Nat → Image → Image) (target : Image)
    (tiles : List Image) : Mosaic resize target tiles 0 = Result.panic := by
  simp [Mosaic, colorProfile]

theorem colorProfile_greyTile_neg :
    colorProfile greyTile (-2) = some [[profileSq greyTile (-2) 0 0]] := by
  unfold colorProfile
  rw [if_neg (by decide)]
  have e : Int.tdiv (greyTile.bounds.Max.X - greyTile.bounds.Min.X) (-2) + 1 = 1 := by decide
  simp only [e]
  rfl

theorem colorProfile_grey300_neg : colorProfile grey300 (-2) = some [] := by
  unfold colorProfile
  rw [if_neg (by decide)]
  have e : Int.tdiv (grey300.bounds.Max.X - grey300.bounds.Min.X) (-2) + 1 = 0 := by decide
  simp only [e]
  rfl

/-- C11 (code defect): `Mosaic` never returns an error.  With `sqSize = 0` it
panics on the integer division by zero in `colorProfile`, whatever the target
and the tiles.  With `sqSize = -2` and a 1x1 target it returns a 2x2 canvas
with a nil error, and with `sqSize = -2` and a 2x2 target it allocates an empty
grid and returns an empty canvas with a nil error. -/
theorem Mosaic_nonpositive_sqSize :
    (∀ (resize : Nat → Nat → Image → Image) (target : Image) (tiles : List Image) (S : Int),
      Mosaic resize target tiles S ≠ Result.error) ∧
    (∀ (resize : Nat → Nat → Image → Image) (target : Image) (tiles : List Image),
      Mosaic resize target tiles 0 = Result.panic) ∧
    (∀ resize : Nat → Nat → Image → Image,
      ∃ out, Mosaic resize greyTile [] (-2) = Result.ok out ∧
        out.bounds = ⟨⟨-2, -2⟩, ⟨0, 0⟩⟩) ∧
    (∀ resize : Nat → Nat → Image → Image,
      ∃ out, colorProfile grey300 (-2) = some [] ∧
        Mosaic resize grey300 [] (-2) = Result.ok out ∧ out.bounds = ⟨⟨0, 0⟩, ⟨0, 0⟩⟩) := by
  refine ⟨Mosaic_ne_error, Mosaic_zero_panics, ?_, ?_⟩
  · intro resize
    obtain ⟨dest, g1, g2, _⟩ := NewRGBA_Rect 0 0 (-2 * (1 : Int)) (-2 * (1 : Int))
    refine ⟨dest, ?_, ?_⟩
    · rw [Mosaic_ok]
      exact ⟨_, dest, colorProfile_greyTile_neg, g1, rfl⟩
    · rw [g2]
      decide
  · intro resize
    obtain ⟨dest, g1, g2, _⟩ := NewRGBA_Rect 0 0 (-2 * (0 : Int)) (-2 * (0 : Int))
    refine ⟨dest, colorProfile_grey300_neg, ?_, ?_⟩
    · rw [Mosaic_ok]
      exact ⟨_, dest, colorProfile_grey300_neg, g1, rfl⟩
    · rw [g2]
      decide

end GoMosaic
